import Mathlib

/-!
# guppi_daq: capture loop and UDP packet helpers

A shallow embedding of `src/guppi_net_thread.c` (the capture loop) and
`src/guppi_udp.c` (packet classification, sequence numbers, payload copies),
followed by theorems about them.

Conventions of the embedding:

* `unsigned long long` and `size_t` values are natural numbers below `2 ^ 64`,
  `unsigned` values are natural numbers below `2 ^ 32`; every arithmetic result
  stored in such a variable is reduced explicitly.
* `int` and `long long` values are integers.
* A byte buffer is a function from byte offset to byte value.
* The data region of ring block `b` is addressed as `mem b offset`; the pointer
  `curdata` of the capture loop is represented by the block index it was
  obtained for (`curblock`), `-1` standing for the initial `NULL`.
* Calls into the ring buffer and into the block header, which live outside
  `src/`, are recorded in a call log, newest call first.
* Floating point status values (`DROPAVG`, `DROPTOT`, `DROPBLK`) and the
  `NETSTAT` status strings are not part of the embedding.
-/

namespace GuppiDaq

/-! ## Machine arithmetic -/

/-- Reduction to an unsigned 64-bit value (`unsigned long long`, `size_t`). -/
def wrap64 (n : Nat) : Nat := n % 2 ^ 64

/-- Reduction to an unsigned 32-bit value (`unsigned`). -/
def wrap32 (n : Nat) : Nat := n % 2 ^ 32

/-- Unsigned 64-bit subtraction `a - b`. -/
def sub64 (a b : Nat) : Nat := (a % 2 ^ 64 + (2 ^ 64 - b % 2 ^ 64)) % 2 ^ 64

/-- Conversion of an unsigned 64-bit value to `long long` (two's complement). -/
def toInt64 (x : Nat) : Int :=
  if x % 2 ^ 64 < 2 ^ 63 then ((x % 2 ^ 64 : Nat) : Int)
  else ((x % 2 ^ 64 : Nat) : Int) - 2 ^ 64

/-- A byte buffer: the byte stored at each offset. -/
abbrev Bytes := Nat → Nat

/-! ## Return codes and packet structures -/

/-- The return codes of `guppi_error.h` used by the code under `src/`; the header
is not under `src/`, the codes are taken as distinct constants. -/
inductive Code where
  | GUPPI_OK
  | GUPPI_TIMEOUT
  | GUPPI_ERR_SYS
  | GUPPI_ERR_PACKET
  deriving DecidableEq

/-- The fields of `struct guppi_udp_params` that the modelled code uses. -/
structure guppi_udp_params where
  packet_size : Nat
  nchan : Int

/-- The fields of `struct guppi_udp_packet` that the modelled code uses.
`seq_num` is the field read by `guppi_net_thread`; `guppi_udp_recv` does not
write it. -/
structure guppi_udp_packet where
  packet_size : Nat
  nchan : Int
  data : Bytes
  seq_num : Nat

/-- Function `guppi_udp_wait`: classification of the result of `poll`. -/
def guppi_udp_wait (poll_rv : Int) : Code :=
  if poll_rv = 1 then Code.GUPPI_OK
  else if poll_rv = 0 then Code.GUPPI_TIMEOUT
  else Code.GUPPI_ERR_SYS

/-- Function `guppi_udp_recv`: `rv` is the result of `recv` (`-1` or the number of bytes
received) and `bytes` the datagram.  Returns the code, the updated parameters
and the updated packet buffer. -/
def guppi_udp_recv (p : guppi_udp_params) (b : guppi_udp_packet) (rv : Int) (bytes : Bytes) :
    Code × guppi_udp_params × guppi_udp_packet :=
  let b1 : guppi_udp_packet :=
    { b with
      data := fun i => if (i : Int) < rv then bytes i else b.data i
      packet_size := (rv % 2 ^ 64).toNat
      nchan := p.nchan }
  if rv = -1 then (Code.GUPPI_ERR_SYS, p, b1)
  else if p.packet_size ≠ 0 then
    if (rv % 2 ^ 64).toNat ≠ p.packet_size then (Code.GUPPI_ERR_PACKET, p, b1)
    else (Code.GUPPI_OK, p, b1)
  else (Code.GUPPI_OK, { p with packet_size := (rv % 2 ^ 64).toNat }, b1)

/-! ## The capture loop of `guppi_net_thread` -/

/-- Keys written to a block header when the block is closed. -/
inductive Key where
  | PKTIDX
  | PKTSIZE
  | NPKT
  | NDROP
  deriving DecidableEq

/-- Calls the capture loop makes on a ring block: header puts, ring handoff and
writes into the data region (`off` is the byte offset from the start of the
block's data region).  The called functions are declared outside `src/`; a call
is recorded with the block it addresses and, for `hputi4`, the value of the
argument expression as the loop computes it. -/
inductive Call where
  | hputi4 (block : Int) (key : Key) (value : Nat)
  | guppi_write_params (block : Int)
  | guppi_databuf_set_filled (block : Int)
  | guppi_databuf_wait_free (block : Int)
  | memset (block : Int) (off : Nat) (len : Nat)
  | memcpy (block : Int) (off : Nat) (len : Nat)
  deriving DecidableEq

/-- Values fixed before the main loop starts. -/
structure NetCfg where
  packet_data_size : Nat
  packets_per_block : Nat
  n_block : Int

/-- The set-up before the loop: `packet_hdr_size` is the offset of `data` in
`struct guppi_udp_packet` (declared outside `src/`), `block_size` and `n_block`
come from the ring.  `none` when the division traps. -/
def net_setup (up_packet_size packet_hdr_size block_size : Nat) (n_block : Int) : Option NetCfg :=
  let packet_data_size := sub64 up_packet_size packet_hdr_size
  if packet_data_size = 0 then none
  else some
    { packet_data_size := packet_data_size
      packets_per_block := wrap32 (block_size / packet_data_size)
      n_block := n_block }

/-- The variables of `guppi_net_thread` that live across loop iterations, the
data regions of the ring blocks, and the log of calls (newest first). -/
structure NetState where
  up : guppi_udp_params
  npacket_total : Nat
  npacket_block : Nat
  ndropped_total : Nat
  ndropped_block : Nat
  nbogus_total : Nat
  nbogus_block : Nat
  curblock_seq_num : Nat
  nextblock_seq_num : Nat
  last_seq_num : Nat
  curblock : Int
  block_packet_idx : Nat
  last_block_packet_idx : Nat
  force_new_block : Nat
  waiting : Nat
  dataptr : Nat
  mem : Int → Nat → Nat
  calls : List Call

/-- The state at loop entry. -/
def net_init (up : guppi_udp_params) (mem : Int → Nat → Nat) : NetState :=
  { up := up
    npacket_total := 0, npacket_block := 0
    ndropped_total := 0, ndropped_block := 0
    nbogus_total := 0, nbogus_block := 0
    curblock_seq_num := 0, nextblock_seq_num := 0
    last_seq_num := 2048
    curblock := -1
    block_packet_idx := 0, last_block_packet_idx := 0
    force_new_block := 0, waiting := 0
    dataptr := 0
    mem := mem
    calls := [] }

/-- Why the thread stopped: `pthread_exit` after a reported error, or a trap
(integer division by zero). -/
inductive Halt where
  | exit
  | trap
  deriving DecidableEq

/-- What one loop iteration consumes: the result of `poll`, the result of
`recv` with the datagram, and the value of `p.seq_num` the loop reads. -/
structure NetEvent where
  poll_rv : Int
  recv_rv : Int
  bytes : Bytes
  seq_num : Nat

/-- The block close-out and advance of lines 169-207, for a packet with
sequence number `seq`. -/
def net_rollover (c : NetCfg) (s : NetState) (seq : Nat) : Except Halt NetState :=
  let calls1 : List Call :=
    if s.curblock ≥ 0 then
      Call.guppi_databuf_set_filled s.curblock ::
      Call.guppi_write_params s.curblock ::
      Call.hputi4 s.curblock Key.NDROP s.ndropped_block ::
      Call.hputi4 s.curblock Key.NPKT s.npacket_block ::
      Call.hputi4 s.curblock Key.PKTSIZE c.packet_data_size ::
      Call.hputi4 s.curblock Key.PKTIDX s.curblock_seq_num :: s.calls
    else s.calls
  if c.n_block = 0 then Except.error Halt.trap
  else
    let curblock := Int.tmod (s.curblock + 1) c.n_block
    if c.packets_per_block = 0 then Except.error Halt.trap
    else
      let curblock_seq_num := sub64 seq (seq % c.packets_per_block)
      Except.ok
        { s with
          npacket_block := 0
          ndropped_block := 0
          nbogus_block := 0
          curblock := curblock
          last_block_packet_idx := 0
          curblock_seq_num := curblock_seq_num
          nextblock_seq_num := wrap64 (curblock_seq_num + c.packets_per_block)
          calls := Call.guppi_databuf_wait_free curblock :: calls1 }

/-- One pass of the zero-fill loop body (lines 214-219). -/
def net_fill_body (c : NetCfg) (s : NetState) : NetState :=
  { s with
    mem := fun b o =>
      if b = s.curblock ∧ s.dataptr ≤ o ∧ o < s.dataptr + c.packet_data_size then 0
      else s.mem b o
    calls := Call.memset s.curblock s.dataptr c.packet_data_size :: s.calls
    dataptr := s.dataptr + c.packet_data_size
    ndropped_block := wrap64 (s.ndropped_block + 1)
    ndropped_total := wrap64 (s.ndropped_total + 1)
    npacket_total := wrap64 (s.npacket_total + 1)
    npacket_block := wrap64 (s.npacket_block + 1) }

/-- The zero-fill loop `for (i=last_block_packet_idx; i<block_packet_idx; i++)`,
given its number of passes. -/
def net_fill_loop (c : NetCfg) : Nat → NetState → NetState
  | 0, s => s
  | n + 1, s => net_fill_loop c n (net_fill_body c s)

/-- Lines 210-225: zero-fill the skipped slots and copy the packet payload. -/
def net_place (c : NetCfg) (s : NetState) (seq : Nat) (data : Bytes) : NetState :=
  let block_packet_idx := wrap32 (sub64 seq s.curblock_seq_num)
  let s1 : NetState :=
    { s with
      block_packet_idx := block_packet_idx
      dataptr := wrap64 (s.last_block_packet_idx * c.packet_data_size) }
  let s2 := net_fill_loop c (block_packet_idx - s.last_block_packet_idx) s1
  { s2 with
    mem := fun b o =>
      if b = s2.curblock ∧ s2.dataptr ≤ o ∧ o < s2.dataptr + c.packet_data_size then
        data (o - s2.dataptr)
      else s2.mem b o
    calls := Call.memcpy s2.curblock s2.dataptr c.packet_data_size :: s2.calls
    npacket_total := wrap64 (s2.npacket_total + 1)
    npacket_block := wrap64 (s2.npacket_block + 1)
    last_block_packet_idx := wrap32 (block_packet_idx + 1)
    last_seq_num := seq }

/-- The packet buffer `p` handed to `guppi_udp_recv`: its `seq_num` field holds
the value the loop is going to read.  Bytes past the received length read as 0
here (in C they keep what earlier datagrams left there); the loop copies
`packet_data_size` bytes, which an accepted datagram of the configured size
covers. -/
def net_packet_buffer (ev : NetEvent) : guppi_udp_packet :=
  { packet_size := 0, nchan := 0, data := fun _ => 0, seq_num := ev.seq_num }

/-- One iteration of the main loop of `guppi_net_thread`. -/
def guppi_net_thread (c : NetCfg) (s : NetState) (ev : NetEvent) : Except Halt NetState :=
  match guppi_udp_wait ev.poll_rv with
  | Code.GUPPI_TIMEOUT => Except.ok { s with waiting := 1 }
  | Code.GUPPI_ERR_SYS => Except.error Halt.exit
  | Code.GUPPI_ERR_PACKET => Except.error Halt.exit
  | Code.GUPPI_OK =>
    match guppi_udp_recv s.up (net_packet_buffer ev) ev.recv_rv ev.bytes with
    | (Code.GUPPI_ERR_PACKET, up1, _) =>
      Except.ok
        { s with
          up := up1
          nbogus_total := wrap64 (s.nbogus_total + 1)
          nbogus_block := wrap64 (s.nbogus_block + 1) }
    | (Code.GUPPI_ERR_SYS, _, _) => Except.error Halt.exit
    | (Code.GUPPI_TIMEOUT, _, _) => Except.error Halt.exit
    | (Code.GUPPI_OK, up1, p) =>
      let s0 : NetState := { s with up := up1, waiting := 0 }
      let seq_num_diff := toInt64 (sub64 p.seq_num s0.last_seq_num)
      let checked : Option NetState :=
        if seq_num_diff < 0 then
          if seq_num_diff < -1024 then some { s0 with force_new_block := 1 }
          else none
        else some { s0 with force_new_block := 0 }
      match checked with
      | none => Except.ok s0
      | some s1 =>
        if p.seq_num ≥ s1.nextblock_seq_num ∨ s1.force_new_block ≠ 0 then
          (net_rollover c s1 p.seq_num).map (fun s2 => net_place c s2 p.seq_num p.data)
        else Except.ok (net_place c s1 p.seq_num p.data)

/-- The loop run over a list of events; it stops at the first halt. -/
def net_run (c : NetCfg) : NetState → List NetEvent → Except Halt NetState
  | s, [] => Except.ok s
  | s, ev :: evs =>
    match guppi_net_thread c s ev with
    | Except.ok s1 => net_run c s1 evs
    | Except.error h => Except.error h


/-! ## Observations on the call log -/

/-- Number of `guppi_databuf_wait_free` calls in a call log. -/
def acquired : List Call → Nat
  | [] => 0
  | Call.guppi_databuf_wait_free _ :: l => acquired l + 1
  | _ :: l => acquired l

/-- Number of `memset` calls on block `b` since the most recent
`guppi_databuf_wait_free`: the slots of the block in hand that were zero-filled. -/
def zero_filled (b : Int) : List Call → Nat
  | [] => 0
  | Call.guppi_databuf_wait_free _ :: _ => 0
  | Call.memset b1 _ _ :: l => if b1 = b then zero_filled b l + 1 else zero_filled b l
  | _ :: l => zero_filled b l

/-- A 64-bit counter after `n` increments by one. -/
def bumped (x n : Nat) : Nat := if n = 0 then x else wrap64 (x + n)

/-- The event of a datagram of `len` bytes with sequence number `seq`. -/
def packet_event (len : Nat) (seq : Nat) (bytes : Bytes) : NetEvent :=
  { poll_rv := 1, recv_rv := (len : Int), bytes := bytes, seq_num := seq }


/-- Both `guppi_udp_wait` and `guppi_udp_recv` return `GUPPI_OK` for the event:
the datagram reaches the sequence number check. -/
def received_ok (s : NetState) (ev : NetEvent) : Prop :=
  guppi_udp_wait ev.poll_rv = Code.GUPPI_OK ∧
  (guppi_udp_recv s.up (net_packet_buffer ev) ev.recv_rv ev.bytes).1 = Code.GUPPI_OK

/-- The signed difference `seq_num_diff` the loop computes for the event. -/
def seq_num_diff (s : NetState) (ev : NetEvent) : Int :=
  toInt64 (sub64 ev.seq_num s.last_seq_num)

/-- The state in which the sequence number check of an accepted datagram runs:
`guppi_udp_recv` may have recorded the packet size, and `waiting` is cleared. -/
def after_recv (s : NetState) (ev : NetEvent) : NetState :=
  { s with
    up := (guppi_udp_recv s.up (net_packet_buffer ev) ev.recv_rv ev.bytes).2.1
    waiting := 0 }

/-- The payload bytes `p.data` the loop copies for the event. -/
def recv_data (s : NetState) (ev : NetEvent) : Bytes :=
  (guppi_udp_recv s.up (net_packet_buffer ev) ev.recv_rv ev.bytes).2.2.data

/-! ## Scenario set-up -/

/-- The loop constants of the spec's capture scenarios: 8192-byte payloads,
4 packets per block, a ring of 24 blocks. -/
def scenario_cfg : NetCfg :=
  { packet_data_size := 8192, packets_per_block := 4, n_block := 24 }

/-- The state at loop entry for the scenarios: packets of 8208 bytes are
expected, and every byte of every block holds the stale value `0xFF`. -/
def scenario_init : NetState :=
  net_init { packet_size := 8208, nchan := 4 } (fun _ _ => 0xFF)

/-- An 8208-byte datagram with sequence number `seq` whose bytes all equal `v`. -/
def scenario_packet (seq : Nat) (v : Nat) : NetEvent :=
  packet_event 8208 seq (fun _ => v)

/-- The state a run ends in; the starting state when the run halts. -/
def net_run_state (c : NetCfg) (s : NetState) (evs : List NetEvent) : NetState :=
  match net_run c s evs with
  | Except.ok s1 => s1
  | Except.error _ => s

/-- The scenario state after the packets with sequence numbers 100 and 101. -/
def scenario_after_100_101 : NetState :=
  net_run_state scenario_cfg scenario_init [scenario_packet 100 0xAA, scenario_packet 101 0xAA]

/-- The effect on the data regions of placing payload `data` in slot `idx` of
block `b` when the zero-fill starts at slot `first`: the slots `first .. idx-1`
hold zeros, slot `idx` holds the payload, and every other byte of every block is
as in `mem0`.  Slots are `pds` bytes wide. -/
def placed_with_zero_fill (pds : Nat) (b : Int) (first idx : Nat) (data : Bytes)
    (mem0 mem1 : Int → Nat → Nat) : Prop :=
  (∀ o, first * pds ≤ o → o < idx * pds → mem1 b o = 0) ∧
  (∀ o, o < pds → mem1 b (idx * pds + o) = data o) ∧
  (∀ b1 o, (b1 ≠ b ∨ o < first * pds ∨ (idx + 1) * pds ≤ o) → mem1 b1 o = mem0 b1 o)

/-- No packet has been accepted yet: the variables still have their values at
loop entry and no call has been made. -/
def no_block_yet (s : NetState) : Prop :=
  s.last_seq_num = 2048 ∧ s.nextblock_seq_num = 0 ∧ s.calls = [] ∧
  s.npacket_total = 0 ∧ s.ndropped_total = 0 ∧ s.ndropped_block = 0

/-- The window of the block in hand: aligned to `packets_per_block`, one block
long, containing the last accepted sequence number, with
`last_block_packet_idx` one past that packet's slot; at most as many slots were
zero-filled as precede that slot. -/
def window_ok (c : NetCfg) (s : NetState) : Prop :=
  s.curblock_seq_num % c.packets_per_block = 0 ∧
  s.nextblock_seq_num = s.curblock_seq_num + c.packets_per_block ∧
  s.curblock_seq_num ≤ s.last_seq_num ∧
  s.last_seq_num < s.nextblock_seq_num ∧
  s.last_block_packet_idx = s.last_seq_num - s.curblock_seq_num + 1 ∧
  s.last_seq_num < 2 ^ 63 ∧
  zero_filled s.curblock s.calls ≤ s.last_seq_num - s.curblock_seq_num

/-- The events of a stream of datagrams of `len` bytes with the given sequence
numbers; `bytes q` is the content of the datagram with sequence number `q`. -/
def stream_events (len : Nat) (bytes : Nat → Bytes) (seqs : List Nat) : List NetEvent :=
  seqs.map (fun q => packet_event len q (bytes q))

/-- The count the capture loop reaches for a strictly increasing stream: for
each block that receives a packet, the slots from the start of the block up to
the last packet received in it, that is `(last mod packets_per_block) + 1`. -/
def gap_fill_total (ppb : Nat) : List Nat → Nat
  | [] => 0
  | [a] => a % ppb + 1
  | a :: t :: rest =>
    (if a / ppb = t / ppb then 0 else a % ppb + 1) + gap_fill_total ppb (t :: rest)

/-- The state of the loop in the middle of a strictly increasing stream: `a` is
the last accepted sequence number, `closed` the slots counted in the blocks
before the one in hand, `k` the number of packets placed. -/
def stream_inv (c : NetCfg) (len : Nat) (s : NetState) (a closed k : Nat) : Prop :=
  window_ok c s ∧ s.last_seq_num = a ∧ s.up.packet_size = len ∧
  s.npacket_total = closed + a % c.packets_per_block + 1 ∧
  s.npacket_total ≤ a + 1 ∧
  s.ndropped_total + k = s.npacket_total

/-- The largest sequence number of a stream (0 for the empty stream). -/
def max_seq (seqs : List Nat) : Nat := seqs.foldl max 0

/-- The smallest sequence number of a stream (0 for the empty stream). -/
def min_seq : List Nat → Nat
  | [] => 0
  | a :: rest => rest.foldl min a


/-! ## Packet helpers of `guppi_udp.c` -/

/-- Byte `i` of the in-memory representation of a 64-bit value on a
little-endian host. -/
def byte_of (d : Nat) (i : Nat) : Nat := d / 256 ^ i % 256

/-- The 64-bit value a little-endian host reads from the 8 bytes at `off`. -/
def load64 (b : Bytes) (off : Nat) : Nat :=
  b off % 256 + b (off + 1) % 256 * 256 + b (off + 2) % 256 * 256 ^ 2
    + b (off + 3) % 256 * 256 ^ 3 + b (off + 4) % 256 * 256 ^ 4
    + b (off + 5) % 256 * 256 ^ 5 + b (off + 6) % 256 * 256 ^ 6
    + b (off + 7) % 256 * 256 ^ 7

/-- The buffer after a little-endian host stores the 64-bit value `d` at `off`. -/
def store64 (b : Bytes) (off : Nat) (d : Nat) : Bytes :=
  fun j => if off ≤ j ∧ j < off + 8 then byte_of d (j - off) else b j

/-- Function `change_endian64`: byte `i` of the result is byte `7 - i` of the argument. -/
def change_endian64 (d : Nat) : Nat :=
  load64 (fun i => byte_of d (7 - i)) 0

/-- The 8 bytes at `off` read as a big-endian unsigned integer. -/
def be64 (b : Bytes) (off : Nat) : Nat :=
  b off % 256 * 256 ^ 7 + b (off + 1) % 256 * 256 ^ 6 + b (off + 2) % 256 * 256 ^ 5
    + b (off + 3) % 256 * 256 ^ 4 + b (off + 4) % 256 * 256 ^ 3
    + b (off + 5) % 256 * 256 ^ 2 + b (off + 6) % 256 * 256 + b (off + 7) % 256

/-- The packet sizes of the `#define`s. -/
def PACKET_SIZE_ORIG : Nat := 8208

/-- Size of a "short" packet. -/
def PACKET_SIZE_SHORT : Nat := 544

/-- Size of a "1SFA" packet. -/
def PACKET_SIZE_1SFA : Nat := 8224

/-- Size of an old "1SFA" packet. -/
def PACKET_SIZE_1SFA_OLD : Nat := 8160

/-- Size of a "fast4k" packet. -/
def PACKET_SIZE_FAST4K : Nat := 4128

/-- Size of a VDIF packet. -/
def PACKET_SIZE_VDIF : Nat := 1032

/-- Size of a "simple" packet. -/
def PACKET_SIZE_SIMPLE : Nat := 8200

/-- Function `guppi_udp_packet_seq_num`, for a little-endian host. -/
def guppi_udp_packet_seq_num (p : guppi_udp_packet) : Nat :=
  if p.packet_size = PACKET_SIZE_SIMPLE then
    let plen := change_endian64 (load64 p.data (8 * 1024))
    if (plen &&& 0xFF00000000000000) >>> 56 = 16 then (plen &&& 0xFFFFFFFFFF) >>> 14
    else (plen &&& 0xFFFFFFFFFF) >>> 13
  else change_endian64 (load64 p.data 0)

/-- Function `guppi_udp_packet_datasize`; `vdif_header_bytes` is the value of the macro
`VDIF_HEADER_BYTES` of `vdifio.h`, which is not under `src/`. -/
def guppi_udp_packet_datasize (vdif_header_bytes : Nat) (packet_size : Nat) : Nat :=
  if packet_size = PACKET_SIZE_1SFA then 8192
  else if packet_size = PACKET_SIZE_FAST4K then 4096
  else if packet_size = PACKET_SIZE_SHORT then 512
  else if packet_size = PACKET_SIZE_VDIF then sub64 packet_size vdif_header_bytes
  else if packet_size = PACKET_SIZE_SIMPLE then 8192
  else sub64 packet_size (2 * 8)

/-- Function `guppi_udp_packet_data`: the offset of the payload within `p.data`. -/
def guppi_udp_packet_data (vdif_header_bytes : Nat) (p : guppi_udp_packet) : Nat :=
  if p.packet_size = PACKET_SIZE_VDIF then wrap64 vdif_header_bytes
  else if p.packet_size = PACKET_SIZE_SIMPLE then 0
  else 8

/-- Store of one byte: `out[i] = v`. -/
def poke (out : Bytes) (i : Nat) (v : Nat) : Bytes :=
  fun j => if j = i then v else out j

/-- The call `memcpy(out + dst, src + start, n)`, source and destination not overlapping. -/
def copy_bytes (out : Bytes) (dst : Nat) (src : Bytes) (start : Nat) (n : Nat) : Bytes :=
  fun j => if dst ≤ j ∧ j < dst + n then src (start + (j - dst)) else out j

/-- The call `memset(out + dst, 0, n)`. -/
def zero_bytes (out : Bytes) (dst : Nat) (n : Nat) : Bytes :=
  fun j => if dst ≤ j ∧ j < dst + n then 0 else out j

/-- The body of the two loops of the "simple" branch of
`guppi_udp_packet_data_copy` (the eight assignments, in order). -/
def simple_copy_body (nchan : Nat) (inp : Bytes) (ichan itime : Nat) (out : Bytes) : Bytes :=
  let o1 := poke out (0 + 4 * (nchan * (2 * itime + 0) + ichan))
    (inp (2 + 8 * (nchan * itime + ichan)))
  let o2 := poke o1 (1 + 4 * (nchan * (2 * itime + 0) + ichan))
    (inp (3 + 8 * (nchan * itime + ichan)))
  let o3 := poke o2 (2 + 4 * (nchan * (2 * itime + 0) + ichan))
    (inp (6 + 8 * (nchan * itime + ichan)))
  let o4 := poke o3 (3 + 4 * (nchan * (2 * itime + 0) + ichan))
    (inp (7 + 8 * (nchan * itime + ichan)))
  let o5 := poke o4 (0 + 4 * (nchan * (2 * itime + 1) + ichan))
    (inp (0 + 8 * (nchan * itime + ichan)))
  let o6 := poke o5 (1 + 4 * (nchan * (2 * itime + 1) + ichan))
    (inp (1 + 8 * (nchan * itime + ichan)))
  let o7 := poke o6 (2 + 4 * (nchan * (2 * itime + 1) + ichan))
    (inp (4 + 8 * (nchan * itime + ichan)))
  poke o7 (3 + 4 * (nchan * (2 * itime + 1) + ichan))
    (inp (5 + 8 * (nchan * itime + ichan)))

/-- The inner loop `for (itime=0; itime<ntime; itime++)`. -/
def simple_copy_times (nchan ntime : Nat) (inp : Bytes) (ichan : Nat) (out : Bytes) : Bytes :=
  (List.range ntime).foldl (fun o itime => simple_copy_body nchan inp ichan itime o) out

/-- The outer loop `for (ichan=0; ichan<nchan; ichan++)`. -/
def simple_copy_loops (nchan ntime : Nat) (inp : Bytes) (out : Bytes) : Bytes :=
  (List.range nchan).foldl (fun o ichan => simple_copy_times nchan ntime inp ichan o) out

/-- Function `guppi_udp_packet_data_copy`: the output buffer after the call, `none` when
`1024/nchan` traps.  The loops of the "simple" branch run only for positive
`nchan`, so their index arithmetic is done on natural numbers. -/
def guppi_udp_packet_data_copy (vdif_header_bytes : Nat) (out : Bytes)
    (p : guppi_udp_packet) : Option Bytes :=
  if p.packet_size = PACKET_SIZE_1SFA_OLD then
    let pad := 16
    let spec_data_size := 4096 - 2 * pad
    let src := guppi_udp_packet_data vdif_header_bytes p
    let o1 := zero_bytes out 0 pad
    let o2 := copy_bytes o1 pad p.data src spec_data_size
    let o3 := zero_bytes o2 (pad + spec_data_size) (2 * pad)
    let o4 := copy_bytes o3 (pad + spec_data_size + pad + pad) p.data (src + spec_data_size)
      spec_data_size
    some (zero_bytes o4 (pad + spec_data_size + pad + pad + spec_data_size) pad)
  else if p.packet_size = PACKET_SIZE_SIMPLE then
    let src := guppi_udp_packet_data vdif_header_bytes p
    if p.nchan = 0 then none
    else
      let ntime := Int.tdiv 1024 p.nchan
      some (simple_copy_loops p.nchan.toNat ntime.toNat (fun i => p.data (src + i)) out)
  else
    some (copy_bytes out 0 p.data (guppi_udp_packet_data vdif_header_bytes p)
      (guppi_udp_packet_datasize vdif_header_bytes p.packet_size))

/-- The first reorder loop of `parkes_to_guppi` (`npol == 2`): pass `i` copies
two bytes to each of `pol0` and `pol1`. -/
def parkes_reorder2 (nchan : Nat) (inp : Bytes) (n : Nat) (tmp : Bytes) : Bytes :=
  (List.range n).foldl (fun t i =>
    let t1 := poke t (2 * i) (inp (4 * i))
    let t2 := poke t1 (2 * i + 1) (inp (4 * i + 1))
    let t3 := poke t2 (nchan + 2 * i) (inp (4 * i + 2))
    poke t3 (nchan + 2 * i + 1) (inp (4 * i + 3))) tmp

/-- The second reorder loop of `parkes_to_guppi` (`npol == 4`): pass `i` copies
one byte to each of `pol0 .. pol3`. -/
def parkes_reorder4 (nchan : Nat) (inp : Bytes) (n : Nat) (tmp : Bytes) : Bytes :=
  (List.range n).foldl (fun t i =>
    let t1 := poke t i (inp (4 * i))
    let t2 := poke t1 (nchan + i) (inp (4 * i + 1))
    let t3 := poke t2 (2 * nchan + i) (inp (4 * i + 2))
    poke t3 (3 * nchan + i) (inp (4 * i + 3))) tmp

/-- The value of `counts_per_packet`: the `int` product `(nchan/2) * acc_len`
converted to `unsigned int`.  A product outside the range of `int` is taken in
two's complement, so the conversion is the product modulo `2 ^ 32`. -/
def counts_per_packet (acc_len nchan : Int) : Nat :=
  ((Int.tdiv nchan 2 * acc_len) % 2 ^ 32).toNat

/-- The accesses of `parkes_to_guppi` stay inside the arrays: `tmp` and
`b->data` both have `max_packet_size` bytes (the constant
`GUPPI_MAX_PACKET_SIZE`, defined outside `src/`).  The counter occupies bytes
0 to 7 of `b->data`; for `npol == 2` the loop writes `tmp` up to index
`nchan + 2*(nchan/2) - 1` and reads `b->data` up to index `8 + 4*(nchan/2) - 1`;
for `npol == 4` it writes `tmp` up to `4*nchan - 1` and reads `b->data` up to
`8 + 4*nchan - 1`; the final `memcpy` moves `npol*nchan` bytes (as a `size_t`)
from `tmp` to `b->data + 8`. -/
def parkes_in_bounds (max_packet_size : Nat) (npol nchan : Int) : Prop :=
  8 ≤ max_packet_size ∧
  (npol = 2 → 0 < Int.tdiv nchan 2 →
    nchan + 2 * Int.tdiv nchan 2 ≤ (max_packet_size : Int) ∧
    8 + 4 * Int.tdiv nchan 2 ≤ (max_packet_size : Int)) ∧
  (npol = 4 → 0 < nchan →
    4 * nchan ≤ (max_packet_size : Int) ∧ 8 + 4 * nchan ≤ (max_packet_size : Int)) ∧
  (((npol * nchan) % 2 ^ 64).toNat ≠ 0 →
    8 + ((npol * nchan) % 2 ^ 64).toNat ≤ max_packet_size)

/-- Function `parkes_to_guppi`: the packet after the call.  `none` when the
division by `counts_per_packet` traps, and when an access leaves the arrays
`tmp` or `b->data` (the call has no defined result then).  `tmp0` is the content
of the uninitialised local array `tmp`. -/
def parkes_to_guppi (max_packet_size : Nat) (tmp0 : Bytes) (b : guppi_udp_packet)
    (acc_len npol nchan : Int) : Option guppi_udp_packet :=
  if max_packet_size < 8 then none
  else if counts_per_packet acc_len nchan = 0 then none
  else
    let packet_idx := change_endian64 (load64 b.data 0)
    let packet_idx := packet_idx / counts_per_packet acc_len nchan
    let data1 := store64 b.data 0 (change_endian64 packet_idx)
    let inp : Bytes := fun i => data1 (8 + i)
    let reordered : Option Bytes :=
      if npol = 2 then
        if 0 < Int.tdiv nchan 2 ∧
            ¬ (nchan + 2 * Int.tdiv nchan 2 ≤ (max_packet_size : Int) ∧
              8 + 4 * Int.tdiv nchan 2 ≤ (max_packet_size : Int)) then none
        else some (parkes_reorder2 nchan.toNat inp (Int.tdiv nchan 2).toNat tmp0)
      else if npol = 4 then
        if 0 < nchan ∧
            ¬ (4 * nchan ≤ (max_packet_size : Int) ∧
              8 + 4 * nchan ≤ (max_packet_size : Int)) then none
        else some (parkes_reorder4 nchan.toNat inp nchan.toNat tmp0)
      else some tmp0
    match reordered with
    | none => none
    | some tmp =>
      if ((npol * nchan) % 2 ^ 64).toNat ≠ 0 ∧
          max_packet_size < 8 + ((npol * nchan) % 2 ^ 64).toNat then none
      else some { b with data := copy_bytes data1 8 tmp 0 ((npol * nchan) % 2 ^ 64).toNat }

/-- Offset, within the 8-byte input group of a channel, of byte `k` of output
time sample `t`: bytes 2, 3, 6, 7 for even `t`, bytes 0, 1, 4, 5 for odd `t`. -/
def simple_src (t k : Nat) : Nat :=
  if t % 2 = 0 then [2, 3, 6, 7].getD k 0 else [0, 1, 4, 5].getD k 0

/-- The input byte that belongs at output offset `j` of a deinterleaved "simple"
packet with `n` channels: output offset `j` is byte `j mod 4` of channel
`(j div 4) mod n` at time `(j div 4) div n`. -/
def simple_target (n : Nat) (inp : Bytes) (j : Nat) : Nat :=
  inp (8 * (n * (j / 4 / n / 2) + j / 4 % n) + simple_src (j / 4 / n) (j % 4))


/-! ## The coordinator loop of `guppi_fold_thread`

Times (`fmjd`, `fmjd0`, `fmjd_next`, `tfold`) are variables of type `double`.
A double is represented by a pair of integers `m`, `e` standing for `m * 2^e`,
and the operations on doubles round to the nearest number with 53 significant
bits, ties to the even one, as the IEEE 754 binary64 operations do; the range
of the exponent is not limited (no overflow, no subnormal numbers), nothing is
infinite or NaN.  The worker threads, the FoldBufs and the polyco file are
outside the embedding: the coordinator's calls on them are recorded in a call
log (newest call first), and what they return is part of the input of an
iteration.  A thread handle is represented by the slot of `thread_id` it is
stored in. -/

/-- The number `m * 2^e`. -/
structure Dyadic where
  m : Int
  e : Int
  deriving DecidableEq, Repr

/-- The rational number a `Dyadic` stands for. -/
def dval (x : Dyadic) : ℚ := (x.m : ℚ) * (2 : ℚ) ^ x.e

/-- With `n ≤ fuel`: the position of the highest set bit of `n` (0 for
`n < 2`). -/
def log2_fuel : Nat → Nat → Nat
  | 0, _ => 0
  | fuel + 1, n => if n < 2 then 0 else log2_fuel fuel (n / 2) + 1

/-- The position of the highest set bit of `n`: `2^(floor_log2 n) ≤ n <
2^(floor_log2 n + 1)` for `n ≠ 0`. -/
def floor_log2 (n : Nat) : Nat := log2_fuel n n

/-- Numerator and denominator of `n / d * 2^s`. -/
def scaled (n d : Nat) (s : Int) : Nat × Nat :=
  if 0 ≤ s then (n * 2 ^ s.toNat, d) else (n, d * 2 ^ (-s).toNat)

/-- The double nearest to `n / d * 2^e` (`d ≠ 0`): the quotient is scaled by
`2^s` into the interval from `2^52` to `2^53` and rounded to an integer, ties
to even. -/
def round_ratio (n d : Nat) (e : Int) : Dyadic :=
  if n = 0 then { m := 0, e := 0 }
  else
    let s0 : Int := 52 - ((floor_log2 n : Int) - (floor_log2 d : Int))
    let s : Int := if (scaled n d s0).1 / (scaled n d s0).2 < 2 ^ 52 then s0 + 1 else s0
    let N := (scaled n d s).1
    let D := (scaled n d s).2
    let q := N / D
    let r := N % D
    let M := if 2 * r < D then q else if D < 2 * r then q + 1 else if q % 2 = 0 then q else q + 1
    { m := (M : Int), e := e - s }

/-- The sign put back on a rounded magnitude. -/
def with_sign (neg : Bool) (x : Dyadic) : Dyadic :=
  if neg then { m := -x.m, e := x.e } else x

/-- Conversion to `double`: the double nearest to `x`. -/
def dround (x : Dyadic) : Dyadic :=
  with_sign (decide (x.m < 0)) (round_ratio x.m.natAbs 1 x.e)

/-- The double division `x / d` for a double `x` and a positive integer
constant `d`. -/
def ddiv (x : Dyadic) (d : Nat) : Dyadic :=
  with_sign (decide (x.m < 0)) (round_ratio x.m.natAbs d x.e)

/-- The exact sum of two numbers. -/
def dadd (x y : Dyadic) : Dyadic :=
  { m := x.m * 2 ^ (x.e - min x.e y.e).toNat + y.m * 2 ^ (y.e - min x.e y.e).toNat
    e := min x.e y.e }

/-- The comparison `x < y`. -/
def dlt (x y : Dyadic) : Bool :=
  decide (x.m * 2 ^ (x.e - min x.e y.e).toNat < y.m * 2 ^ (y.e - min x.e y.e).toNat)

/-- Conversion of an integer to `int` (32 bits, two's complement). -/
def wrap_int32 (x : Int) : Int := (x + 2 ^ 31) % 2 ^ 32 - 2 ^ 31

/-- Keys the coordinator writes to an output block header with `hputi4`. -/
inductive FoldKey where
  | NBIN
  | PKTIDX
  | NBLOCK
  | NPKT
  | NDROP
  deriving DecidableEq, Repr

/-- Calls of the coordinator (and of the null consumer).  Ring A is `db_in`,
Ring B is `db_out`; `fb_data` is the block of Ring B whose data region `fb.data`
points to, `-1` for `NULL`. -/
inductive FoldCall where
  | guppi_databuf_wait_filled (block : Int)
  | guppi_databuf_set_free (block : Int)
  | guppi_databuf_set_filled (block : Int)
  | guppi_databuf_wait_free (block : Int)
  | pthread_join (slot : Int) (rv : Int)
  | accumulate_folds (fb_data : Int) (slot : Int)
  | clear_foldbuf (slot : Int)
  | clear_foldbuf_total (fb_data : Int)
  | pthread_create (slot : Int) (block : Int) (rv : Int)
  | header_copy (out_block : Int) (in_block : Int)
  | hputs_obs_mode (out_block : Int)
  | hputi4 (out_block : Int) (key : FoldKey) (value : Int)
  deriving DecidableEq, Repr

/-- The ring sizes `db_in->n_block` and `db_out->n_block`. -/
structure FoldCfg where
  n_block_in : Int
  n_block_out : Int

/-- The constant `nthread`. -/
def nthread : Int := 4

/-- The constant `tfold`, in seconds: the double `60.0`. -/
def tfold : Dyadic := { m := 60, e := 0 }

/-- What one iteration of the coordinator reads from outside: the parameters
parsed from the input block header (`gp.packetindex`, `gp.n_packets`,
`gp.n_dropped`, `pf.hdr.nchan`, `pf.hdr.npol`), the value `secs` of the
expression `pf.hdr.start_sec + pf.hdr.dt*gp.packetindex*gp.packetsize
/pf.hdr.nchan/pf.hdr.npol` of lines 163-164 (the types of its operands are
declared outside `src/`), the results of `pthread_join` per slot, whether
`polyco.dat` opens and how many records it holds, the result of `select_pc`, and
the result of `pthread_create`. -/
structure FoldEvent where
  packetindex : Int
  n_packets : Int
  n_dropped : Int
  nchan : Int
  npol : Int
  secs : Dyadic
  join_rv : Int → Int
  polyco_file_ok : Bool
  npc : Int
  ipc : Int
  create_rv : Int

/-- The variables of the coordinator that live across iterations, and the call
log.  `hdr_out` is the block of Ring B whose header `hdr_out` points to (`-1`
before the first assignment). -/
structure FoldState where
  curblock_in : Int
  curblock_out : Int
  refresh_polycos : Bool
  next_integration : Bool
  first : Bool
  nblock_int : Int
  npacket : Int
  ndrop : Int
  cur_thread : Int
  fmjd0 : Dyadic
  fmjd_next : Dyadic
  input_block_list : Int → Int
  fb_data : Int
  hdr_out : Int
  log : List FoldCall

/-- The state at loop entry. -/
def fold_init : FoldState :=
  { curblock_in := 0, curblock_out := 0
    refresh_polycos := true, next_integration := false, first := true
    nblock_int := 0, npacket := 0, ndrop := 0
    cur_thread := 0
    fmjd0 := { m := 0, e := 0 }, fmjd_next := { m := 0, e := 0 }
    input_block_list := fun _ => -1
    fb_data := -1
    hdr_out := -1
    log := [] }

/-- A state together with the reason the thread stopped there, if it did. -/
abbrev FoldResult := FoldState × Option Halt

/-- Sequencing: continue with `f` unless the thread has stopped. -/
def fold_then (r : FoldResult) (f : FoldState → FoldResult) : FoldResult :=
  match r.2 with
  | none => f r.1
  | some _ => r

/-- Lines 150-159: after the header is parsed, a packet index 0 on a block other
than the first arms the integration boundary. -/
def fold_read_params (s : FoldState) (ev : FoldEvent) : FoldState :=
  if ev.packetindex = 0 then
    if ¬ s.first then { s with next_integration := true } else s
  else s

/-- Lines 163-165: the double `fmjd` of the iteration.  The value of the
expression is stored in the double `fmjd`, which is then divided by
`86400.0`. -/
def fold_fmjd (ev : FoldEvent) : Dyadic := ddiv (dround ev.secs) 86400

/-- Lines 172 and 242: the double `fmjd0 + tfold/86400.0`, the quotient and
the sum each rounded to a double. -/
def fold_fmjd_next (fmjd0 : Dyadic) : Dyadic := dround (dadd fmjd0 (ddiv tfold 86400))

/-- Lines 168-195: the first-time set-up. -/
def fold_first_time (s : FoldState) (ev : FoldEvent) : FoldState :=
  { s with
    fmjd0 := fold_fmjd ev
    fmjd_next := fold_fmjd_next (fold_fmjd ev)
    hdr_out := s.curblock_out
    log :=
      FoldCall.hputi4 s.curblock_out FoldKey.NBIN 256 ::
      FoldCall.header_copy s.curblock_out s.curblock_in ::
      FoldCall.clear_foldbuf 3 :: FoldCall.clear_foldbuf 2 ::
      FoldCall.clear_foldbuf 1 :: FoldCall.clear_foldbuf 0 :: s.log
    first := false }

/-- One pass of the join loop, lines 206-223. -/
def fold_join_body (ev : FoldEvent) (s : FoldState) (i : Int) : FoldState :=
  let s1 : FoldState := { s with log := FoldCall.pthread_join i (ev.join_rv i) :: s.log }
  if ev.join_rv i ≠ 0 then s1
  else
    let s2 : FoldState :=
      if s1.input_block_list i ≥ 0 then
        { s1 with log := FoldCall.guppi_databuf_set_free (s1.input_block_list i) :: s1.log }
      else s1
    { s2 with
      log := FoldCall.clear_foldbuf i :: FoldCall.accumulate_folds s2.fb_data i :: s2.log
      input_block_list := fun j => if j = i then -1 else s2.input_block_list j }

/-- The join loop `for (i=0; i<cur_thread; i++)` over its first `n` passes. -/
def fold_join_loop (ev : FoldEvent) (n : Nat) (s : FoldState) : FoldState :=
  (List.range n).foldl (fun st i => fold_join_body ev st (i : Int)) s

/-- Lines 201-228: combine the results of the workers in flight. -/
def fold_combine (s : FoldState) (ev : FoldEvent) : FoldState :=
  if s.cur_thread = nthread ∨ s.next_integration then
    { fold_join_loop ev s.cur_thread.toNat s with cur_thread := 0 }
  else s

/-- Lines 231-264: close the current output block and set up the next one. -/
def fold_finalize (c : FoldCfg) (s : FoldState) (ev : FoldEvent) : FoldResult :=
  if s.next_integration then
    let s1 : FoldState :=
      { s with
        log := FoldCall.guppi_databuf_set_filled s.curblock_out :: s.log
        fmjd0 := fold_fmjd ev
        fmjd_next := fold_fmjd_next (fold_fmjd ev) }
    if c.n_block_out = 0 then (s1, some Halt.trap)
    else
      let curblock_out := Int.tmod (s1.curblock_out + 1) c.n_block_out
      ({ s1 with
          curblock_out := curblock_out
          hdr_out := curblock_out
          fb_data := curblock_out
          log :=
            FoldCall.clear_foldbuf_total curblock_out ::
            FoldCall.hputi4 curblock_out FoldKey.PKTIDX ev.packetindex ::
            FoldCall.hputi4 curblock_out FoldKey.NBIN 256 ::
            FoldCall.hputs_obs_mode curblock_out ::
            FoldCall.header_copy curblock_out s1.curblock_in ::
            FoldCall.guppi_databuf_wait_free curblock_out :: s1.log
          nblock_int := 0
          npacket := 0
          ndrop := 0
          next_integration := false }, none)
  else (s, none)

/-- Lines 268-297: load the polycos when needed and select one. -/
def fold_polyco (s : FoldState) (ev : FoldEvent) : FoldResult :=
  fold_then
    (if s.refresh_polycos then
      if ¬ ev.polyco_file_ok then (s, some Halt.exit)
      else if ev.npc = 0 then (s, some Halt.exit)
      else ({ s with refresh_polycos := false }, none)
    else (s, none))
    (fun s1 => if ev.ipc < 0 then (s1, some Halt.exit) else (s1, none))

/-- Lines 300-317: hand the input block to the worker slot `cur_thread`.  The
integer division for `nsamp` traps when `nchan` or `npol` is 0. -/
def fold_launch (s : FoldState) (ev : FoldEvent) : FoldResult :=
  let s1 : FoldState :=
    { s with
      input_block_list := fun j => if j = s.cur_thread then s.curblock_in
        else s.input_block_list j }
  if ev.nchan = 0 ∨ ev.npol = 0 then (s1, some Halt.trap)
  else
    let s2 : FoldState :=
      { s1 with
        log := FoldCall.pthread_create s1.cur_thread s1.curblock_in ev.create_rv :: s1.log }
    if ev.create_rv ≠ 0 then (s2, none)
    else ({ s2 with cur_thread := s2.cur_thread + 1 }, none)

/-- Lines 319-330: update the counters of the output header and advance to the
next input block. -/
def fold_account (c : FoldCfg) (s : FoldState) (ev : FoldEvent) : FoldResult :=
  let nblock_int := wrap_int32 (s.nblock_int + 1)
  let npacket := wrap_int32 (s.npacket + ev.n_packets)
  let ndrop := wrap_int32 (s.ndrop + ev.n_dropped)
  let s1 : FoldState :=
    { s with
      nblock_int := nblock_int
      npacket := npacket
      ndrop := ndrop
      log :=
        FoldCall.hputi4 s.hdr_out FoldKey.NDROP ndrop ::
        FoldCall.hputi4 s.hdr_out FoldKey.NPKT npacket ::
        FoldCall.hputi4 s.hdr_out FoldKey.NBLOCK nblock_int :: s.log }
  if c.n_block_in = 0 then (s1, some Halt.trap)
  else ({ s1 with curblock_in := Int.tmod (s1.curblock_in + 1) c.n_block_in }, none)

/-- Lines 141-198: wait for the input block, read its parameters, first-time
set-up, and the test of the integration boundary. -/
def fold_begin (s : FoldState) (ev : FoldEvent) : FoldState :=
  let s1 : FoldState :=
    { s with log := FoldCall.guppi_databuf_wait_filled s.curblock_in :: s.log }
  let s2 := fold_read_params s1 ev
  let s3 := if s2.first then fold_first_time s2 ev else s2
  if dlt s3.fmjd_next (fold_fmjd ev) then { s3 with next_integration := true } else s3

/-- One iteration of the main loop of `guppi_fold_thread`. -/
def guppi_fold_thread (c : FoldCfg) (s : FoldState) (ev : FoldEvent) : FoldResult :=
  fold_then (fold_finalize c (fold_combine (fold_begin s ev) ev) ev) (fun s1 =>
  fold_then (fold_polyco s1 ev) (fun s2 =>
  fold_then (fold_launch s2 ev) (fun s3 =>
  fold_account c s3 ev)))

/-- The loop run over a list of iterations; it stops at the first halt. -/
def fold_run (c : FoldCfg) : FoldState → List FoldEvent → FoldResult
  | s, [] => (s, none)
  | s, ev :: evs =>
    fold_then (guppi_fold_thread c s ev) (fun s1 => fold_run c s1 evs)

/-! ## The loop of `guppi_null_thread` -/

/-- The variables of the null consumer and its call log. -/
structure NullState where
  curblock : Int
  log : List FoldCall

/-- One iteration of the main loop of `guppi_null_thread`. -/
def guppi_null_thread (n_block : Int) (s : NullState) : NullState × Option Halt :=
  let s1 : NullState :=
    { s with
      log := FoldCall.guppi_databuf_set_free s.curblock ::
        FoldCall.guppi_databuf_wait_filled s.curblock :: s.log }
  if n_block = 0 then (s1, some Halt.trap)
  else ({ s1 with curblock := Int.tmod (s1.curblock + 1) n_block }, none)

/-- The null consumer run for `n` iterations; it stops at the first halt. -/
def null_run (n_block : Int) : Nat → NullState → NullState × Option Halt
  | 0, s => (s, none)
  | n + 1, s =>
    match guppi_null_thread n_block s with
    | (s1, none) => null_run n_block n s1
    | (s1, some h) => (s1, some h)


/-! ## Observations on the call logs of the three loops -/

/-- The blocks the capture loop acquired with `guppi_databuf_wait_free`, oldest
first. -/
def wait_free_blocks : List Call → List Int
  | [] => []
  | Call.guppi_databuf_wait_free b :: l => wait_free_blocks l ++ [b]
  | _ :: l => wait_free_blocks l

/-- The blocks acquired with `guppi_databuf_wait_filled`, oldest first. -/
def wait_filled_blocks : List FoldCall → List Int
  | [] => []
  | FoldCall.guppi_databuf_wait_filled b :: l => wait_filled_blocks l ++ [b]
  | _ :: l => wait_filled_blocks l

/-- The first `n` indices of the round-robin order on a ring of `N` blocks:
`0 mod N, 1 mod N, ..., (n-1) mod N`. -/
def round_robin (N : Int) (n : Nat) : List Int :=
  (List.range n).map (fun (k : Nat) => (k : Int) % N)

/-- The state of the null consumer at loop entry. -/
def null_init : NullState := { curblock := 0, log := [] }

/-- The calls of the null consumer on block `b`, oldest first. -/
def null_visit (b : Int) : List FoldCall :=
  [FoldCall.guppi_databuf_wait_filled b, FoldCall.guppi_databuf_set_free b]

/-- The calls one pass of the join loop makes for slot `i` (newest first), given
the table `input_block_list` and the merge target at loop entry. -/
def join_slot_events (ev : FoldEvent) (ibl : Int → Int) (fb_data : Int) (i : Int) :
    List FoldCall :=
  if ev.join_rv i ≠ 0 then [FoldCall.pthread_join i (ev.join_rv i)]
  else if ibl i ≥ 0 then
    [FoldCall.clear_foldbuf i, FoldCall.accumulate_folds fb_data i,
      FoldCall.guppi_databuf_set_free (ibl i), FoldCall.pthread_join i (ev.join_rv i)]
  else
    [FoldCall.clear_foldbuf i, FoldCall.accumulate_folds fb_data i,
      FoldCall.pthread_join i (ev.join_rv i)]

/-- The calls of the first `n` passes of the join loop (newest first). -/
def join_events (ev : FoldEvent) (ibl : Int → Int) (fb_data : Int) : Nat → List FoldCall
  | 0 => []
  | n + 1 => join_slot_events ev ibl fb_data (n : Int) ++ join_events ev ibl fb_data n

/-- The capture loop has acquired the first blocks of the round-robin order, and
its next block is the one that follows them. -/
def capture_order (c : NetCfg) (s : NetState) : Prop :=
  wait_free_blocks s.calls = round_robin c.n_block (wait_free_blocks s.calls).length ∧
  Int.tmod (s.curblock + 1) c.n_block = ((wait_free_blocks s.calls).length : Int) % c.n_block

/-- Every `pthread_create` of the log was made for a slot `0 <= slot < nthread`
of the arrays `thread_id`, `input_block_list` and `fargs`. -/
def launches_within_pool : List FoldCall → Prop
  | [] => True
  | FoldCall.pthread_create slot _ _ :: l =>
    (0 ≤ slot ∧ slot < nthread) ∧ launches_within_pool l
  | _ :: l => launches_within_pool l

/-- The value of `cur_thread` when the iteration that starts in state `s` with
input `ev` reaches the launch of a worker (line 300), where it indexes the
arrays. -/
def launch_slot (c : FoldCfg) (s : FoldState) (ev : FoldEvent) : Int :=
  (fold_polyco (fold_finalize c (fold_combine (fold_begin s ev) ev) ev).1 ev).1.cur_thread

/-- The bound on the worker pool: `0 <= cur_thread <= nthread`, and every launch
so far was within the pool. -/
def pool_bounded (s : FoldState) : Prop :=
  (0 ≤ s.cur_thread ∧ s.cur_thread ≤ nthread) ∧ launches_within_pool s.log

/-- The bound on the worker pool where a worker is about to be launched:
`0 <= cur_thread < nthread`. -/
def pool_has_room (s : FoldState) : Prop :=
  (0 ≤ s.cur_thread ∧ s.cur_thread < nthread) ∧ launches_within_pool s.log

/-- The blocks of Ring B the caller holds as producer: acquired with
`guppi_databuf_wait_free` and not passed to `guppi_databuf_set_filled` since. -/
def held_out : List FoldCall → List Int
  | [] => []
  | FoldCall.guppi_databuf_wait_free b :: l => b :: held_out l
  | FoldCall.guppi_databuf_set_filled b :: l => (held_out l).erase b
  | _ :: l => held_out l

/-- The producer protocol on Ring B: at every `guppi_databuf_set_filled b` of
the log the caller holds block `b` as producer. -/
def producer_protocol : List FoldCall → Bool
  | [] => true
  | FoldCall.guppi_databuf_set_filled b :: l => decide (b ∈ held_out l) && producer_protocol l
  | _ :: l => producer_protocol l

/-- An iteration in which everything outside the coordinator succeeds: the
polyco file loads, a polyco matches, the worker is created and the joins return
0.  The block has 1024 channels and 4 polarisations. -/
def smooth_event (packetindex : Int) (secs : Dyadic) (n_packets n_dropped : Int) : FoldEvent :=
  { packetindex := packetindex, n_packets := n_packets, n_dropped := n_dropped
    nchan := 1024, npol := 4
    secs := secs
    join_rv := fun _ => 0
    polyco_file_ok := true, npc := 1, ipc := 0
    create_rv := 0 }

/-- Two input blocks 70 s apart: the second one closes the first integration. -/
def two_block_events : List FoldEvent :=
  [smooth_event 0 { m := 0, e := 0 } 100 0, smooth_event 7000 { m := 70, e := 0 } 100 0]

/-! ## The calls of each phase of an iteration (newest first) -/

/-- Calls of the phase `fold_begin`. -/
def begin_events (s : FoldState) : List FoldCall :=
  if s.first then
    [FoldCall.hputi4 s.curblock_out FoldKey.NBIN 256,
      FoldCall.header_copy s.curblock_out s.curblock_in,
      FoldCall.clear_foldbuf 3, FoldCall.clear_foldbuf 2,
      FoldCall.clear_foldbuf 1, FoldCall.clear_foldbuf 0,
      FoldCall.guppi_databuf_wait_filled s.curblock_in]
  else [FoldCall.guppi_databuf_wait_filled s.curblock_in]

/-- Calls of the phase `fold_combine`. -/
def combine_events (s : FoldState) (ev : FoldEvent) : List FoldCall :=
  if s.cur_thread = nthread ∨ s.next_integration then
    join_events ev s.input_block_list s.fb_data s.cur_thread.toNat
  else []

/-- Calls of the phase `fold_finalize`. -/
def finalize_events (c : FoldCfg) (s : FoldState) (ev : FoldEvent) : List FoldCall :=
  if s.next_integration then
    if c.n_block_out = 0 then [FoldCall.guppi_databuf_set_filled s.curblock_out]
    else
      [FoldCall.clear_foldbuf_total (Int.tmod (s.curblock_out + 1) c.n_block_out),
        FoldCall.hputi4 (Int.tmod (s.curblock_out + 1) c.n_block_out) FoldKey.PKTIDX
          ev.packetindex,
        FoldCall.hputi4 (Int.tmod (s.curblock_out + 1) c.n_block_out) FoldKey.NBIN 256,
        FoldCall.hputs_obs_mode (Int.tmod (s.curblock_out + 1) c.n_block_out),
        FoldCall.header_copy (Int.tmod (s.curblock_out + 1) c.n_block_out) s.curblock_in,
        FoldCall.guppi_databuf_wait_free (Int.tmod (s.curblock_out + 1) c.n_block_out),
        FoldCall.guppi_databuf_set_filled s.curblock_out]
  else []

/-- Calls of the phase `fold_launch`. -/
def launch_events (s : FoldState) (ev : FoldEvent) : List FoldCall :=
  if ev.nchan = 0 ∨ ev.npol = 0 then []
  else [FoldCall.pthread_create s.cur_thread s.curblock_in ev.create_rv]

/-- Calls of the phase `fold_account`. -/
def account_events (s : FoldState) (ev : FoldEvent) : List FoldCall :=
  [FoldCall.hputi4 s.hdr_out FoldKey.NDROP (wrap_int32 (s.ndrop + ev.n_dropped)),
    FoldCall.hputi4 s.hdr_out FoldKey.NPKT (wrap_int32 (s.npacket + ev.n_packets)),
    FoldCall.hputi4 s.hdr_out FoldKey.NBLOCK (wrap_int32 (s.nblock_int + 1))]

/-- A monitor of the call log: a state `q` and a transition `step` that refuses
(`none`) the calls that break a rule.  The log holds the newest call first, so
its tail is run first. -/
def run_monitor {Q : Type} (step : Q → FoldCall → Option Q) (q : Q) : List FoldCall → Option Q
  | [] => some q
  | e :: l => (run_monitor step q l).bind (fun q1 => step q1 e)

/-- The inputs under which the worker is created and every join succeeds. -/
def workers_succeed (ev : FoldEvent) : Prop :=
  ev.create_rv = 0 ∧ ∀ i, ev.join_rv i = 0

/-! ## Monitors of the input ring -/

/-- The monitor behind "never waits for a block in flight": its state is the list
of Ring A blocks dispatched to a worker (a successful `pthread_create`) and not
yet passed to `guppi_databuf_set_free`, oldest first; it refuses a
`guppi_databuf_wait_filled` on a block of that list. -/
def in_flight_step (q : List Int) : FoldCall → Option (List Int)
  | FoldCall.pthread_create _ b rv => if rv = 0 then some (q ++ [b]) else some q
  | FoldCall.guppi_databuf_set_free b => some (q.erase b)
  | FoldCall.guppi_databuf_wait_filled b => if b ∈ q then none else some q
  | _ => some q

/-- The blocks in flight after the calls of a log, or `none` if the log waits
for a block in flight. -/
def in_flight (log : List FoldCall) : Option (List Int) :=
  run_monitor in_flight_step [] log

/-- The blocks held by the slots `n, n+1, ..., c-1` of the table. -/
def slot_blocks (ibl : Int → Int) (c n : Nat) : List Int :=
  ((List.range c).drop n).map (fun (i : Nat) => ibl (i : Int))

/-- The invariant of the coordinator on a ring of `N > 4` input blocks: it has
taken `k` blocks, the slots in use hold the last `cur_thread` of them, and
these are the blocks in flight. -/
def in_flight_inv (N : Nat) (s : FoldState) (k c : Nat) : Prop :=
  s.cur_thread = (c : Int) ∧ c ≤ 4 ∧ c ≤ k ∧
  (∀ i : Nat, i < c → s.input_block_list (i : Int) = (((k - c + i) % N : Nat) : Int)) ∧
  in_flight s.log = some (slot_blocks s.input_block_list c 0)

/-- The invariant between iterations: the next input block is block `k mod N`. -/
def in_flight_top (N : Nat) (s : FoldState) : Prop :=
  ∃ k c : Nat, in_flight_inv N s k c ∧ s.curblock_in = ((k % N : Nat) : Int)

/-- The invariant where the block `k mod N` is in hand and a slot is free for
it. -/
def in_flight_mid (N : Nat) (k : Nat) (s : FoldState) : Prop :=
  ∃ c : Nat, in_flight_inv N s k c ∧ c < 4 ∧ s.curblock_in = ((k % N : Nat) : Int)

/-- The invariant after the launch on block `k mod N`. -/
def in_flight_launched (N : Nat) (k : Nat) (s : FoldState) : Prop :=
  ∃ c : Nat, in_flight_inv N s (k + 1) c ∧ s.curblock_in = ((k % N : Nat) : Int)

/-- Input block `k` of a stream whose times advance by 10 s per block from
second `start`: packet index `100 k` (0 for the first block only), `100 + k`
packets of which `k` were dropped, and everything outside the coordinator
succeeds. -/
def ten_second_block_from (start : Nat) (k : Nat) : FoldEvent :=
  smooth_event (100 * (k : Int)) { m := ((start + 10 * k : Nat) : Int), e := 0 }
    (100 + (k : Int)) (k : Int)

/-- Input block `k` of the 10 s stream that starts at second 0. -/
def ten_second_block (k : Nat) : FoldEvent := ten_second_block_from 0 k

/-- The first `n` blocks of the 10 s stream. -/
def ten_second_blocks (n : Nat) : List FoldEvent :=
  (List.range n).map ten_second_block

/-- The blocks passed to `guppi_databuf_set_free`, oldest first. -/
def set_free_blocks : List FoldCall → List Int
  | [] => []
  | FoldCall.guppi_databuf_set_free b :: l => set_free_blocks l ++ [b]
  | _ :: l => set_free_blocks l

/-- Where an input block that was acquired and not yet freed stands: acquired
only, handed to the worker of a slot in a given iteration, or handed out in
that iteration and the worker joined since. -/
inductive RingStage where
  | acquired
  | running (slot : Int) (iteration : Nat)
  | joined (iteration : Nat)
  deriving DecidableEq, Repr

/-- The monitor of Ring A as a queue.  Its state is the number of
`guppi_databuf_wait_filled` calls so far (the iteration in progress) and the
blocks acquired and not yet freed, oldest first, each with its stage.  A
`guppi_databuf_set_free b` is accepted only when `b` is the oldest block of the
queue, the worker it was handed to has been joined, and it was handed out in an
earlier iteration. -/
def ring_a_step (q : Nat × List (Int × RingStage)) :
    FoldCall → Option (Nat × List (Int × RingStage))
  | FoldCall.guppi_databuf_wait_filled b => some (q.1 + 1, q.2 ++ [(b, RingStage.acquired)])
  | FoldCall.pthread_create slot b rv =>
    if rv = 0 then
      some (q.1, q.2.map (fun e =>
        if e = (b, RingStage.acquired) then (b, RingStage.running slot q.1) else e))
    else some q
  | FoldCall.pthread_join slot rv =>
    if rv = 0 then
      some (q.1, q.2.map (fun e =>
        match e.2 with
        | RingStage.running s d => if s = slot then (e.1, RingStage.joined d) else e
        | _ => e))
    else some q
  | FoldCall.guppi_databuf_set_free b =>
    match q.2 with
    | (b1, RingStage.joined d) :: rest => if b1 = b ∧ d < q.1 then some (q.1, rest) else none
    | _ => none
  | _ => some q

/-- The queue of Ring A after the calls of a log, or `none` if a
`guppi_databuf_set_free` of the log came out of order, before the join, or in
the iteration of the dispatch. -/
def ring_a_fifo (log : List FoldCall) : Option (Nat × List (Int × RingStage)) :=
  run_monitor ring_a_step (0, []) log

/-- The queue entries of the slots `n, n+1, ..., c-1`: slot `i` runs on block
`ibl i`, handed out in iteration `ds i`. -/
def slot_entries (ibl : Int → Int) (ds : Nat → Nat) (c n : Nat) : List (Int × RingStage) :=
  (List.range' n (c - n)).map (fun (i : Nat) => (ibl (i : Int), RingStage.running (i : Int) (ds i)))

/-- The invariant of the coordinator for the queue of Ring A: `c` slots are in
use, their blocks were handed out in the first `n` iterations, and the queue
holds these blocks followed by `rest` (the block in hand, if any). -/
def fifo_inv (s : FoldState) (n c : Nat) (rest : List (Int × RingStage)) : Prop :=
  s.cur_thread = (c : Int) ∧ 0 ≤ s.curblock_in ∧
  ∃ ds : Nat → Nat, (∀ i : Nat, i < c → ds i ≤ n ∧ 0 ≤ s.input_block_list (i : Int)) ∧
    ring_a_fifo s.log = some (n + rest.length, slot_entries s.input_block_list ds c 0 ++ rest)

/-- The queue invariant between iterations. -/
def fifo_top (s : FoldState) : Prop := ∃ n c : Nat, fifo_inv s n c []

/-- The queue invariant where the input block of iteration `n + 1` is in hand. -/
def fifo_mid (n : Nat) (s : FoldState) : Prop :=
  ∃ c : Nat, fifo_inv s n c [(s.curblock_in, RingStage.acquired)]

/-! ## The monitor of the integrations -/

/-- The value of `key` in the header of output block `b` as the calls of the log
left it: the last `hputi4` of that key since the header was last overwritten
with `memcpy`, if any. -/
def last_put (b : Int) (key : FoldKey) : List FoldCall → Option Int
  | [] => none
  | FoldCall.hputi4 b1 k v :: l => if b1 = b ∧ k = key then some v else last_put b key l
  | FoldCall.header_copy b1 _ :: l => if b1 = b then none else last_put b key l
  | _ :: l => last_put b key l

/-- The output blocks sealed with `guppi_databuf_set_filled`, oldest first, each
with the values of `NBLOCK`, `NPKT` and `NDROP` its header carried when it was
sealed. -/
def sealed_headers : List FoldCall → List (Int × Option Int × Option Int × Option Int)
  | [] => []
  | FoldCall.guppi_databuf_set_filled b :: l =>
    sealed_headers l ++
      [(b, last_put b FoldKey.NBLOCK l, last_put b FoldKey.NPKT l, last_put b FoldKey.NDROP l)]
  | _ :: l => sealed_headers l

/-- The sum `f a + f (a+1) + ... + f (a+n-1)`. -/
def range_sum (f : Nat → Int) (a n : Nat) : Int :=
  ((List.range n).map (fun (j : Nat) => f (a + j))).sum

/-- The stream of C12: the seconds of the blocks advance by 10 s per block from
`t0`, only the first block has packet index 0, the polyco file loads and a
polyco always matches, and no block has 0 channels or polarisations. -/
def ten_second_stream (blocks : Nat → FoldEvent) (t0 : ℚ) : Prop :=
  (∀ k, dval (blocks k).secs = t0 + 10 * (k : ℚ)) ∧
  (∀ k, (blocks k).packetindex = 0 ↔ k = 0) ∧
  ((blocks 0).polyco_file_ok = true ∧ (blocks 0).npc ≠ 0) ∧
  (∀ k, 0 ≤ (blocks k).ipc) ∧
  (∀ k, (blocks k).nchan ≠ 0 ∧ (blocks k).npol ≠ 0)

/-- The number of input blocks of the integration that begins at input block
`a` of a 10 s stream: 6 when the double `fmjd` of block `a + 6` is greater than
the double `fmjd_next` set at block `a`, and 7 otherwise. -/
def integration_length (blocks : Nat → FoldEvent) (a : Nat) : Nat :=
  if dlt (fold_fmjd_next (fold_fmjd (blocks a))) (fold_fmjd (blocks (a + 6))) then 6 else 7

/-- The sealed header of the `i`-th integration, made of the `g` input blocks
from block `a` on: the output block, `NBLOCK`, `NPKT` and `NDROP`. -/
def integration_header (blocks : Nat → FoldEvent) (No i a g : Nat) :
    Int × Option Int × Option Int × Option Int :=
  (((i % No : Nat) : Int), some (g : Int),
    some (wrap_int32 (range_sum (fun k => (blocks k).n_packets) a g)),
    some (wrap_int32 (range_sum (fun k => (blocks k).n_dropped) a g)))

/-- The headers of the integrations of a 10 s stream that are sealed once `n`
input blocks are processed, from the `i`-th integration, which begins at input
block `a`, on (at most `fuel` of them): an integration is sealed when the
block after its last one is processed. -/
def sealed_integrations (blocks : Nat → FoldEvent) (No n : Nat) :
    Nat → Nat → Nat → List (Int × Option Int × Option Int × Option Int)
  | 0, _, _ => []
  | fuel + 1, i, a =>
    if a + integration_length blocks a < n then
      integration_header blocks No i a (integration_length blocks a) ::
        sealed_integrations blocks No n fuel (i + 1) (a + integration_length blocks a)
    else []

/-- The list `L` holds the headers of the consecutive integrations from the
`i0`-th one, which begins at input block `a0`, up to the `i`-th one, which
begins at input block `a`, excluded. -/
def integration_chain (blocks : Nat → FoldEvent) (No : Nat) :
    List (Int × Option Int × Option Int × Option Int) → Nat → Nat → Nat → Nat → Prop
  | [], i0, a0, i, a => i0 = i ∧ a0 = a
  | h :: t, i0, a0, i, a =>
    h = integration_header blocks No i0 a0 (integration_length blocks a0) ∧
    integration_chain blocks No t (i0 + 1) (a0 + integration_length blocks a0) i a

/-- The state of the coordinator after the input block `a + r` of the stream
of C12, the `r + 1`-th block of the `i`-th integration, which began at block
`a`: the integrations before it are sealed, and the header of output block
`i mod No` carries the counts of the `r + 1` blocks of the integration in
progress. -/
def steady_state (blocks : Nat → FoldEvent) (No : Nat) (s : FoldState) (i a r : Nat) : Prop :=
  s.first = false ∧ s.next_integration = false ∧ s.refresh_polycos = false ∧
  s.fmjd_next = fold_fmjd_next (fold_fmjd (blocks a)) ∧
  s.curblock_out = ((i % No : Nat) : Int) ∧ s.hdr_out = ((i % No : Nat) : Int) ∧
  s.nblock_int = ((r + 1 : Nat) : Int) ∧
  s.npacket = wrap_int32 (range_sum (fun k => (blocks k).n_packets) a (r + 1)) ∧
  s.ndrop = wrap_int32 (range_sum (fun k => (blocks k).n_dropped) a (r + 1)) ∧
  integration_chain blocks No (sealed_headers s.log) 0 0 i a ∧
  last_put s.hdr_out FoldKey.NBLOCK s.log = some s.nblock_int ∧
  last_put s.hdr_out FoldKey.NPKT s.log = some s.npacket ∧
  last_put s.hdr_out FoldKey.NDROP s.log = some s.ndrop

/-- Calls that touch neither an output header nor the state of an output block:
the observations `last_put` and `sealed_headers` skip them. -/
def quiet (J : List FoldCall) : Prop :=
  ∀ l : List FoldCall, sealed_headers (J ++ l) = sealed_headers l ∧
    ∀ (b : Int) (key : FoldKey), last_put b key (J ++ l) = last_put b key l

/-- The event `ev` with every `pthread_join` returning `rv`. -/
def with_join_rv (rv : Int) (ev : FoldEvent) : FoldEvent :=
  { ev with join_rv := fun _ => rv }

/-- The event `ev` with `pthread_create` returning `rv`. -/
def with_create_rv (rv : Int) (ev : FoldEvent) : FoldEvent :=
  { ev with create_rv := rv }


/-! ## The window of the capture loop -/

/-- The window of the block in hand: `curblock_seq_num` is a multiple of
`packets_per_block`, `nextblock_seq_num` is one block further, and the last
accepted sequence number lies between them. -/
def capture_window (c : NetCfg) (s : NetState) : Prop :=
  s.curblock_seq_num % c.packets_per_block = 0 ∧
  s.nextblock_seq_num = s.curblock_seq_num + c.packets_per_block ∧
  s.curblock_seq_num ≤ s.last_seq_num ∧
  s.last_seq_num < s.nextblock_seq_num

/-- No packet has been accepted yet: `last_seq_num` and `nextblock_seq_num`
have their values at loop entry. -/
def unstarted (s : NetState) : Prop :=
  s.last_seq_num = 2048 ∧ s.nextblock_seq_num = 0

/-- The loop accepts the packet of the event: the datagram is received with the
configured size and its sequence number is not in the late window
`-1024 <= seq_num_diff < 0`. -/
def accepted (s : NetState) (ev : NetEvent) : Prop :=
  received_ok s ev ∧ ¬ (seq_num_diff s ev < 0 ∧ ¬ seq_num_diff s ev < -1024)

/-- All sequence numbers of the events leave room for one block below `2 ^ 63`. -/
def seqs_leave_room (c : NetCfg) (evs : List NetEvent) : Prop :=
  ∀ ev ∈ evs, ev.seq_num + c.packets_per_block < 2 ^ 63

/-- The scenario state after the packet with sequence number 100. -/
def scenario_after_100 : NetState :=
  net_run_state scenario_cfg scenario_init [scenario_packet 100 0xAA]

/-- The capture variables have their values at loop entry: no packet has been
accepted, there is no current block (`curblock = -1`), `last_seq_num = 2048`,
and no call on the ring has been made.  (Time-outs and datagrams of the wrong
size leave this state apart from `waiting`, the bogus counters and `up`.) -/
def loop_entry (s : NetState) : Prop :=
  s.last_seq_num = 2048 ∧ s.curblock = -1 ∧
  s.curblock_seq_num = 0 ∧ s.nextblock_seq_num = 0 ∧
  s.last_block_packet_idx = 0 ∧
  s.npacket_total = 0 ∧ s.npacket_block = 0 ∧
  s.ndropped_total = 0 ∧ s.ndropped_block = 0 ∧
  s.calls = []

/-- The `memset` calls that zero-fill the slots `0, 1, ..., n-1` of block `b`,
oldest first. -/
def zero_fill_calls (c : NetCfg) (b : Int) (start n : Nat) : List Call :=
  (List.range n).map (fun (i : Nat) =>
    Call.memset b (start + i * c.packet_data_size) c.packet_data_size)

/-! ## Lemmas on machine arithmetic -/

theorem sub64_eq_sub (a b : Nat) (ha : a < 2 ^ 64) (hb : b ≤ a) : sub64 a b = a - b := by
  unfold sub64
  omega

theorem sub64_mod_self (seq ppb : Nat) (hseq : seq < 2 ^ 64) :
    sub64 seq (seq % ppb) = seq - seq % ppb :=
  sub64_eq_sub _ _ hseq (Nat.mod_le _ _)

theorem sub_mod_self_mod (seq ppb : Nat) : (seq - seq % ppb) % ppb = 0 := by
  have h := Nat.div_add_mod seq ppb
  have e : seq - seq % ppb = ppb * (seq / ppb) := by omega
  rw [e]
  exact Nat.mul_mod_right _ _

theorem toInt64_of_lt (x : Nat) (h : x < 2 ^ 63) : toInt64 x = (x : Int) := by
  unfold toInt64
  have e : x % 2 ^ 64 = x := Nat.mod_eq_of_lt (by omega)
  rw [e, if_pos h]

theorem toInt64_sub64 (a b : Nat) (ha : a < 2 ^ 63) (hb : b < 2 ^ 63) :
    toInt64 (sub64 a b) = (a : Int) - (b : Int) := by
  unfold toInt64 sub64
  split_ifs <;> omega

/-! ## Lemmas on byte order -/

theorem byte_of_sum (a0 a1 a2 a3 a4 a5 a6 a7 : Nat)
    (h0 : a0 < 256) (h1 : a1 < 256) (h2 : a2 < 256) (h3 : a3 < 256)
    (h4 : a4 < 256) (h5 : a5 < 256) (h6 : a6 < 256) (h7 : a7 < 256) :
    let d := a0 + a1 * 256 + a2 * 256 ^ 2 + a3 * 256 ^ 3 + a4 * 256 ^ 4
      + a5 * 256 ^ 5 + a6 * 256 ^ 6 + a7 * 256 ^ 7
    byte_of d 0 = a0 ∧ byte_of d 1 = a1 ∧ byte_of d 2 = a2 ∧ byte_of d 3 = a3 ∧
    byte_of d 4 = a4 ∧ byte_of d 5 = a5 ∧ byte_of d 6 = a6 ∧ byte_of d 7 = a7 := by
  intro d
  unfold byte_of
  refine ⟨?_, ?_, ?_, ?_, ?_, ?_, ?_, ?_⟩ <;> omega

theorem change_endian64_sum (a0 a1 a2 a3 a4 a5 a6 a7 : Nat)
    (h0 : a0 < 256) (h1 : a1 < 256) (h2 : a2 < 256) (h3 : a3 < 256)
    (h4 : a4 < 256) (h5 : a5 < 256) (h6 : a6 < 256) (h7 : a7 < 256) :
    change_endian64 (a0 + a1 * 256 + a2 * 256 ^ 2 + a3 * 256 ^ 3 + a4 * 256 ^ 4
      + a5 * 256 ^ 5 + a6 * 256 ^ 6 + a7 * 256 ^ 7)
    = a7 + a6 * 256 + a5 * 256 ^ 2 + a4 * 256 ^ 3 + a3 * 256 ^ 4
      + a2 * 256 ^ 5 + a1 * 256 ^ 6 + a0 * 256 ^ 7 := by
  obtain ⟨e0, e1, e2, e3, e4, e5, e6, e7⟩ := byte_of_sum a0 a1 a2 a3 a4 a5 a6 a7
    h0 h1 h2 h3 h4 h5 h6 h7
  simp only [change_endian64, load64, Nat.zero_add, Nat.sub_zero, Nat.reduceSub]
  rw [e0, e1, e2, e3, e4, e5, e6, e7, Nat.mod_eq_of_lt h0, Nat.mod_eq_of_lt h1,
    Nat.mod_eq_of_lt h2, Nat.mod_eq_of_lt h3, Nat.mod_eq_of_lt h4, Nat.mod_eq_of_lt h5,
    Nat.mod_eq_of_lt h6, Nat.mod_eq_of_lt h7]

/-- On a little-endian host, `change_endian64` of the word loaded at `off` is the
big-endian reading of the 8 bytes at `off`. -/
theorem change_endian64_load64 (b : Bytes) (off : Nat) :
    change_endian64 (load64 b off) = be64 b off := by
  have h := change_endian64_sum (b off % 256) (b (off + 1) % 256) (b (off + 2) % 256)
    (b (off + 3) % 256) (b (off + 4) % 256) (b (off + 5) % 256) (b (off + 6) % 256)
    (b (off + 7) % 256) (Nat.mod_lt _ (by norm_num)) (Nat.mod_lt _ (by norm_num))
    (Nat.mod_lt _ (by norm_num)) (Nat.mod_lt _ (by norm_num)) (Nat.mod_lt _ (by norm_num))
    (Nat.mod_lt _ (by norm_num)) (Nat.mod_lt _ (by norm_num)) (Nat.mod_lt _ (by norm_num))
  unfold load64 be64
  rw [h]
  ring

theorem be64_lt (b : Bytes) (off : Nat) : be64 b off < 2 ^ 64 := by
  unfold be64
  have h0 : b off % 256 < 256 := Nat.mod_lt _ (by norm_num)
  have h1 : b (off + 1) % 256 < 256 := Nat.mod_lt _ (by norm_num)
  have h2 : b (off + 2) % 256 < 256 := Nat.mod_lt _ (by norm_num)
  have h3 : b (off + 3) % 256 < 256 := Nat.mod_lt _ (by norm_num)
  have h4 : b (off + 4) % 256 < 256 := Nat.mod_lt _ (by norm_num)
  have h5 : b (off + 5) % 256 < 256 := Nat.mod_lt _ (by norm_num)
  have h6 : b (off + 6) % 256 < 256 := Nat.mod_lt _ (by norm_num)
  have h7 : b (off + 7) % 256 < 256 := Nat.mod_lt _ (by norm_num)
  omega

theorem and_div_two_pow (a b n : Nat) : (a &&& b) / 2 ^ n = a / 2 ^ n &&& b / 2 ^ n := by
  induction n with
  | zero => simp
  | succ n ih =>
    rw [Nat.pow_succ, ← Nat.div_div_eq_div_mul, ← Nat.div_div_eq_div_mul,
      ← Nat.div_div_eq_div_mul, ih, Nat.and_div_two]

/-- The test `((plen & 0xFF00000000000000L) >> 56) == 16` looks at the most
significant byte of a 64-bit value. -/
theorem high_byte_eq (x : Nat) (hx : x < 2 ^ 64) :
    (x &&& 0xFF00000000000000) >>> 56 = x / 2 ^ 56 := by
  rw [Nat.shiftRight_eq_div_pow, and_div_two_pow]
  have e : 0xFF00000000000000 / 2 ^ 56 = 2 ^ 8 - 1 := by norm_num
  rw [e, Nat.and_pow_two_sub_one_eq_mod]
  apply Nat.mod_eq_of_lt
  omega

/-- The mask `0xFFFFFFFFFFL` keeps the low 40 bits. -/
theorem low_40_bits (x k : Nat) : (x &&& 0xFFFFFFFFFF) >>> k = x % 2 ^ 40 / 2 ^ k := by
  have e : 0xFFFFFFFFFF = 2 ^ 40 - 1 := by norm_num
  rw [Nat.shiftRight_eq_div_pow, e, Nat.and_pow_two_sub_one_eq_mod]

theorem be64_high_byte (b : Bytes) (off : Nat) : be64 b off / 2 ^ 56 = b off % 256 := by
  unfold be64
  have h0 : b off % 256 < 256 := Nat.mod_lt _ (by norm_num)
  have h1 : b (off + 1) % 256 < 256 := Nat.mod_lt _ (by norm_num)
  have h2 : b (off + 2) % 256 < 256 := Nat.mod_lt _ (by norm_num)
  have h3 : b (off + 3) % 256 < 256 := Nat.mod_lt _ (by norm_num)
  have h4 : b (off + 4) % 256 < 256 := Nat.mod_lt _ (by norm_num)
  have h5 : b (off + 5) % 256 < 256 := Nat.mod_lt _ (by norm_num)
  have h6 : b (off + 6) % 256 < 256 := Nat.mod_lt _ (by norm_num)
  have h7 : b (off + 7) % 256 < 256 := Nat.mod_lt _ (by norm_num)
  omega

theorem byte_of_lt (d i : Nat) : byte_of d i < 256 := Nat.mod_lt _ (by norm_num)

/-- A 64-bit value is the sum of its 8 bytes. -/
theorem bytes_of_word (d : Nat) (hd : d < 2 ^ 64) :
    byte_of d 0 + byte_of d 1 * 256 + byte_of d 2 * 256 ^ 2 + byte_of d 3 * 256 ^ 3
      + byte_of d 4 * 256 ^ 4 + byte_of d 5 * 256 ^ 5 + byte_of d 6 * 256 ^ 6
      + byte_of d 7 * 256 ^ 7 = d := by
  unfold byte_of
  omega

theorem change_endian64_bytes (d : Nat) (hd : d < 2 ^ 64) :
    change_endian64 d =
      byte_of d 7 + byte_of d 6 * 256 + byte_of d 5 * 256 ^ 2 + byte_of d 4 * 256 ^ 3
        + byte_of d 3 * 256 ^ 4 + byte_of d 2 * 256 ^ 5 + byte_of d 1 * 256 ^ 6
        + byte_of d 0 * 256 ^ 7 := by
  have h := change_endian64_sum (byte_of d 0) (byte_of d 1) (byte_of d 2) (byte_of d 3)
    (byte_of d 4) (byte_of d 5) (byte_of d 6) (byte_of d 7) (byte_of_lt _ _) (byte_of_lt _ _)
    (byte_of_lt _ _) (byte_of_lt _ _) (byte_of_lt _ _) (byte_of_lt _ _) (byte_of_lt _ _)
    (byte_of_lt _ _)
  rw [bytes_of_word d hd] at h
  exact h

theorem change_endian64_lt (d : Nat) (hd : d < 2 ^ 64) : change_endian64 d < 2 ^ 64 := by
  rw [change_endian64_bytes d hd]
  have h0 := byte_of_lt d 0
  have h1 := byte_of_lt d 1
  have h2 := byte_of_lt d 2
  have h3 := byte_of_lt d 3
  have h4 := byte_of_lt d 4
  have h5 := byte_of_lt d 5
  have h6 := byte_of_lt d 6
  have h7 := byte_of_lt d 7
  omega

/-- Swapping the byte order twice gives the value back. -/
theorem change_endian64_involutive (d : Nat) (hd : d < 2 ^ 64) :
    change_endian64 (change_endian64 d) = d := by
  rw [change_endian64_bytes d hd]
  rw [change_endian64_sum _ _ _ _ _ _ _ _ (byte_of_lt _ _) (byte_of_lt _ _) (byte_of_lt _ _)
    (byte_of_lt _ _) (byte_of_lt _ _) (byte_of_lt _ _) (byte_of_lt _ _) (byte_of_lt _ _)]
  exact bytes_of_word d hd

/-- A load sees only the 8 bytes it reads. -/
theorem load64_congr (b1 b2 : Bytes) (off : Nat)
    (h : ∀ i, i < 8 → b1 (off + i) = b2 (off + i)) : load64 b1 off = load64 b2 off := by
  unfold load64
  have h0 := h 0 (by norm_num)
  rw [Nat.add_zero] at h0
  rw [h0, h 1 (by norm_num), h 2 (by norm_num), h 3 (by norm_num), h 4 (by norm_num),
    h 5 (by norm_num), h 6 (by norm_num), h 7 (by norm_num)]

/-- A load after a store at the same offset reads the stored value. -/
theorem load64_store64 (b : Bytes) (off d : Nat) (hd : d < 2 ^ 64) :
    load64 (store64 b off d) off = d := by
  have e : ∀ i, i < 8 → store64 b off d (off + i) = byte_of d i := by
    intro i hi
    unfold store64
    rw [if_pos ⟨by omega, by omega⟩, Nat.add_sub_cancel_left]
  have e0 := e 0 (by norm_num)
  rw [Nat.add_zero] at e0
  unfold load64
  rw [e0, e 1 (by norm_num), e 2 (by norm_num), e 3 (by norm_num), e 4 (by norm_num),
    e 5 (by norm_num), e 6 (by norm_num), e 7 (by norm_num)]
  simp only [Nat.mod_eq_of_lt (byte_of_lt _ _)]
  exact bytes_of_word d hd

/-! ## Lemmas on the zero-fill loop -/

@[simp] theorem fill_loop_up (c : NetCfg) (n : Nat) (s : NetState) :
    (net_fill_loop c n s).up = s.up := by
  induction n generalizing s with
  | zero => rfl
  | succ n ih => simp only [net_fill_loop, ih]; rfl

@[simp] theorem fill_loop_curblock (c : NetCfg) (n : Nat) (s : NetState) :
    (net_fill_loop c n s).curblock = s.curblock := by
  induction n generalizing s with
  | zero => rfl
  | succ n ih => simp only [net_fill_loop, ih]; rfl

@[simp] theorem fill_loop_curblock_seq_num (c : NetCfg) (n : Nat) (s : NetState) :
    (net_fill_loop c n s).curblock_seq_num = s.curblock_seq_num := by
  induction n generalizing s with
  | zero => rfl
  | succ n ih => simp only [net_fill_loop, ih]; rfl

@[simp] theorem fill_loop_nextblock_seq_num (c : NetCfg) (n : Nat) (s : NetState) :
    (net_fill_loop c n s).nextblock_seq_num = s.nextblock_seq_num := by
  induction n generalizing s with
  | zero => rfl
  | succ n ih => simp only [net_fill_loop, ih]; rfl

@[simp] theorem fill_loop_last_seq_num (c : NetCfg) (n : Nat) (s : NetState) :
    (net_fill_loop c n s).last_seq_num = s.last_seq_num := by
  induction n generalizing s with
  | zero => rfl
  | succ n ih => simp only [net_fill_loop, ih]; rfl

@[simp] theorem fill_loop_block_packet_idx (c : NetCfg) (n : Nat) (s : NetState) :
    (net_fill_loop c n s).block_packet_idx = s.block_packet_idx := by
  induction n generalizing s with
  | zero => rfl
  | succ n ih => simp only [net_fill_loop, ih]; rfl

@[simp] theorem fill_loop_last_block_packet_idx (c : NetCfg) (n : Nat) (s : NetState) :
    (net_fill_loop c n s).last_block_packet_idx = s.last_block_packet_idx := by
  induction n generalizing s with
  | zero => rfl
  | succ n ih => simp only [net_fill_loop, ih]; rfl

@[simp] theorem fill_loop_force_new_block (c : NetCfg) (n : Nat) (s : NetState) :
    (net_fill_loop c n s).force_new_block = s.force_new_block := by
  induction n generalizing s with
  | zero => rfl
  | succ n ih => simp only [net_fill_loop, ih]; rfl

@[simp] theorem fill_loop_waiting (c : NetCfg) (n : Nat) (s : NetState) :
    (net_fill_loop c n s).waiting = s.waiting := by
  induction n generalizing s with
  | zero => rfl
  | succ n ih => simp only [net_fill_loop, ih]; rfl

@[simp] theorem fill_loop_nbogus_total (c : NetCfg) (n : Nat) (s : NetState) :
    (net_fill_loop c n s).nbogus_total = s.nbogus_total := by
  induction n generalizing s with
  | zero => rfl
  | succ n ih => simp only [net_fill_loop, ih]; rfl

@[simp] theorem fill_loop_nbogus_block (c : NetCfg) (n : Nat) (s : NetState) :
    (net_fill_loop c n s).nbogus_block = s.nbogus_block := by
  induction n generalizing s with
  | zero => rfl
  | succ n ih => simp only [net_fill_loop, ih]; rfl

theorem fill_loop_dataptr (c : NetCfg) (n : Nat) (s : NetState) :
    (net_fill_loop c n s).dataptr = s.dataptr + n * c.packet_data_size := by
  induction n generalizing s with
  | zero => simp [net_fill_loop]
  | succ n ih => simp only [net_fill_loop, ih, net_fill_body]; ring

theorem bumped_succ (x n : Nat) : bumped (wrap64 (x + 1)) n = bumped x (n + 1) := by
  unfold bumped wrap64
  by_cases h : n = 0
  · simp [h]
  · simp only [h, if_false, Nat.add_eq_zero, one_ne_zero, and_false]; omega

theorem bumped_of_lt (x n : Nat) (h : x + n < 2 ^ 64) : bumped x n = x + n := by
  unfold bumped wrap64
  by_cases h0 : n = 0
  · simp [h0]
  · simp only [h0, if_false]; omega

theorem fill_loop_ndropped_block (c : NetCfg) (n : Nat) (s : NetState) :
    (net_fill_loop c n s).ndropped_block = bumped s.ndropped_block n := by
  induction n generalizing s with
  | zero => simp [net_fill_loop, bumped]
  | succ n ih => simp only [net_fill_loop, ih, net_fill_body, bumped_succ]

theorem fill_loop_ndropped_total (c : NetCfg) (n : Nat) (s : NetState) :
    (net_fill_loop c n s).ndropped_total = bumped s.ndropped_total n := by
  induction n generalizing s with
  | zero => simp [net_fill_loop, bumped]
  | succ n ih => simp only [net_fill_loop, ih, net_fill_body, bumped_succ]

theorem fill_loop_npacket_block (c : NetCfg) (n : Nat) (s : NetState) :
    (net_fill_loop c n s).npacket_block = bumped s.npacket_block n := by
  induction n generalizing s with
  | zero => simp [net_fill_loop, bumped]
  | succ n ih => simp only [net_fill_loop, ih, net_fill_body, bumped_succ]

theorem fill_loop_npacket_total (c : NetCfg) (n : Nat) (s : NetState) :
    (net_fill_loop c n s).npacket_total = bumped s.npacket_total n := by
  induction n generalizing s with
  | zero => simp [net_fill_loop, bumped]
  | succ n ih => simp only [net_fill_loop, ih, net_fill_body, bumped_succ]

theorem fill_loop_mem (c : NetCfg) (n : Nat) (s : NetState) (b : Int) (o : Nat) :
    (net_fill_loop c n s).mem b o =
      if b = s.curblock ∧ s.dataptr ≤ o ∧ o < s.dataptr + n * c.packet_data_size then 0
      else s.mem b o := by
  induction n generalizing s with
  | zero =>
    simp only [net_fill_loop, Nat.zero_mul, Nat.add_zero]
    rw [if_neg]
    rintro ⟨_, h1, h2⟩
    omega
  | succ n ih =>
    simp only [net_fill_loop, ih, net_fill_body]
    have e : s.dataptr + c.packet_data_size + n * c.packet_data_size
        = s.dataptr + (n + 1) * c.packet_data_size := by ring
    rw [e]
    have hle : s.dataptr + c.packet_data_size ≤ s.dataptr + (n + 1) * c.packet_data_size := by
      have : c.packet_data_size ≤ (n + 1) * c.packet_data_size :=
        Nat.le_mul_of_pos_left _ (Nat.succ_pos n)
      omega
    by_cases hb : b = s.curblock
    · simp only [hb, true_and]
      split_ifs <;> first | rfl | omega
    · simp [hb]

theorem fill_loop_acquired (c : NetCfg) (n : Nat) (s : NetState) :
    acquired (net_fill_loop c n s).calls = acquired s.calls := by
  induction n generalizing s with
  | zero => rfl
  | succ n ih => simp only [net_fill_loop, ih, net_fill_body, acquired]

theorem fill_loop_zero_filled (c : NetCfg) (n : Nat) (s : NetState) :
    zero_filled s.curblock (net_fill_loop c n s).calls = zero_filled s.curblock s.calls + n := by
  induction n generalizing s with
  | zero => rfl
  | succ n ih =>
    have h := ih (net_fill_body c s)
    simp only [net_fill_loop]
    have e : (net_fill_body c s).curblock = s.curblock := rfl
    rw [e] at h
    rw [h]
    simp only [net_fill_body, zero_filled, if_true]
    omega

theorem recv_seq_num (p : guppi_udp_params) (b : guppi_udp_packet) (rv : Int) (bytes : Bytes) :
    (guppi_udp_recv p b rv bytes).2.2.seq_num = b.seq_num := by
  unfold guppi_udp_recv
  split_ifs <;> rfl

/-- An accepted datagram: the iteration is the sequence number check followed by
the optional rollover and the placement. -/
theorem net_thread_received (c : NetCfg) (s : NetState) (ev : NetEvent)
    (h : received_ok s ev) :
    guppi_net_thread c s ev =
      if seq_num_diff s ev < -1024 then
        (net_rollover c { after_recv s ev with force_new_block := 1 } ev.seq_num).map
          (fun s2 => net_place c s2 ev.seq_num (recv_data s ev))
      else if seq_num_diff s ev < 0 then Except.ok (after_recv s ev)
      else if ev.seq_num ≥ s.nextblock_seq_num then
        (net_rollover c { after_recv s ev with force_new_block := 0 } ev.seq_num).map
          (fun s2 => net_place c s2 ev.seq_num (recv_data s ev))
      else Except.ok (net_place c { after_recv s ev with force_new_block := 0 } ev.seq_num
        (recv_data s ev)) := by
  obtain ⟨hw, hr⟩ := h
  have hsq := recv_seq_num s.up (net_packet_buffer ev) ev.recv_rv ev.bytes
  unfold guppi_net_thread
  rw [hw]
  simp only [seq_num_diff, after_recv, recv_data]
  rcases hrec : guppi_udp_recv s.up (net_packet_buffer ev) ev.recv_rv ev.bytes with ⟨code, up1, p⟩
  rw [hrec] at hr hsq
  simp only at hr hsq
  subst hr
  simp only [hsq, net_packet_buffer]
  by_cases h1 : toInt64 (sub64 ev.seq_num s.last_seq_num) < -1024
  · have h0 : toInt64 (sub64 ev.seq_num s.last_seq_num) < 0 := by omega
    simp [h1, h0]
  · by_cases h0 : toInt64 (sub64 ev.seq_num s.last_seq_num) < 0
    · simp [h1, h0]
    · by_cases h2 : ev.seq_num ≥ s.nextblock_seq_num
      · simp [h1, h0, h2]
      · simp [h1, h0, h2]

theorem rollover_ok (c : NetCfg) (s : NetState) (seq : Nat)
    (hn : c.n_block ≠ 0) (hp : c.packets_per_block ≠ 0) :
    ∃ s1, net_rollover c s seq = Except.ok s1 ∧
      s1.curblock = Int.tmod (s.curblock + 1) c.n_block ∧
      s1.curblock_seq_num = sub64 seq (seq % c.packets_per_block) ∧
      s1.nextblock_seq_num = wrap64 (sub64 seq (seq % c.packets_per_block) + c.packets_per_block) ∧
      s1.last_block_packet_idx = 0 ∧
      s1.npacket_block = 0 ∧ s1.ndropped_block = 0 ∧ s1.nbogus_block = 0 ∧
      s1.npacket_total = s.npacket_total ∧ s1.ndropped_total = s.ndropped_total ∧
      s1.nbogus_total = s.nbogus_total ∧
      s1.mem = s.mem ∧
      acquired s1.calls = acquired s.calls + 1 ∧
      s1.calls.head? = some (Call.guppi_databuf_wait_free s1.curblock) ∧
      zero_filled s1.curblock s1.calls = 0 := by
  unfold net_rollover
  simp only [hn, hp, if_false]
  refine ⟨_, rfl, rfl, rfl, rfl, rfl, rfl, rfl, rfl, rfl, rfl, rfl, rfl, ?_, rfl, rfl⟩
  simp only [acquired]
  split_ifs <;> simp [acquired]

@[simp] theorem place_curblock (c : NetCfg) (s : NetState) (seq : Nat) (data : Bytes) :
    (net_place c s seq data).curblock = s.curblock := by
  simp [net_place]

@[simp] theorem place_curblock_seq_num (c : NetCfg) (s : NetState) (seq : Nat) (data : Bytes) :
    (net_place c s seq data).curblock_seq_num = s.curblock_seq_num := by
  simp [net_place]

@[simp] theorem place_nextblock_seq_num (c : NetCfg) (s : NetState) (seq : Nat) (data : Bytes) :
    (net_place c s seq data).nextblock_seq_num = s.nextblock_seq_num := by
  simp [net_place]

@[simp] theorem place_last_seq_num (c : NetCfg) (s : NetState) (seq : Nat) (data : Bytes) :
    (net_place c s seq data).last_seq_num = seq := by
  simp [net_place]

@[simp] theorem place_last_block_packet_idx (c : NetCfg) (s : NetState) (seq : Nat)
    (data : Bytes) :
    (net_place c s seq data).last_block_packet_idx
      = wrap32 (wrap32 (sub64 seq s.curblock_seq_num) + 1) := by
  simp [net_place]

@[simp] theorem place_nbogus_total (c : NetCfg) (s : NetState) (seq : Nat) (data : Bytes) :
    (net_place c s seq data).nbogus_total = s.nbogus_total := by
  simp [net_place]

@[simp] theorem place_nbogus_block (c : NetCfg) (s : NetState) (seq : Nat) (data : Bytes) :
    (net_place c s seq data).nbogus_block = s.nbogus_block := by
  simp [net_place]

theorem place_acquired (c : NetCfg) (s : NetState) (seq : Nat) (data : Bytes) :
    acquired (net_place c s seq data).calls = acquired s.calls := by
  simp [net_place, acquired, fill_loop_acquired]

/-- The destination of the payload copy: the slot after the zero-filled ones. -/
theorem place_memcpy (c : NetCfg) (s : NetState) (seq : Nat) (data : Bytes) :
    (net_place c s seq data).calls.head? =
      some (Call.memcpy s.curblock
        (wrap64 (s.last_block_packet_idx * c.packet_data_size)
          + (wrap32 (sub64 seq s.curblock_seq_num) - s.last_block_packet_idx)
            * c.packet_data_size)
        c.packet_data_size) := by
  simp [net_place, fill_loop_dataptr]

theorem place_ndropped_block (c : NetCfg) (s : NetState) (seq : Nat) (data : Bytes) :
    (net_place c s seq data).ndropped_block =
      bumped s.ndropped_block (wrap32 (sub64 seq s.curblock_seq_num) - s.last_block_packet_idx) := by
  simp [net_place, fill_loop_ndropped_block]

theorem place_ndropped_total (c : NetCfg) (s : NetState) (seq : Nat) (data : Bytes) :
    (net_place c s seq data).ndropped_total =
      bumped s.ndropped_total (wrap32 (sub64 seq s.curblock_seq_num) - s.last_block_packet_idx) := by
  simp [net_place, fill_loop_ndropped_total]

theorem place_npacket_block (c : NetCfg) (s : NetState) (seq : Nat) (data : Bytes) :
    (net_place c s seq data).npacket_block =
      wrap64 (bumped s.npacket_block
        (wrap32 (sub64 seq s.curblock_seq_num) - s.last_block_packet_idx) + 1) := by
  simp [net_place, fill_loop_npacket_block]

theorem place_npacket_total (c : NetCfg) (s : NetState) (seq : Nat) (data : Bytes) :
    (net_place c s seq data).npacket_total =
      wrap64 (bumped s.npacket_total
        (wrap32 (sub64 seq s.curblock_seq_num) - s.last_block_packet_idx) + 1) := by
  simp [net_place, fill_loop_npacket_total]

theorem place_zero_filled (c : NetCfg) (s : NetState) (seq : Nat) (data : Bytes) :
    zero_filled s.curblock (net_place c s seq data).calls =
      zero_filled s.curblock s.calls
        + (wrap32 (sub64 seq s.curblock_seq_num) - s.last_block_packet_idx) := by
  simp only [net_place, zero_filled]
  have h := fill_loop_zero_filled c
    (wrap32 (sub64 seq s.curblock_seq_num) - s.last_block_packet_idx)
    { s with
      block_packet_idx := wrap32 (sub64 seq s.curblock_seq_num)
      dataptr := wrap64 (s.last_block_packet_idx * c.packet_data_size) }
  exact h

/-- The data regions after a placement: zero in the skipped slots, the payload
in the slot after them, everything else as before. -/
theorem place_mem (c : NetCfg) (s : NetState) (seq : Nat) (data : Bytes) (b : Int) (o : Nat) :
    (net_place c s seq data).mem b o =
      let start := wrap64 (s.last_block_packet_idx * c.packet_data_size)
      let n := wrap32 (sub64 seq s.curblock_seq_num) - s.last_block_packet_idx
      let dst := start + n * c.packet_data_size
      if b = s.curblock ∧ dst ≤ o ∧ o < dst + c.packet_data_size then data (o - dst)
      else if b = s.curblock ∧ start ≤ o ∧ o < dst then 0
      else s.mem b o := by
  simp only [net_place, fill_loop_dataptr, fill_loop_curblock, fill_loop_mem]

/-- Placement when the slot index is not behind `last_block_packet_idx`. -/
theorem place_spec (c : NetCfg) (s : NetState) (seq : Nat) (data : Bytes)
    (hle : s.last_block_packet_idx ≤ wrap32 (sub64 seq s.curblock_seq_num))
    (hoff : s.last_block_packet_idx * c.packet_data_size < 2 ^ 64) :
    (net_place c s seq data).calls.head? =
      some (Call.memcpy s.curblock
        (wrap32 (sub64 seq s.curblock_seq_num) * c.packet_data_size) c.packet_data_size) ∧
    placed_with_zero_fill c.packet_data_size s.curblock s.last_block_packet_idx
      (wrap32 (sub64 seq s.curblock_seq_num)) data s.mem (net_place c s seq data).mem := by
  generalize hidx : wrap32 (sub64 seq s.curblock_seq_num) = idx at hle
  have hstart : wrap64 (s.last_block_packet_idx * c.packet_data_size)
      = s.last_block_packet_idx * c.packet_data_size := Nat.mod_eq_of_lt hoff
  have hdst : s.last_block_packet_idx * c.packet_data_size
      + (idx - s.last_block_packet_idx) * c.packet_data_size = idx * c.packet_data_size := by
    rw [← Nat.add_mul, Nat.add_sub_cancel' hle]
  have hmono : s.last_block_packet_idx * c.packet_data_size ≤ idx * c.packet_data_size :=
    Nat.mul_le_mul_right _ hle
  have hnext : (idx + 1) * c.packet_data_size = idx * c.packet_data_size + c.packet_data_size := by
    ring
  refine ⟨?_, ?_, ?_, ?_⟩
  · rw [place_memcpy, hidx, hstart, hdst]
  · intro o h1 h2
    rw [place_mem]
    simp only [hidx, hstart, hdst]
    rw [if_neg (by omega), if_pos ⟨trivial, h1, h2⟩]
  · intro o ho
    rw [place_mem]
    simp only [hidx, hstart, hdst]
    rw [if_pos ⟨trivial, by omega, by omega⟩, Nat.add_sub_cancel_left]
  · intro b1 o ho
    rw [place_mem]
    simp only [hidx, hstart, hdst]
    rw [hnext] at ho
    rw [if_neg, if_neg]
    · rintro ⟨hb, h1, h2⟩
      rcases ho with h | h | h
      · exact h hb
      · omega
      · omega
    · rintro ⟨hb, h1, h2⟩
      rcases ho with h | h | h
      · exact h hb
      · omega
      · omega

/-- The three ways an iteration continues the loop. -/
theorem net_thread_cases (c : NetCfg) (s s1 : NetState) (ev : NetEvent)
    (h : guppi_net_thread c s ev = Except.ok s1) :
    s1 = { s with waiting := 1 } ∨
    (∃ up1, s1 = { s with
        up := up1
        nbogus_total := wrap64 (s.nbogus_total + 1)
        nbogus_block := wrap64 (s.nbogus_block + 1) }) ∨
    received_ok s ev := by
  unfold guppi_net_thread at h
  split at h
  · left
    cases h
    rfl
  · cases h
  · cases h
  · rename_i hw
    split at h
    · right; left
      cases h
      exact ⟨_, rfl⟩
    · cases h
    · cases h
    · rename_i hr
      right; right
      exact ⟨hw, by rw [hr]⟩

/-- The scenario constants come out of the set-up for 8208-byte packets, a
16-byte packet header, blocks of `4 * 8192` bytes and a ring of 24 blocks. -/
theorem scenario_cfg_of_setup : net_setup 8208 16 (4 * 8192) 24 = some scenario_cfg := rfl

/-! ## The window invariant -/

theorem rollover_of_ok (c : NetCfg) (s s1 : NetState) (seq : Nat)
    (h : net_rollover c s seq = Except.ok s1) :
    c.n_block ≠ 0 ∧ c.packets_per_block ≠ 0 ∧
    s1.curblock_seq_num = sub64 seq (seq % c.packets_per_block) ∧
    s1.nextblock_seq_num = wrap64 (sub64 seq (seq % c.packets_per_block) + c.packets_per_block) ∧
    s1.last_block_packet_idx = 0 ∧
    s1.npacket_block = 0 ∧ s1.ndropped_block = 0 ∧
    s1.npacket_total = s.npacket_total ∧ s1.ndropped_total = s.ndropped_total ∧
    zero_filled s1.curblock s1.calls = 0 := by
  by_cases hn : c.n_block = 0
  · simp [net_rollover, hn] at h
  by_cases hp : c.packets_per_block = 0
  · simp [net_rollover, hn, hp] at h
  simp only [net_rollover, hn, hp, if_false] at h
  cases h
  exact ⟨hn, hp, rfl, rfl, rfl, rfl, rfl, rfl, rfl, rfl⟩

/-- After a rollover and the placement of the packet that caused it, the window
invariant holds and the slots before the packet's slot were zero-filled. -/
theorem rollover_place_window (c : NetCfg) (s s1 : NetState) (seq : Nat) (data : Bytes)
    (hp32 : c.packets_per_block < 2 ^ 32) (hseq : seq < 2 ^ 63)
    (h : (net_rollover c s seq).map (fun s2 => net_place c s2 seq data) = Except.ok s1) :
    window_ok c s1 ∧ s1.last_seq_num = seq ∧
    s1.curblock_seq_num = seq - seq % c.packets_per_block ∧
    zero_filled s1.curblock s1.calls = seq % c.packets_per_block := by
  rcases hro : net_rollover c s seq with e | s2
  · rw [hro] at h
    cases h
  rw [hro] at h
  cases h
  obtain ⟨-, hp, hcs, hns, hl, -, -, -, -, hz⟩ := rollover_of_ok c s s2 seq hro
  have hp0 : 0 < c.packets_per_block := Nat.pos_of_ne_zero hp
  have hr : seq % c.packets_per_block < c.packets_per_block := Nat.mod_lt _ hp0
  have hr2 : seq % c.packets_per_block ≤ seq := Nat.mod_le _ _
  rw [sub64_mod_self seq _ (by omega)] at hcs hns
  have hal := sub_mod_self_mod seq c.packets_per_block
  have hidx : wrap32 (sub64 seq s2.curblock_seq_num) = seq % c.packets_per_block := by
    rw [hcs, sub64_eq_sub _ _ (by omega) (Nat.sub_le _ _)]
    unfold wrap32
    omega
  have hzf := place_zero_filled c s2 seq data
  rw [hidx, hz, hl] at hzf
  refine ⟨⟨?_, ?_, ?_, ?_, ?_, ?_, ?_⟩, ?_, ?_, ?_⟩
  · rw [place_curblock_seq_num, hcs]; exact hal
  · rw [place_nextblock_seq_num, place_curblock_seq_num, hns, hcs]
    unfold wrap64
    omega
  · rw [place_curblock_seq_num, place_last_seq_num, hcs]; omega
  · rw [place_nextblock_seq_num, place_last_seq_num, hns]
    unfold wrap64
    omega
  · rw [place_last_block_packet_idx, place_last_seq_num, place_curblock_seq_num, hidx, hcs]
    unfold wrap32
    omega
  · rw [place_last_seq_num]; exact hseq
  · rw [place_curblock, place_last_seq_num, place_curblock_seq_num, hzf, hcs]; omega
  · exact place_last_seq_num _ _ _ _
  · rw [place_curblock_seq_num, hcs]
  · rw [place_curblock, hzf]; omega

/-- A packet placed in the block in hand keeps the window invariant. -/
theorem place_window (c : NetCfg) (s : NetState) (seq : Nat) (data : Bytes)
    (hp32 : c.packets_per_block < 2 ^ 32) (hseq : seq < 2 ^ 63) (hw : window_ok c s)
    (hge : s.last_seq_num ≤ seq) (hlt : seq < s.nextblock_seq_num) :
    window_ok c (net_place c s seq data) ∧
    wrap32 (sub64 seq s.curblock_seq_num) = seq - s.curblock_seq_num := by
  obtain ⟨h1, h2, h3, h4, h5, h6, h7⟩ := hw
  have hidx : wrap32 (sub64 seq s.curblock_seq_num) = seq - s.curblock_seq_num := by
    rw [sub64_eq_sub _ _ (by omega) (by omega)]
    unfold wrap32
    omega
  have hzf := place_zero_filled c s seq data
  rw [hidx] at hzf
  refine ⟨⟨?_, ?_, ?_, ?_, ?_, ?_, ?_⟩, hidx⟩
  · rw [place_curblock_seq_num]; exact h1
  · rw [place_nextblock_seq_num, place_curblock_seq_num]; exact h2
  · rw [place_curblock_seq_num, place_last_seq_num]; omega
  · rw [place_nextblock_seq_num, place_last_seq_num]; exact hlt
  · rw [place_last_block_packet_idx, place_last_seq_num, place_curblock_seq_num, hidx]
    unfold wrap32
    omega
  · rw [place_last_seq_num]; exact hseq
  · rw [place_curblock, place_last_seq_num, place_curblock_seq_num, hzf]; omega

theorem received_ok_of_size (s : NetState) (len q : Nat) (bytes : Bytes)
    (hsz : s.up.packet_size = len) (hlen : len < 2 ^ 64) :
    received_ok s (packet_event len q bytes) ∧
    (after_recv s (packet_event len q bytes)).up.packet_size = len := by
  have e : ((len : Int) % 2 ^ 64).toNat = len := by omega
  have hne : (len : Int) ≠ -1 := by omega
  unfold received_ok after_recv guppi_udp_recv guppi_udp_wait packet_event
  simp only [hne, if_false, e, hsz, if_true]
  by_cases h0 : len = 0
  · simp [h0]
  · simp [h0, hsz]

theorem place_counts (c : NetCfg) (s : NetState) (seq : Nat) (data : Bytes) (n : Nat)
    (hn : wrap32 (sub64 seq s.curblock_seq_num) - s.last_block_packet_idx = n)
    (h1 : s.npacket_total + n + 1 < 2 ^ 64) (h3 : s.ndropped_total + n < 2 ^ 64) :
    (net_place c s seq data).npacket_total = s.npacket_total + n + 1 ∧
    (net_place c s seq data).ndropped_total = s.ndropped_total + n ∧
    (net_place c s seq data).up = s.up := by
  refine ⟨?_, ?_, by simp [net_place]⟩
  · rw [place_npacket_total, hn, bumped_of_lt _ _ (by omega)]
    unfold wrap64
    omega
  · rw [place_ndropped_total, hn, bumped_of_lt _ _ (by omega)]

theorem block_start_eq (a ppb : Nat) : a - a % ppb = ppb * (a / ppb) := by
  have h := Nat.div_add_mod a ppb
  omega

theorem same_block_iff (a t ppb : Nat) (hp : 0 < ppb) (hat : a ≤ t) :
    t < a - a % ppb + ppb ↔ a / ppb = t / ppb := by
  rw [block_start_eq]
  have e : ppb * (a / ppb) + ppb = (a / ppb + 1) * ppb := by ring
  rw [e, ← Nat.div_lt_iff_lt_mul hp]
  have hle : a / ppb ≤ t / ppb := Nat.div_le_div_right hat
  omega

theorem next_block_le (a t ppb : Nat) (hp : 0 < ppb) (h : a - a % ppb + ppb ≤ t) :
    a + 1 ≤ t - t % ppb := by
  rw [block_start_eq] at h
  rw [block_start_eq t]
  have e : ppb * (a / ppb) + ppb = ppb * (a / ppb + 1) := by ring
  rw [e] at h
  have h1 : a / ppb + 1 ≤ t / ppb := by
    rw [Nat.le_div_iff_mul_le hp, Nat.mul_comm]
    exact h
  have h2 : ppb * (a / ppb + 1) ≤ ppb * (t / ppb) := Nat.mul_le_mul_left _ h1
  have h3 := Nat.div_add_mod a ppb
  have h4 : a % ppb < ppb := Nat.mod_lt _ hp
  have h5 : ppb * (a / ppb + 1) = ppb * (a / ppb) + ppb := by ring
  omega

/-- A rollover followed by the placement, in a stream: the slots counted so far
all belong to closed blocks. -/
theorem rollover_place_stream (c : NetCfg) (len : Nat) (s : NetState) (t k : Nat)
    (data : Bytes) (hn : c.n_block ≠ 0) (hp : 0 < c.packets_per_block)
    (hp32 : c.packets_per_block < 2 ^ 32) (ht : t < 2 ^ 63)
    (hT : s.npacket_total ≤ t - t % c.packets_per_block)
    (hk : s.ndropped_total + k = s.npacket_total) (hsz : s.up.packet_size = len) :
    ∃ s1, (net_rollover c s t).map (fun s2 => net_place c s2 t data) = Except.ok s1 ∧
      stream_inv c len s1 t s.npacket_total (k + 1) := by
  have hp0 : c.packets_per_block ≠ 0 := by omega
  have hr : t % c.packets_per_block < c.packets_per_block := Nat.mod_lt _ hp
  have hr2 : t % c.packets_per_block ≤ t := Nat.mod_le _ _
  obtain ⟨s2, h2, -, hcs, -, hl, hnb, -, -, hnt, hdt, -, -, -, -, -⟩ :=
    rollover_ok c s t hn hp0
  have hup : s2.up = s.up := by
    simp only [net_rollover, hn, hp0, if_false] at h2
    cases h2
    rfl
  have hmap : (net_rollover c s t).map (fun s2 => net_place c s2 t data)
      = Except.ok (net_place c s2 t data) := by rw [h2]; rfl
  obtain ⟨hw, hlast, -, -⟩ := rollover_place_window c s _ t data hp32 ht hmap
  have hidx : wrap32 (sub64 t s2.curblock_seq_num) - s2.last_block_packet_idx
      = t % c.packets_per_block := by
    rw [hcs, hl, sub64_mod_self _ _ (by omega), sub64_eq_sub _ _ (by omega) (Nat.sub_le _ _)]
    unfold wrap32
    omega
  obtain ⟨c1, c3, c4⟩ := place_counts c s2 t data _ hidx
    (by rw [hnt]; omega) (by rw [hdt]; omega)
  refine ⟨_, hmap, hw, hlast, ?_, ?_, ?_, ?_⟩
  · rw [c4, hup]; exact hsz
  · rw [c1, hnt]
  · rw [c1, hnt]; omega
  · rw [c1, c3, hnt, hdt]; omega

/-- The first packet of a stream, from the state at loop entry. -/
theorem stream_first (c : NetCfg) (len : Nat) (s : NetState) (q : Nat) (bytes : Bytes)
    (hn : c.n_block ≠ 0) (hp : 0 < c.packets_per_block)
    (hp32 : c.packets_per_block < 2 ^ 32) (hlen : len < 2 ^ 64)
    (h0 : no_block_yet s) (hsz : s.up.packet_size = len)
    (hq : q < 2 ^ 63) (hlate : ¬ (1024 ≤ q ∧ q < 2048)) :
    ∃ s1, guppi_net_thread c s (packet_event len q bytes) = Except.ok s1 ∧
      stream_inv c len s1 q 0 1 := by
  obtain ⟨hlast, hnext, -, hT, hD, -⟩ := h0
  obtain ⟨hrecv, hsz1⟩ := received_ok_of_size s len q bytes hsz hlen
  have hdiff : seq_num_diff s (packet_event len q bytes) = (q : Int) - 2048 := by
    unfold seq_num_diff
    rw [hlast]
    exact toInt64_sub64 q 2048 hq (by norm_num)
  have key : ∀ f : Nat, ∃ s1,
      (net_rollover c { after_recv s (packet_event len q bytes) with force_new_block := f }
        q).map (fun s2 => net_place c s2 q (recv_data s (packet_event len q bytes)))
        = Except.ok s1 ∧ stream_inv c len s1 q 0 1 := by
    intro f
    have := rollover_place_stream c len
      { after_recv s (packet_event len q bytes) with force_new_block := f } q 0
      (recv_data s (packet_event len q bytes)) hn hp hp32 hq
      (by show s.npacket_total ≤ _; omega)
      (by show s.ndropped_total + 0 = s.npacket_total; omega) hsz1
    have e : ({ after_recv s (packet_event len q bytes) with force_new_block := f }
      : NetState).npacket_total = 0 := hT
    rw [e] at this
    exact this
  rw [net_thread_received c s _ hrecv]
  by_cases h1 : q < 1024
  · rw [if_pos (by rw [hdiff]; omega)]
    exact key 1
  · have h2 : 2048 ≤ q := by omega
    have hge : (packet_event len q bytes).seq_num ≥ s.nextblock_seq_num := by
      rw [hnext]; exact Nat.zero_le _
    rw [if_neg (by rw [hdiff]; omega), if_neg (by rw [hdiff]; omega), if_pos hge]
    exact key 0

/-- The next packet of a strictly increasing stream. -/
theorem stream_next (c : NetCfg) (len : Nat) (s : NetState) (a closed k t : Nat)
    (bytes : Bytes) (hn : c.n_block ≠ 0) (hp : 0 < c.packets_per_block)
    (hp32 : c.packets_per_block < 2 ^ 32) (hlen : len < 2 ^ 64)
    (hinv : stream_inv c len s a closed k) (hat : a < t) (ht : t < 2 ^ 63) :
    ∃ s1, guppi_net_thread c s (packet_event len t bytes) = Except.ok s1 ∧
      stream_inv c len s1 t
        (closed + if a / c.packets_per_block = t / c.packets_per_block then 0
          else a % c.packets_per_block + 1) (k + 1) := by
  obtain ⟨hw, hlast, hsz, hT, hTle, hk⟩ := hinv
  obtain ⟨w1, w2, w3, w4, w5, w6, w7⟩ := hw
  obtain ⟨hrecv, hsz1⟩ := received_ok_of_size s len t bytes hsz hlen
  have ha : a < 2 ^ 63 := by omega
  have hdiff : seq_num_diff s (packet_event len t bytes) = (t : Int) - (a : Int) := by
    unfold seq_num_diff
    rw [hlast]
    exact toInt64_sub64 t a ht ha
  have hcs : s.curblock_seq_num = a - a % c.packets_per_block := by
    have h1 := Nat.div_add_mod s.curblock_seq_num c.packets_per_block
    have h2 := Nat.div_add_mod a c.packets_per_block
    rw [w1] at h1
    rw [hlast] at w3 w4
    rw [w2] at w4
    have h3 : a / c.packets_per_block = s.curblock_seq_num / c.packets_per_block := by
      apply Nat.le_antisymm
      · have : a / c.packets_per_block < s.curblock_seq_num / c.packets_per_block + 1 := by
          rw [Nat.div_lt_iff_lt_mul hp]
          have e : (s.curblock_seq_num / c.packets_per_block + 1) * c.packets_per_block
            = c.packets_per_block * (s.curblock_seq_num / c.packets_per_block)
              + c.packets_per_block := by ring
          omega
        omega
      · exact Nat.div_le_div_right w3
    rw [h3] at h2
    omega
  have hr : a % c.packets_per_block < c.packets_per_block := Nat.mod_lt _ hp
  have hr2 : a % c.packets_per_block ≤ a := Nat.mod_le _ _
  rw [net_thread_received c s _ hrecv, if_neg (by rw [hdiff]; omega),
    if_neg (by rw [hdiff]; omega)]
  have hiff := same_block_iff a t c.packets_per_block hp (Nat.le_of_lt hat)
  by_cases hge : (packet_event len t bytes).seq_num ≥ s.nextblock_seq_num
  · rw [if_pos hge]
    have hge2 : a - a % c.packets_per_block + c.packets_per_block ≤ t := by
      rw [← hcs, ← w2]; exact hge
    have hne : ¬ a / c.packets_per_block = t / c.packets_per_block := by
      intro h
      have := hiff.2 h
      omega
    rw [if_neg hne]
    have hnb := next_block_le a t c.packets_per_block hp hge2
    have := rollover_place_stream c len
      { after_recv s (packet_event len t bytes) with force_new_block := 0 } t k
      (recv_data s (packet_event len t bytes)) hn hp hp32 ht
      (by show s.npacket_total ≤ _; omega) hk hsz1
    have e : ({ after_recv s (packet_event len t bytes) with force_new_block := 0 }
      : NetState).npacket_total = closed + a % c.packets_per_block + 1 := hT
    rw [e] at this
    exact this
  · rw [if_neg hge]
    have hlt : t < s.nextblock_seq_num := by
      have : ¬ (t ≥ s.nextblock_seq_num) := hge
      omega
    have heq : a / c.packets_per_block = t / c.packets_per_block := by
      apply hiff.1
      rw [← hcs, ← w2]; exact hlt
    rw [if_pos heq]
    have hwin : window_ok c { after_recv s (packet_event len t bytes) with
        force_new_block := 0 } := ⟨w1, w2, w3, w4, w5, w6, w7⟩
    obtain ⟨hw1, hidx⟩ := place_window c _ t (recv_data s (packet_event len t bytes))
      hp32 ht hwin (by show s.last_seq_num ≤ t; omega) hlt
    have hmod : t % c.packets_per_block = a % c.packets_per_block + (t - a) := by
      have h1 := Nat.div_add_mod t c.packets_per_block
      have h2 := Nat.div_add_mod a c.packets_per_block
      rw [← heq] at h1
      omega
    have hn1 : wrap32 (sub64 t s.curblock_seq_num) - s.last_block_packet_idx = t - a - 1 := by
      have : wrap32 (sub64 t s.curblock_seq_num) = t - s.curblock_seq_num := hidx
      rw [this, w5, hlast]
      omega
    obtain ⟨c1, c3, c4⟩ := place_counts c
      { after_recv s (packet_event len t bytes) with force_new_block := 0 } t
      (recv_data s (packet_event len t bytes)) _ hn1
      (by show s.npacket_total + _ + 1 < _; omega)
      (by show s.ndropped_total + _ < _; omega)
    refine ⟨_, rfl, hw1, place_last_seq_num _ _ _ _, ?_, ?_, ?_, ?_⟩
    · exact (congrArg guppi_udp_params.packet_size c4).trans hsz1
    · refine c1.trans ?_
      show s.npacket_total + (t - a - 1) + 1 = _
      omega
    · refine le_of_eq_of_le c1 ?_
      show s.npacket_total + (t - a - 1) + 1 ≤ _
      omega
    · have hk2 : s.ndropped_total + (t - a - 1) + (k + 1)
          = s.npacket_total + (t - a - 1) + 1 := by omega
      exact (congrArg (fun x => x + (k + 1)) c3).trans (hk2.trans c1.symm)

/-- A strictly increasing stream continued from a state in mid-stream. -/
theorem stream_run (c : NetCfg) (len : Nat) (bytes : Nat → Bytes) (rest : List Nat)
    (hn : c.n_block ≠ 0) (hp : 0 < c.packets_per_block)
    (hp32 : c.packets_per_block < 2 ^ 32) (hlen : len < 2 ^ 64)
    (s : NetState) (a closed k : Nat)
    (hinv : stream_inv c len s a closed k) (hch : List.Chain (fun x y => x < y) a rest)
    (hb : ∀ q ∈ rest, q < 2 ^ 63) :
    ∃ s1, net_run c s (stream_events len bytes rest) = Except.ok s1 ∧
      s1.npacket_total = closed + gap_fill_total c.packets_per_block (a :: rest) ∧
      s1.ndropped_total + (k + rest.length) = s1.npacket_total := by
  induction rest generalizing s a closed k with
  | nil =>
    refine ⟨s, rfl, ?_, ?_⟩
    · rw [hinv.2.2.2.1]; simp only [gap_fill_total]; omega
    · exact hinv.2.2.2.2.2
  | cons t r ih =>
    rw [List.chain_cons] at hch
    obtain ⟨hat, hch2⟩ := hch
    have ht : t < 2 ^ 63 := hb t (List.mem_cons_self _ _)
    obtain ⟨s1, h1, hinv1⟩ := stream_next c len s a closed k t (bytes t) hn hp hp32 hlen
      hinv hat ht
    obtain ⟨s2, h2, htot, hdr⟩ := ih s1 t _ (k + 1) hinv1 hch2
      (fun q hq => hb q (List.mem_cons_of_mem _ hq))
    refine ⟨s2, ?_, ?_, ?_⟩
    · simp only [stream_events, List.map_cons, net_run]
      rw [h1]
      exact h2
    · rw [htot]
      simp only [gap_fill_total]
      omega
    · rw [← hdr]
      simp only [List.length_cons]
      omega

theorem gap_fill_total_one_block (ppb : Nat) (a : Nat) (rest : List Nat)
    (h : ∀ x ∈ rest, x / ppb = a / ppb) :
    gap_fill_total ppb (a :: rest) = (a :: rest).getLast (List.cons_ne_nil _ _) % ppb + 1 := by
  induction rest generalizing a with
  | nil => simp [gap_fill_total]
  | cons t r ih =>
    have ht : t / ppb = a / ppb := h t (List.mem_cons_self _ _)
    simp only [gap_fill_total, ht, if_true, Nat.zero_add]
    rw [ih t (fun x hx => by rw [h x (List.mem_cons_of_mem _ hx), ht])]
    simp [List.getLast_cons]

theorem chain_le_getLast (a : Nat) (rest : List Nat)
    (h : List.Chain (fun x y => x < y) a rest) :
    a ≤ (a :: rest).getLast (List.cons_ne_nil _ _) := by
  induction rest generalizing a with
  | nil => simp
  | cons t r ih =>
    rw [List.chain_cons] at h
    have := ih t h.2
    rw [List.getLast_cons (List.cons_ne_nil _ _)]
    omega

theorem foldl_max_chain (a : Nat) (rest : List Nat)
    (h : List.Chain (fun x y => x < y) a rest) :
    rest.foldl max a = (a :: rest).getLast (List.cons_ne_nil _ _) := by
  induction rest generalizing a with
  | nil => simp
  | cons t r ih =>
    rw [List.chain_cons] at h
    rw [List.foldl_cons, List.getLast_cons (List.cons_ne_nil _ _), ← ih t h.2]
    congr 1
    exact max_eq_right (Nat.le_of_lt h.1)

theorem foldl_min_chain (a : Nat) (rest : List Nat)
    (h : List.Chain (fun x y => x < y) a rest) :
    rest.foldl min a = a := by
  induction rest generalizing a with
  | nil => simp
  | cons t r ih =>
    rw [List.chain_cons] at h
    rw [List.foldl_cons, min_eq_left (Nat.le_of_lt h.1)]
    have hch : List.Chain (fun x y => x < y) a r := by
      cases r with
      | nil => exact List.Chain.nil
      | cons u r2 =>
        rw [List.chain_cons] at h ⊢
        exact ⟨by omega, h.2.2⟩
    exact ih a hch

theorem max_seq_chain (a : Nat) (rest : List Nat)
    (h : List.Chain (fun x y => x < y) a rest) :
    max_seq (a :: rest) = (a :: rest).getLast (List.cons_ne_nil _ _) := by
  unfold max_seq
  rw [List.foldl_cons, Nat.zero_max]
  exact foldl_max_chain a rest h

theorem min_seq_chain (a : Nat) (rest : List Nat)
    (h : List.Chain (fun x y => x < y) a rest) :
    min_seq (a :: rest) = a := foldl_min_chain a rest h

/-! ## Lemmas on the "simple" packet copy -/

theorem simple_index (n c t k : Nat) (hc : c < n) (hk : k < 4) :
    (4 * (n * t + c) + k) / 4 / n = t ∧ (4 * (n * t + c) + k) / 4 % n = c ∧
    (4 * (n * t + c) + k) % 4 = k := by
  have h1 : (4 * (n * t + c) + k) / 4 = n * t + c := by omega
  have hn : 0 < n := by omega
  refine ⟨?_, ?_, by omega⟩
  · rw [h1, Nat.mul_add_div hn, Nat.div_eq_of_lt hc, Nat.add_zero]
  · rw [h1, Nat.mul_add_mod, Nat.mod_eq_of_lt hc]

theorem simple_index_inv (n j : Nat) :
    j = 4 * (n * (j / 4 / n) + j / 4 % n) + j % 4 := by
  have h1 := Nat.div_add_mod (j / 4) n
  have h2 := Nat.div_add_mod j 4
  omega

/-- One pass of the loop body writes, at the 8 output offsets of channel `c` and
input group `τ`, the bytes that belong there, and nothing else. -/
theorem simple_copy_body_apply (n : Nat) (inp : Bytes) (c τ : Nat) (out : Bytes) (j : Nat)
    (hc : c < n) :
    simple_copy_body n inp c τ out j =
      if j / 4 % n = c ∧ j / 4 / n / 2 = τ then simple_target n inp j else out j := by
  have hn : 0 < n := by omega
  have key : ∀ e k, e < 2 → k < 4 → j = k + 4 * (n * (2 * τ + e) + c) →
      (j / 4 % n = c ∧ j / 4 / n / 2 = τ) ∧
      simple_target n inp j = inp (simple_src (2 * τ + e) k + 8 * (n * τ + c)) := by
    intro e k he hk hj
    have hj2 : j = 4 * (n * (2 * τ + e) + c) + k := by omega
    obtain ⟨i1, i2, i3⟩ := simple_index n c (2 * τ + e) k hc hk
    rw [← hj2] at i1 i2 i3
    have i4 : (2 * τ + e) / 2 = τ := by omega
    refine ⟨⟨i2, by rw [i1, i4]⟩, ?_⟩
    unfold simple_target
    rw [i1, i2, i3, i4, Nat.add_comm]
  have hsrc : ∀ e k, e < 2 → k < 4 →
      simple_src (2 * τ + e) k = (if e = 0 then [2, 3, 6, 7].getD k 0 else [0, 1, 4, 5].getD k 0) := by
    intro e k he hk
    unfold simple_src
    have : (2 * τ + e) % 2 = e := by omega
    rw [this]
  simp only [simple_copy_body, poke]
  by_cases g0 : j = 3 + 4 * (n * (2 * τ + 1) + c)
  · obtain ⟨hcond, ht⟩ := key 1 3 (by norm_num) (by norm_num) g0
    rw [if_pos g0, if_pos hcond, ht, hsrc 1 3 (by norm_num) (by norm_num)]
    rfl
  rw [if_neg g0]
  by_cases g1 : j = 2 + 4 * (n * (2 * τ + 1) + c)
  · obtain ⟨hcond, ht⟩ := key 1 2 (by norm_num) (by norm_num) g1
    rw [if_pos g1, if_pos hcond, ht, hsrc 1 2 (by norm_num) (by norm_num)]
    rfl
  rw [if_neg g1]
  by_cases g2 : j = 1 + 4 * (n * (2 * τ + 1) + c)
  · obtain ⟨hcond, ht⟩ := key 1 1 (by norm_num) (by norm_num) g2
    rw [if_pos g2, if_pos hcond, ht, hsrc 1 1 (by norm_num) (by norm_num)]
    rfl
  rw [if_neg g2]
  by_cases g3 : j = 0 + 4 * (n * (2 * τ + 1) + c)
  · obtain ⟨hcond, ht⟩ := key 1 0 (by norm_num) (by norm_num) g3
    rw [if_pos g3, if_pos hcond, ht, hsrc 1 0 (by norm_num) (by norm_num)]
    rfl
  rw [if_neg g3]
  by_cases g4 : j = 3 + 4 * (n * (2 * τ + 0) + c)
  · obtain ⟨hcond, ht⟩ := key 0 3 (by norm_num) (by norm_num) g4
    rw [if_pos g4, if_pos hcond, ht, hsrc 0 3 (by norm_num) (by norm_num)]
    rfl
  rw [if_neg g4]
  by_cases g5 : j = 2 + 4 * (n * (2 * τ + 0) + c)
  · obtain ⟨hcond, ht⟩ := key 0 2 (by norm_num) (by norm_num) g5
    rw [if_pos g5, if_pos hcond, ht, hsrc 0 2 (by norm_num) (by norm_num)]
    rfl
  rw [if_neg g5]
  by_cases g6 : j = 1 + 4 * (n * (2 * τ + 0) + c)
  · obtain ⟨hcond, ht⟩ := key 0 1 (by norm_num) (by norm_num) g6
    rw [if_pos g6, if_pos hcond, ht, hsrc 0 1 (by norm_num) (by norm_num)]
    rfl
  rw [if_neg g6]
  by_cases g7 : j = 0 + 4 * (n * (2 * τ + 0) + c)
  · obtain ⟨hcond, ht⟩ := key 0 0 (by norm_num) (by norm_num) g7
    rw [if_pos g7, if_pos hcond, ht, hsrc 0 0 (by norm_num) (by norm_num)]
    rfl
  rw [if_neg g7]
  by_cases hcond : j / 4 % n = c ∧ j / 4 / n / 2 = τ
  · exfalso
    obtain ⟨h1, h2⟩ := hcond
    have hinv := simple_index_inv n j
    rw [h1] at hinv
    have hk : j % 4 < 4 := Nat.mod_lt _ (by norm_num)
    have hq : j / 4 / n = 2 * τ + 0 ∨ j / 4 / n = 2 * τ + 1 := by omega
    rcases hq with hq | hq <;> rw [hq] at hinv <;> omega
  · rw [if_neg hcond]

theorem simple_copy_times_apply (n T : Nat) (inp : Bytes) (c : Nat) (out : Bytes) (j : Nat)
    (hc : c < n) :
    simple_copy_times n T inp c out j =
      if j / 4 % n = c ∧ j / 4 / n / 2 < T then simple_target n inp j else out j := by
  unfold simple_copy_times
  induction T with
  | zero => simp
  | succ T ih =>
    rw [List.range_succ, List.foldl_append, List.foldl_cons, List.foldl_nil,
      simple_copy_body_apply n inp c T _ j hc, ih]
    by_cases h1 : j / 4 % n = c
    · by_cases h2 : j / 4 / n / 2 = T
      · rw [if_pos ⟨h1, h2⟩, if_pos ⟨h1, by omega⟩]
      · rw [if_neg (fun h => h2 h.2)]
        by_cases h3 : j / 4 / n / 2 < T
        · rw [if_pos ⟨h1, h3⟩, if_pos ⟨h1, by omega⟩]
        · rw [if_neg (fun h => h3 h.2), if_neg (fun h => by omega)]
    · rw [if_neg (fun h => h1 h.1), if_neg (fun h => h1 h.1), if_neg (fun h => h1 h.1)]

theorem simple_copy_channels_apply (n T : Nat) (inp : Bytes) (m : Nat) (out : Bytes) (j : Nat)
    (hm : m ≤ n) :
    (List.range m).foldl (fun o ichan => simple_copy_times n T inp ichan o) out j =
      if j / 4 % n < m ∧ j / 4 / n / 2 < T then simple_target n inp j else out j := by
  induction m with
  | zero => simp
  | succ m ih =>
    rw [List.range_succ, List.foldl_append, List.foldl_cons, List.foldl_nil,
      simple_copy_times_apply n T inp m _ j (by omega), ih (by omega)]
    by_cases h2 : j / 4 / n / 2 < T
    · by_cases h1 : j / 4 % n = m
      · rw [if_pos ⟨h1, h2⟩, if_pos ⟨by omega, h2⟩]
      · rw [if_neg (fun h => h1 h.1)]
        by_cases h3 : j / 4 % n < m
        · rw [if_pos ⟨h3, h2⟩, if_pos ⟨by omega, h2⟩]
        · rw [if_neg (fun h => h3 h.1), if_neg (fun h => by omega)]
    · rw [if_neg (fun h => h2 h.2), if_neg (fun h => h2 h.2), if_neg (fun h => h2 h.2)]

/-- The two loops together: every output offset whose time index is below
`2 * ntime` receives the byte that belongs there, the other offsets keep their
content. -/
theorem simple_copy_loops_apply (n T : Nat) (inp : Bytes) (out : Bytes) (j : Nat)
    (hn : 0 < n) :
    simple_copy_loops n T inp out j =
      if j / 4 / n / 2 < T then simple_target n inp j else out j := by
  unfold simple_copy_loops
  rw [simple_copy_channels_apply n T inp n out j (Nat.le_refl _)]
  have h : j / 4 % n < n := Nat.mod_lt _ hn
  by_cases h2 : j / 4 / n / 2 < T
  · rw [if_pos ⟨h, h2⟩, if_pos h2]
  · rw [if_neg (fun h => h2 h.2), if_neg h2]

/-! ## C1: where the payload of an accepted packet is written -/

/-- C1 (the code departs from the claim): after two accepted packets that both
carry sequence number 0, the second payload (`0xBB`) has been copied to byte
offset `8192 = (seq - curblock_seq + 1) * payload_size` of block 0, while the
claimed offset `(seq - curblock_seq) * payload_size` is 0 and still holds the
first payload (`0xAA`); the packet counters were advanced for both packets. -/
theorem C1_duplicate_packet_is_written_one_slot_late :
    ∃ s, net_run scenario_cfg scenario_init
        [scenario_packet 0 0xAA, scenario_packet 0 0xBB] = Except.ok s ∧
      s.last_seq_num = 0 ∧ s.curblock = 0 ∧ s.curblock_seq_num = 0 ∧
      wrap32 (sub64 0 s.curblock_seq_num) * scenario_cfg.packet_data_size = 0 ∧
      s.calls.head? = some (Call.memcpy 0 8192 8192) ∧
      s.mem 0 0 = 0xAA ∧ s.mem 0 8191 = 0xAA ∧
      s.mem 0 8192 = 0xBB ∧ s.mem 0 16383 = 0xBB ∧
      s.npacket_block = 2 ∧ s.ndropped_block = 0 :=
  ⟨_, rfl, by decide, by decide, by decide, by decide, by decide, by decide, by decide,
    by decide, by decide, by decide, by decide⟩

/-! ## C2: the sequence number check -/

/-- C2: for a datagram accepted by `guppi_udp_wait` and `guppi_udp_recv`, with
`D = seq - last_seq` as a signed 64-bit value: if `D < -1024` the iteration
rolls over to the next block (one more `wait_free`, `curblock` advanced) whatever
`nextblock_seq` is, and places the packet; if `-1024 ≤ D < 0` the iteration
leaves block index, window, `last_seq`, `last_block_packet_idx`, all counters,
the block contents and the call log as they were; if `D ≥ 0` the packet is
placed, and the iteration rolls over exactly when `seq ≥ nextblock_seq`.  (A
rollover divides by `n_block` and `packets_per_block`, so both are taken
non-zero where a rollover can happen.) -/
theorem C2_sequence_number_check (c : NetCfg) (s : NetState) (ev : NetEvent)
    (hrecv : received_ok s ev) :
    (seq_num_diff s ev < -1024 → c.n_block ≠ 0 → c.packets_per_block ≠ 0 →
      ∃ s1, guppi_net_thread c s ev = Except.ok s1 ∧
        acquired s1.calls = acquired s.calls + 1 ∧
        s1.curblock = Int.tmod (s.curblock + 1) c.n_block ∧
        s1.last_seq_num = ev.seq_num ∧
        ∃ off, s1.calls.head? = some (Call.memcpy s1.curblock off c.packet_data_size)) ∧
    (-1024 ≤ seq_num_diff s ev → seq_num_diff s ev < 0 →
      ∃ s1, guppi_net_thread c s ev = Except.ok s1 ∧
        s1.curblock = s.curblock ∧
        s1.curblock_seq_num = s.curblock_seq_num ∧
        s1.nextblock_seq_num = s.nextblock_seq_num ∧
        s1.last_seq_num = s.last_seq_num ∧
        s1.last_block_packet_idx = s.last_block_packet_idx ∧
        s1.npacket_total = s.npacket_total ∧ s1.npacket_block = s.npacket_block ∧
        s1.ndropped_total = s.ndropped_total ∧ s1.ndropped_block = s.ndropped_block ∧
        s1.nbogus_total = s.nbogus_total ∧ s1.nbogus_block = s.nbogus_block ∧
        s1.mem = s.mem ∧ s1.calls = s.calls) ∧
    (0 ≤ seq_num_diff s ev → c.n_block ≠ 0 → c.packets_per_block ≠ 0 →
      ∃ s1, guppi_net_thread c s ev = Except.ok s1 ∧
        s1.last_seq_num = ev.seq_num ∧
        (∃ off, s1.calls.head? = some (Call.memcpy s1.curblock off c.packet_data_size)) ∧
        (acquired s1.calls = acquired s.calls + 1 ↔ ev.seq_num ≥ s.nextblock_seq_num) ∧
        (ev.seq_num ≥ s.nextblock_seq_num →
          acquired s1.calls = acquired s.calls + 1 ∧
          s1.curblock = Int.tmod (s.curblock + 1) c.n_block) ∧
        (ev.seq_num < s.nextblock_seq_num →
          acquired s1.calls = acquired s.calls ∧ s1.curblock = s.curblock ∧
          s1.curblock_seq_num = s.curblock_seq_num ∧
          s1.nextblock_seq_num = s.nextblock_seq_num)) := by
  have hstep := net_thread_received c s ev hrecv
  refine ⟨?_, ?_, ?_⟩
  · intro hD hn hp
    obtain ⟨s1, h1, hcur, -, -, -, -, -, -, -, -, -, -, hacq, -, -⟩ :=
      rollover_ok c { after_recv s ev with force_new_block := 1 } ev.seq_num hn hp
    refine ⟨net_place c s1 ev.seq_num (recv_data s ev), ?_, ?_, ?_, ?_, ?_⟩
    · rw [hstep, if_pos hD, h1]; rfl
    · rw [place_acquired, hacq]; rfl
    · rw [place_curblock, hcur]; rfl
    · exact place_last_seq_num _ _ _ _
    · exact ⟨_, by rw [place_curblock]; exact place_memcpy _ _ _ _⟩
  · intro hlo hhi
    refine ⟨after_recv s ev, ?_, rfl, rfl, rfl, rfl, rfl, rfl, rfl, rfl, rfl, rfl, rfl, rfl, rfl⟩
    rw [hstep, if_neg (by omega), if_pos hhi]
  · intro hD hn hp
    by_cases hge : ev.seq_num ≥ s.nextblock_seq_num
    · obtain ⟨s1, h1, hcur, -, -, -, -, -, -, -, -, -, -, hacq, -, -⟩ :=
        rollover_ok c { after_recv s ev with force_new_block := 0 } ev.seq_num hn hp
      have hacq1 : acquired (net_place c s1 ev.seq_num (recv_data s ev)).calls
          = acquired s.calls + 1 := by rw [place_acquired, hacq]; rfl
      refine ⟨net_place c s1 ev.seq_num (recv_data s ev), ?_, ?_, ?_, ?_, ?_, ?_⟩
      · rw [hstep, if_neg (by omega), if_neg (by omega), if_pos hge, h1]; rfl
      · exact place_last_seq_num _ _ _ _
      · exact ⟨_, by rw [place_curblock]; exact place_memcpy _ _ _ _⟩
      · exact ⟨fun _ => hge, fun _ => hacq1⟩
      · intro _
        refine ⟨?_, ?_⟩
        · rw [place_acquired, hacq]; rfl
        · rw [place_curblock, hcur]; rfl
      · intro hlt
        omega
    · have hacq0 : acquired (net_place c { after_recv s ev with force_new_block := 0 }
          ev.seq_num (recv_data s ev)).calls = acquired s.calls := by
        rw [place_acquired]; rfl
      refine ⟨net_place c { after_recv s ev with force_new_block := 0 } ev.seq_num
        (recv_data s ev), ?_, ?_, ?_, ?_, ?_, ?_⟩
      · rw [hstep, if_neg (by omega), if_neg (by omega), if_neg hge]
      · exact place_last_seq_num _ _ _ _
      · exact ⟨_, by rw [place_curblock]; exact place_memcpy _ _ _ _⟩
      · constructor
        · intro h
          rw [hacq0] at h
          omega
        · intro h
          exact absurd h hge
      · intro h
        exact absurd h hge
      · intro _
        refine ⟨?_, ?_, ?_, ?_⟩
        · rw [place_acquired]; rfl
        · rw [place_curblock]; rfl
        · rw [place_curblock_seq_num]; rfl
        · rw [place_nextblock_seq_num]; rfl

/-- Witness of C2 in the scenario state after packets 100 and 101 (so
`last_seq = 101`, window `[100, 104)`): sequence number `2 ^ 64 - 2000` forces a
rollover, 50 is dropped, 103 is placed without rollover and 104 with one. -/
theorem C2_sequence_number_check_witness :
    (seq_num_diff scenario_after_100_101 (scenario_packet (2 ^ 64 - 2000) 0xAA) < -1024 ∧
      ∃ s1, guppi_net_thread scenario_cfg scenario_after_100_101
          (scenario_packet (2 ^ 64 - 2000) 0xAA) = Except.ok s1 ∧
        acquired s1.calls = acquired scenario_after_100_101.calls + 1 ∧
        s1.curblock = Int.tmod (scenario_after_100_101.curblock + 1) scenario_cfg.n_block ∧
        s1.last_seq_num = 2 ^ 64 - 2000 ∧
        ∃ off, s1.calls.head? =
          some (Call.memcpy s1.curblock off scenario_cfg.packet_data_size)) ∧
    (∃ s1, guppi_net_thread scenario_cfg scenario_after_100_101
          (scenario_packet 50 0xAA) = Except.ok s1 ∧
        s1.last_seq_num = 101 ∧ s1.calls = scenario_after_100_101.calls) ∧
    (∃ s1, guppi_net_thread scenario_cfg scenario_after_100_101
          (scenario_packet 103 0xAA) = Except.ok s1 ∧
        s1.last_seq_num = 103 ∧ acquired s1.calls = acquired scenario_after_100_101.calls) ∧
    (∃ s1, guppi_net_thread scenario_cfg scenario_after_100_101
          (scenario_packet 104 0xAA) = Except.ok s1 ∧
        s1.last_seq_num = 104 ∧
        acquired s1.calls = acquired scenario_after_100_101.calls + 1) := by
  refine ⟨⟨by decide, ?_⟩, ?_, ?_, ?_⟩
  · exact (C2_sequence_number_check scenario_cfg scenario_after_100_101
      (scenario_packet (2 ^ 64 - 2000) 0xAA) ⟨rfl, rfl⟩).1 (by decide) (by decide) (by decide)
  · obtain ⟨s1, h, -, -, -, hl, -, -, -, -, -, -, -, -, hc⟩ :=
      (C2_sequence_number_check scenario_cfg scenario_after_100_101
        (scenario_packet 50 0xAA) ⟨rfl, rfl⟩).2.1 (by decide) (by decide)
    exact ⟨s1, h, hl, hc⟩
  · obtain ⟨s1, h, hl, -, -, -, hno⟩ :=
      (C2_sequence_number_check scenario_cfg scenario_after_100_101
        (scenario_packet 103 0xAA) ⟨rfl, rfl⟩).2.2 (by decide) (by decide) (by decide)
    exact ⟨s1, h, hl, (hno (by decide)).1⟩
  · obtain ⟨s1, h, hl, -, -, hyes, -⟩ :=
      (C2_sequence_number_check scenario_cfg scenario_after_100_101
        (scenario_packet 104 0xAA) ⟨rfl, rfl⟩).2.2 (by decide) (by decide) (by decide)
    exact ⟨s1, h, hl, (hyes (by decide)).1⟩

/-! ## C3: alignment of a new block -/

/-- C3: whenever an accepted packet with sequence number `seq` (an unsigned
64-bit value) makes the loop roll over, with `packets_per_block > 0`, the new
window is aligned: `curblock_seq = seq - (seq mod packets_per_block)`, a multiple
of `packets_per_block`, and `nextblock_seq = curblock_seq + packets_per_block`
in unsigned 64-bit arithmetic (so without reduction when the sum is below
`2 ^ 64`). -/
theorem C3_rollover_alignment (c : NetCfg) (s : NetState) (ev : NetEvent)
    (hrecv : received_ok s ev) (hn : c.n_block ≠ 0) (hp : 0 < c.packets_per_block)
    (hseq : ev.seq_num < 2 ^ 64)
    (hroll : seq_num_diff s ev < -1024 ∨
      (0 ≤ seq_num_diff s ev ∧ ev.seq_num ≥ s.nextblock_seq_num)) :
    ∃ s1, guppi_net_thread c s ev = Except.ok s1 ∧
      acquired s1.calls = acquired s.calls + 1 ∧
      s1.curblock_seq_num = ev.seq_num - ev.seq_num % c.packets_per_block ∧
      s1.curblock_seq_num % c.packets_per_block = 0 ∧
      s1.nextblock_seq_num = (s1.curblock_seq_num + c.packets_per_block) % 2 ^ 64 ∧
      (s1.curblock_seq_num + c.packets_per_block < 2 ^ 64 →
        s1.nextblock_seq_num = s1.curblock_seq_num + c.packets_per_block) := by
  have hstep := net_thread_received c s ev hrecv
  have hp0 : c.packets_per_block ≠ 0 := by omega
  have key : ∀ f : Nat, ∃ s1,
      (net_rollover c { after_recv s ev with force_new_block := f } ev.seq_num).map
        (fun s2 => net_place c s2 ev.seq_num (recv_data s ev)) = Except.ok s1 ∧
      acquired s1.calls = acquired s.calls + 1 ∧
      s1.curblock_seq_num = ev.seq_num - ev.seq_num % c.packets_per_block ∧
      s1.curblock_seq_num % c.packets_per_block = 0 ∧
      s1.nextblock_seq_num = (s1.curblock_seq_num + c.packets_per_block) % 2 ^ 64 ∧
      (s1.curblock_seq_num + c.packets_per_block < 2 ^ 64 →
        s1.nextblock_seq_num = s1.curblock_seq_num + c.packets_per_block) := by
    intro f
    obtain ⟨s1, h1, -, hcs, hns, -, -, -, -, -, -, -, -, hacq, -, -⟩ :=
      rollover_ok c { after_recv s ev with force_new_block := f } ev.seq_num hn hp0
    rw [sub64_mod_self _ _ hseq] at hcs hns
    have hcs1 : (net_place c s1 ev.seq_num (recv_data s ev)).curblock_seq_num
        = ev.seq_num - ev.seq_num % c.packets_per_block := by
      rw [place_curblock_seq_num, hcs]
    have hns1 : (net_place c s1 ev.seq_num (recv_data s ev)).nextblock_seq_num
        = ((net_place c s1 ev.seq_num (recv_data s ev)).curblock_seq_num
            + c.packets_per_block) % 2 ^ 64 := by
      rw [place_nextblock_seq_num, hns, hcs1]; rfl
    refine ⟨net_place c s1 ev.seq_num (recv_data s ev), ?_, ?_, hcs1, ?_, hns1, ?_⟩
    · rw [h1]; rfl
    · rw [place_acquired, hacq]; rfl
    · rw [hcs1]; exact sub_mod_self_mod _ _
    · intro hlt
      rw [hns1]
      exact Nat.mod_eq_of_lt hlt
  rcases hroll with hD | ⟨hD, hge⟩
  · rw [hstep, if_pos hD]
    exact key 1
  · rw [hstep, if_neg (by omega), if_neg (by omega), if_pos hge]
    exact key 0

/-- Witness of C3, the sequence `[100, 101, -2000]` with 4 packets per block:
the first block begins at 100, and the third packet (`2 ^ 64 - 2000` as an
unsigned value) forces a rollover to a block that begins at
`-2000 - (-2000 mod 4)`, which is `2 ^ 64 - 2000`, and ends before
`2 ^ 64 - 1996`. -/
theorem C3_rollover_alignment_witness :
    scenario_after_100_101.curblock_seq_num = 100 ∧
    scenario_after_100_101.last_seq_num = 101 ∧
    seq_num_diff scenario_after_100_101 (scenario_packet (2 ^ 64 - 2000) 0xAA) < -1024 ∧
    ∃ s1, guppi_net_thread scenario_cfg scenario_after_100_101
        (scenario_packet (2 ^ 64 - 2000) 0xAA) = Except.ok s1 ∧
      acquired s1.calls = acquired scenario_after_100_101.calls + 1 ∧
      s1.curblock_seq_num = (2 ^ 64 - 2000) - (2 ^ 64 - 2000) % 4 ∧
      s1.curblock_seq_num = 2 ^ 64 - 2000 ∧
      s1.nextblock_seq_num = 2 ^ 64 - 1996 := by
  refine ⟨by decide, by decide, by decide, ?_⟩
  obtain ⟨s1, h, hacq, hcs, -, -, hns⟩ :=
    C3_rollover_alignment scenario_cfg scenario_after_100_101
      (scenario_packet (2 ^ 64 - 2000) 0xAA) ⟨rfl, rfl⟩ (by decide) (by decide) (by decide)
      (Or.inl (by decide))
  have hcs2 : s1.curblock_seq_num = 2 ^ 64 - 2000 := by rw [hcs]; rfl
  refine ⟨s1, h, hacq, hcs, hcs2, ?_⟩
  have hlt : s1.curblock_seq_num + scenario_cfg.packets_per_block < 2 ^ 64 := by
    rw [hcs2]; decide
  rw [hns hlt, hcs2]
  rfl

/-! ## C4: NDROP and the zero-filled slots -/

/-- C5 (the claim as stated fails): for the strictly increasing stream
`[0, 1, 8]` of correctly sized packets, 4 packets per block, the final
`npacket_total` is 3 (three packets placed, no slot zero-filled: the rollover
neither fills the rest of block `0..3` nor counts the skipped block `4..7`),
while `max_seq - min_seq + 1` is 9; for the stream `[1]` it is 2 (slot 0 is
zero-filled and counted), while `max_seq - min_seq + 1` is 1. -/
theorem C5_gap_fill_conservation_counterexample :
    (List.Chain' (fun x y => x < y) [0, 1, 8] ∧
      ∃ s, net_run scenario_cfg scenario_init
          (stream_events 8208 (fun _ _ => 0xAA) [0, 1, 8]) = Except.ok s ∧
        s.npacket_total = 3 ∧ s.ndropped_total = 0 ∧
        max_seq [0, 1, 8] - min_seq [0, 1, 8] + 1 = 9 ∧
        s.npacket_total ≠ max_seq [0, 1, 8] - min_seq [0, 1, 8] + 1) ∧
    (List.Chain' (fun x y => x < y) [1] ∧
      ∃ s, net_run scenario_cfg scenario_init
          (stream_events 8208 (fun _ _ => 0xAA) [1]) = Except.ok s ∧
        s.npacket_total = 2 ∧ s.ndropped_total = 1 ∧
        max_seq [1] - min_seq [1] + 1 = 1 ∧
        s.npacket_total ≠ max_seq [1] - min_seq [1] + 1) :=
  ⟨⟨by simp, _, rfl, by decide, by decide, by decide, by decide⟩,
    ⟨by simp, _, rfl, by decide, by decide, by decide, by decide⟩⟩

/-- C5 (amended): for a strictly increasing stream of correctly sized packets
with sequence numbers below `2 ^ 63` whose first packet is not in the late
window `1024 .. 2047` of the initial `last_seq`, the loop runs to the end and
the final `npacket_total` (packets placed plus slots zero-filled) is the sum,
over the blocks that receive a packet, of `(last sequence number received in the
block) mod packets_per_block + 1`; `ndropped_total` is that sum minus the number
of packets.  When the stream is not empty, starts on a block boundary and stays
within that block, the sum is `max_seq - min_seq + 1`. -/
theorem C5_gap_fill_total_of_increasing_stream (c : NetCfg) (up : guppi_udp_params)
    (mem : Int → Nat → Nat) (bytes : Nat → Bytes) (seqs : List Nat)
    (hn : c.n_block ≠ 0) (hp : 0 < c.packets_per_block)
    (hp32 : c.packets_per_block < 2 ^ 32) (hlen : up.packet_size < 2 ^ 64)
    (hinc : List.Chain' (· < ·) seqs) (hb : ∀ q ∈ seqs, q < 2 ^ 63)
    (hfirst : ∀ q, seqs.head? = some q → ¬ (1024 ≤ q ∧ q < 2048)) :
    ∃ s, net_run c (net_init up mem) (stream_events up.packet_size bytes seqs) = Except.ok s ∧
      s.npacket_total = gap_fill_total c.packets_per_block seqs ∧
      s.ndropped_total + seqs.length = s.npacket_total ∧
      (seqs ≠ [] → min_seq seqs % c.packets_per_block = 0 →
        (∀ q ∈ seqs, q < min_seq seqs + c.packets_per_block) →
        s.npacket_total = max_seq seqs - min_seq seqs + 1) := by
  cases seqs with
  | nil =>
    exact ⟨net_init up mem, rfl, rfl, rfl, fun h => absurd rfl h⟩
  | cons a rest =>
    have hch : List.Chain (· < ·) a rest := hinc
    have ha : a < 2 ^ 63 := hb a (List.mem_cons_self _ _)
    obtain ⟨s1, h1, hinv1⟩ := stream_first c up.packet_size (net_init up mem) a (bytes a)
      hn hp hp32 hlen ⟨rfl, rfl, rfl, rfl, rfl, rfl⟩ rfl ha (hfirst a rfl)
    obtain ⟨s2, h2, htot, hdr⟩ := stream_run c up.packet_size bytes rest hn hp hp32 hlen
      s1 a 0 1 hinv1 hch (fun q hq => hb q (List.mem_cons_of_mem _ hq))
    refine ⟨s2, ?_, ?_, ?_, ?_⟩
    · simp only [stream_events, List.map_cons, net_run]
      rw [h1]
      exact h2
    · rw [htot, Nat.zero_add]
    · rw [← hdr]
      simp only [List.length_cons]
      omega
    · intro _ hal hblk
      rw [min_seq_chain a rest hch] at hal hblk
      rw [min_seq_chain a rest hch, max_seq_chain a rest hch, htot, Nat.zero_add]
      have hsame : ∀ x ∈ rest, x / c.packets_per_block = a / c.packets_per_block := by
        intro x hx
        have hax : a < x := List.Chain.rel hch hx
        have hlt := hblk x (List.mem_cons_of_mem _ hx)
        exact ((same_block_iff a x c.packets_per_block hp (Nat.le_of_lt hax)).1
          (by rw [hal]; exact hlt)).symm
      rw [gap_fill_total_one_block c.packets_per_block a rest hsame]
      have hm_mem := List.getLast_mem (List.cons_ne_nil a rest)
      have hm_ge := chain_le_getLast a rest hch
      have hm_lt := hblk _ hm_mem
      have hm_div : (a :: rest).getLast (List.cons_ne_nil _ _) / c.packets_per_block
          = a / c.packets_per_block :=
        ((same_block_iff a _ c.packets_per_block hp hm_ge).1 (by rw [hal]; exact hm_lt)).symm
      have d1 := Nat.div_add_mod ((a :: rest).getLast (List.cons_ne_nil _ _))
        c.packets_per_block
      have d2 := Nat.div_add_mod a c.packets_per_block
      rw [hm_div] at d1
      omega

/-- Witness of C5 (amended): the stream `[0, 1, 3, 4]`, 4 packets per block,
ends with `npacket_total = 5` (block `0..3` up to its last packet 3, block
`4..7` up to its last packet 4) and `ndropped_total = 1`; the stream `[0, 1, 3]`
stays in one aligned block and gives `3 - 0 + 1 = 4`. -/
theorem C5_gap_fill_total_of_increasing_stream_witness :
    (∃ s, net_run scenario_cfg scenario_init
        (stream_events 8208 (fun _ _ => 0xAA) [0, 1, 3, 4]) = Except.ok s ∧
      s.npacket_total = 5 ∧ s.ndropped_total = 1) ∧
    (∃ s, net_run scenario_cfg scenario_init
        (stream_events 8208 (fun _ _ => 0xAA) [0, 1, 3]) = Except.ok s ∧
      s.npacket_total = 3 - 0 + 1) := by
  constructor
  · obtain ⟨s, h, h1, h2, -⟩ := C5_gap_fill_total_of_increasing_stream scenario_cfg
      { packet_size := 8208, nchan := 4 } (fun _ _ => 0xFF) (fun _ _ => 0xAA) [0, 1, 3, 4]
      (by decide) (by decide) (by decide) (by decide) (by simp) (by decide) (by decide)
    refine ⟨s, h, ?_, ?_⟩
    · rw [h1]; decide
    · have e : gap_fill_total scenario_cfg.packets_per_block [0, 1, 3, 4] = 5 := by decide
      rw [h1, e] at h2
      simp only [List.length_cons, List.length_nil] at h2
      omega
  · obtain ⟨s, h, -, -, h3⟩ := C5_gap_fill_total_of_increasing_stream scenario_cfg
      { packet_size := 8208, nchan := 4 } (fun _ _ => 0xFF) (fun _ _ => 0xAA) [0, 1, 3]
      (by decide) (by decide) (by decide) (by decide) (by simp) (by decide) (by decide)
    exact ⟨s, h, h3 (by decide) (by decide) (by decide)⟩

/-! ## C6: packets of unexpected length -/

/-- C6: when a packet size is configured (non-zero) and `recv` delivers a
datagram of another length, `guppi_udp_recv` returns `GUPPI_ERR_PACKET`, and the
loop iteration increments `nbogus_total` and `nbogus_block` by one (as unsigned
64-bit counters) and leaves every other variable, every byte of the data regions
and the call log as they were. -/
theorem C6_bogus_packet_only_counted (c : NetCfg) (s : NetState) (ev : NetEvent)
    (hpoll : ev.poll_rv = 1) (hsize : s.up.packet_size ≠ 0)
    (hrv0 : 0 ≤ ev.recv_rv) (hrv1 : ev.recv_rv < 2 ^ 31)
    (hdiff : ev.recv_rv ≠ (s.up.packet_size : Int)) :
    (∀ b : guppi_udp_packet,
      (guppi_udp_recv s.up b ev.recv_rv ev.bytes).1 = Code.GUPPI_ERR_PACKET) ∧
    guppi_net_thread c s ev = Except.ok
      { s with
        nbogus_total := (s.nbogus_total + 1) % 2 ^ 64
        nbogus_block := (s.nbogus_block + 1) % 2 ^ 64 } := by
  have hne : ev.recv_rv ≠ -1 := by omega
  have hsz : (ev.recv_rv % 2 ^ 64).toNat ≠ s.up.packet_size := by omega
  have hrecv : ∀ b : guppi_udp_packet, guppi_udp_recv s.up b ev.recv_rv ev.bytes =
      (Code.GUPPI_ERR_PACKET, s.up,
        { b with
          data := fun i => if (i : Int) < ev.recv_rv then ev.bytes i else b.data i
          packet_size := (ev.recv_rv % 2 ^ 64).toNat
          nchan := s.up.nchan }) := by
    intro b
    unfold guppi_udp_recv
    simp only [hne, if_false, hsize, ne_eq, not_false_eq_true, if_true, hsz]
  refine ⟨fun b => by rw [hrecv b], ?_⟩
  unfold guppi_net_thread guppi_udp_wait
  simp only [hpoll, if_true]
  rw [hrecv]
  rfl

/-- Witness of C6, the spec's scenario S4: a 777-byte datagram between two
8208-byte packets.  The 777-byte datagram raises both bogus counters from 0 to
1 and changes nothing else; after the third datagram the data regions and the
call log are those of the run without the 777-byte datagram. -/
theorem C6_bogus_packet_only_counted_witness :
    guppi_net_thread scenario_cfg
        (net_run_state scenario_cfg scenario_init [scenario_packet 0 0xAA])
        (packet_event 777 1 (fun _ => 0x77)) =
      Except.ok
        { net_run_state scenario_cfg scenario_init [scenario_packet 0 0xAA] with
          nbogus_total := 1, nbogus_block := 1 } ∧
    ∃ s3, net_run scenario_cfg scenario_init
        [scenario_packet 0 0xAA, packet_event 777 1 (fun _ => 0x77), scenario_packet 1 0xAA]
        = Except.ok s3 ∧
      s3.nbogus_total = 1 ∧ s3.nbogus_block = 1 ∧ s3.npacket_total = 2 ∧
      s3.mem = (net_run_state scenario_cfg scenario_init
        [scenario_packet 0 0xAA, scenario_packet 1 0xAA]).mem ∧
      s3.calls = (net_run_state scenario_cfg scenario_init
        [scenario_packet 0 0xAA, scenario_packet 1 0xAA]).calls :=
  ⟨(C6_bogus_packet_only_counted scenario_cfg
      (net_run_state scenario_cfg scenario_init [scenario_packet 0 0xAA])
      (packet_event 777 1 (fun _ => 0x77)) rfl (by decide) (by decide) (by decide)
      (by decide)).2,
    _, rfl, by decide, by decide, by decide, rfl, rfl⟩

/-! ## C7: the sequence number of a packet -/

/-- C7: for a packet whose size is not 8200, `guppi_udp_packet_seq_num` is the
first 8 bytes of the packet read as a big-endian unsigned 64-bit integer; for an
8200-byte packet, with `v` the 8 bytes at byte offset `1024*8` read big-endian,
it is `(v & 0xFFFFFFFFFF) >> 14` when the most significant byte of `v` (the
byte at offset `1024*8`) is 16 and `(v & 0xFFFFFFFFFF) >> 13` otherwise; the
masked shift is `(v mod 2^40) div 2^k`.  The host is little-endian. -/
theorem C7_packet_seq_num (p : guppi_udp_packet) :
    (p.packet_size ≠ 8200 → guppi_udp_packet_seq_num p = be64 p.data 0) ∧
    (p.packet_size = 8200 →
      guppi_udp_packet_seq_num p =
        if be64 p.data (1024 * 8) / 2 ^ 56 = 16
        then (be64 p.data (1024 * 8) &&& 0xFFFFFFFFFF) >>> 14
        else (be64 p.data (1024 * 8) &&& 0xFFFFFFFFFF) >>> 13) ∧
    (be64 p.data (1024 * 8) / 2 ^ 56 = p.data (1024 * 8) % 256) ∧
    (∀ k, (be64 p.data (1024 * 8) &&& 0xFFFFFFFFFF) >>> k
      = be64 p.data (1024 * 8) % 2 ^ 40 / 2 ^ k) ∧
    be64 p.data 0 < 2 ^ 64 := by
  refine ⟨?_, ?_, be64_high_byte _ _, fun k => low_40_bits _ k, be64_lt _ _⟩
  · intro h
    unfold guppi_udp_packet_seq_num PACKET_SIZE_SIMPLE
    rw [if_neg h, change_endian64_load64]
  · intro h
    unfold guppi_udp_packet_seq_num PACKET_SIZE_SIMPLE
    rw [if_pos h]
    simp only [change_endian64_load64]
    rw [high_byte_eq _ (be64_lt _ _)]

/-- Witness of C7: an 8208-byte packet that starts with the bytes
`00 00 00 00 00 00 01 02` has sequence number `0x0102`; an 8200-byte packet
whose bytes `8192 ..` are `10 00 00 00 00 01 00 00` has sequence number
`0x10000 >> 14 = 4`, and with first byte `00` instead, `0x10000 >> 13 = 8`. -/
theorem C7_packet_seq_num_witness :
    guppi_udp_packet_seq_num
      { packet_size := 8208, nchan := 4, seq_num := 0
        data := fun i => if i = 6 then 1 else if i = 7 then 2 else 0 } = 0x0102 ∧
    guppi_udp_packet_seq_num
      { packet_size := 8200, nchan := 4, seq_num := 0
        data := fun i => if i = 8192 then 16 else if i = 8197 then 1 else 0 } = 4 ∧
    guppi_udp_packet_seq_num
      { packet_size := 8200, nchan := 4, seq_num := 0
        data := fun i => if i = 8197 then 1 else 0 } = 8 := by
  refine ⟨?_, ?_, ?_⟩
  · rw [(C7_packet_seq_num _).1 (by decide)]
    decide
  · rw [(C7_packet_seq_num _).2.1 rfl]
    decide
  · rw [(C7_packet_seq_num _).2.1 rfl]
    decide

/-! ## C8: payload sizes -/

/-- C8: `guppi_udp_packet_datasize` maps 8208 to 8192, 8224 to 8192, 8200 to
8192, 4128 to 4096, 544 to 512, and 1032 to `1032 - VDIF_HEADER_BYTES` (computed
in `size_t`; the plain difference when the header is at most 1032 bytes), for
every value of the macro `VDIF_HEADER_BYTES`. -/
theorem C8_packet_datasize (vdif_header_bytes : Nat) :
    guppi_udp_packet_datasize vdif_header_bytes 8208 = 8192 ∧
    guppi_udp_packet_datasize vdif_header_bytes 8224 = 8192 ∧
    guppi_udp_packet_datasize vdif_header_bytes 8200 = 8192 ∧
    guppi_udp_packet_datasize vdif_header_bytes 4128 = 4096 ∧
    guppi_udp_packet_datasize vdif_header_bytes 544 = 512 ∧
    guppi_udp_packet_datasize vdif_header_bytes 1032 = sub64 1032 vdif_header_bytes ∧
    (vdif_header_bytes ≤ 1032 →
      guppi_udp_packet_datasize vdif_header_bytes 1032 = 1032 - vdif_header_bytes) := by
  refine ⟨?_, ?_, ?_, ?_, ?_, ?_, ?_⟩
  · simp [guppi_udp_packet_datasize, PACKET_SIZE_1SFA, PACKET_SIZE_FAST4K, PACKET_SIZE_SHORT,
      PACKET_SIZE_VDIF, PACKET_SIZE_SIMPLE, sub64]
  · simp [guppi_udp_packet_datasize, PACKET_SIZE_1SFA]
  · simp [guppi_udp_packet_datasize, PACKET_SIZE_1SFA, PACKET_SIZE_FAST4K, PACKET_SIZE_SHORT,
      PACKET_SIZE_VDIF, PACKET_SIZE_SIMPLE]
  · simp [guppi_udp_packet_datasize, PACKET_SIZE_1SFA, PACKET_SIZE_FAST4K]
  · simp [guppi_udp_packet_datasize, PACKET_SIZE_1SFA, PACKET_SIZE_FAST4K, PACKET_SIZE_SHORT]
  · simp [guppi_udp_packet_datasize, PACKET_SIZE_1SFA, PACKET_SIZE_FAST4K, PACKET_SIZE_SHORT,
      PACKET_SIZE_VDIF]
  · intro h
    simp only [guppi_udp_packet_datasize, PACKET_SIZE_1SFA, PACKET_SIZE_FAST4K,
      PACKET_SIZE_SHORT, PACKET_SIZE_VDIF, sub64]
    norm_num
    omega

/-- Witness of C8 with a 32-byte VDIF header: a 1032-byte packet carries 1000
bytes of payload. -/
theorem C8_packet_datasize_witness :
    guppi_udp_packet_datasize 32 8208 = 8192 ∧
    guppi_udp_packet_datasize 32 1032 = 1032 - 32 :=
  ⟨(C8_packet_datasize 32).1, (C8_packet_datasize 32).2.2.2.2.2.2 (by decide)⟩

/-! ## C9: deinterleaving a "simple" packet -/

/-- C9: for an 8200-byte packet with `nchan = n > 0` dividing 1024,
`guppi_udp_packet_data_copy` returns, and its output is ordered polarization
fastest, then channel, then time: for every time index `t < 2*(1024/n)`,
channel `c < n` and byte `k < 4`, `out[4*(n*t + c) + k]` is
`in[8*(n*(t div 2) + c) + s]` with `s = (2,3,6,7)[k]` for even `t` and
`(0,1,4,5)[k]` for odd `t`, `in` being the packet from byte 0.  Every output
offset below 8192 is of that form, so all 8192 output bytes are written; the
bytes from 8192 on are left alone. -/
theorem C9_simple_packet_deinterleave (vdif_header_bytes : Nat) (out : Bytes)
    (p : guppi_udp_packet) (n : Nat)
    (hsize : p.packet_size = 8200) (hn : 0 < n) (hdiv : n ∣ 1024)
    (hnchan : p.nchan = (n : Int)) :
    ∃ out1, guppi_udp_packet_data_copy vdif_header_bytes out p = some out1 ∧
      (∀ t c k, t < 2 * (1024 / n) → c < n → k < 4 →
        out1 (4 * (n * t + c) + k) = p.data (8 * (n * (t / 2) + c) + simple_src t k)) ∧
      (∀ j, j < 8192 →
        ∃ t c k, t < 2 * (1024 / n) ∧ c < n ∧ k < 4 ∧ j = 4 * (n * t + c) + k) ∧
      (∀ j, 8192 ≤ j → out1 j = out j) := by
  have hne : p.nchan ≠ 0 := by rw [hnchan]; exact_mod_cast (by omega : n ≠ 0)
  have hT : (Int.tdiv 1024 p.nchan).toNat = 1024 / n := by
    rw [hnchan]
    have : Int.tdiv 1024 (n : Int) = ((1024 / n : Nat) : Int) := by
      rw [Int.tdiv_eq_ediv (by norm_num) (Int.ofNat_nonneg n)]
      norm_cast
    rw [this, Int.toNat_ofNat]
  have hN : p.nchan.toNat = n := by rw [hnchan, Int.toNat_ofNat]
  have hmul : n * (1024 / n) = 1024 := Nat.mul_div_cancel' hdiv
  have hcopy : guppi_udp_packet_data_copy vdif_header_bytes out p =
      some (simple_copy_loops n (1024 / n) (fun i => p.data (0 + i)) out) := by
    unfold guppi_udp_packet_data_copy guppi_udp_packet_data
    simp only [hsize, PACKET_SIZE_1SFA_OLD, PACKET_SIZE_SIMPLE, PACKET_SIZE_VDIF, hne, hT, hN]
    norm_num
  refine ⟨_, hcopy, ?_, ?_, ?_⟩
  · intro t c k ht hc hk
    obtain ⟨i1, i2, i3⟩ := simple_index n c t k hc hk
    rw [simple_copy_loops_apply _ _ _ _ _ hn, i1, if_pos (by omega)]
    unfold simple_target
    rw [i1, i2, i3]
    show p.data (0 + _) = _
    rw [Nat.zero_add]
  · intro j hj
    refine ⟨j / 4 / n, j / 4 % n, j % 4, ?_, Nat.mod_lt _ hn, Nat.mod_lt _ (by norm_num),
      simple_index_inv n j⟩
    rw [Nat.div_lt_iff_lt_mul hn]
    have : 2 * (1024 / n) * n = 2048 := by rw [Nat.mul_assoc, Nat.mul_comm (1024 / n), hmul]
    omega
  · intro j hj
    rw [simple_copy_loops_apply _ _ _ _ _ hn, if_neg]
    intro h
    have h1 : j / 4 / n < 2 * (1024 / n) := by omega
    rw [Nat.div_lt_iff_lt_mul hn] at h1
    have : 2 * (1024 / n) * n = 2048 := by rw [Nat.mul_assoc, Nat.mul_comm (1024 / n), hmul]
    omega

/-- Witness of C9 with `nchan = 4` and the input pattern `in[i] = i mod 256`:
output bytes 0..3 (time 0, channel 0) are input bytes 2, 3, 6, 7; output bytes
16..19 (time 1, channel 0) are input bytes 0, 1, 4, 5; output byte 57 (time 3,
channel 2, byte 1) is input byte 49 (input group of time pair 1, channel 2). -/
theorem C9_simple_packet_deinterleave_witness :
    ∃ out1, guppi_udp_packet_data_copy 32 (fun _ => 0)
        { packet_size := 8200, nchan := 4, data := fun i => i % 256, seq_num := 0 }
        = some out1 ∧
      out1 0 = 2 ∧ out1 1 = 3 ∧ out1 2 = 6 ∧ out1 3 = 7 ∧
      out1 16 = 0 ∧ out1 17 = 1 ∧ out1 18 = 4 ∧ out1 19 = 5 ∧
      out1 57 = 49 := by
  obtain ⟨out1, h, hv, -, -⟩ := C9_simple_packet_deinterleave 32 (fun _ => 0)
    { packet_size := 8200, nchan := 4, data := fun i => i % 256, seq_num := 0 } 4
    rfl (by decide) (by decide) rfl
  refine ⟨out1, h, ?_, ?_, ?_, ?_, ?_, ?_, ?_, ?_, ?_⟩
  · exact hv 0 0 0 (by decide) (by decide) (by decide)
  · exact hv 0 0 1 (by decide) (by decide) (by decide)
  · exact hv 0 0 2 (by decide) (by decide) (by decide)
  · exact hv 0 0 3 (by decide) (by decide) (by decide)
  · exact hv 1 0 0 (by decide) (by decide) (by decide)
  · exact hv 1 0 1 (by decide) (by decide) (by decide)
  · exact hv 1 0 2 (by decide) (by decide) (by decide)
  · exact hv 1 0 3 (by decide) (by decide) (by decide)
  · exact hv 3 2 1 (by decide) (by decide) (by decide)

/-! ## C10: the Parkes packet index -/

/-- C10 (the claim as stated fails): with `nchan = 131072` and
`acc_len = 65537` the product `(nchan/2)*acc_len = 2^32 + 65536` is positive,
but the 32-bit `counts_per_packet` holds 65536.  With `npol = 0` no byte is
reordered or copied, so every access of the call is inside the arrays (taken
here with 8224 bytes, the largest packet size the code knows); a packet whose
raw counter is 65536 leaves `parkes_to_guppi` with sequence number
`65536 / 65536 = 1`, whereas `floor(q / ((nchan/2)*acc_len))` is 0. -/
theorem C10_parkes_division_counterexample :
    0 < Int.tdiv 131072 2 * 65537 ∧
    parkes_in_bounds 8224 0 131072 ∧
    guppi_udp_packet_seq_num
      { packet_size := 8208, nchan := 0, seq_num := 0
        data := fun i => if i = 5 then 1 else 0 } = 65536 ∧
    65536 / (Int.tdiv 131072 2 * 65537).toNat = 0 ∧
    ∃ b1, parkes_to_guppi 8224 (fun _ => 0)
        { packet_size := 8208, nchan := 0, seq_num := 0
          data := fun i => if i = 5 then 1 else 0 } 65537 0 131072 = some b1 ∧
      guppi_udp_packet_seq_num b1 = 1 :=
  ⟨by decide, ⟨by decide, by decide, by decide, by decide⟩, by decide, by decide, _, rfl,
    by decide⟩

/-- C10 (amended): for a packet whose size is not 8200 and `acc_len`, `npol`,
`nchan` with `0 < (nchan/2)*acc_len < 2^32` (so that the 32-bit
`counts_per_packet` holds the product; `nchan/2` truncates) and with every
access of the call inside the arrays `tmp` and `b->data` of `max_packet_size`
bytes, `parkes_to_guppi` returns and the sequence number of the packet
afterwards is `floor(q / ((nchan/2)*acc_len))`, `q` being the sequence number
before the call. -/
theorem C10_parkes_packet_index (max_packet_size : Nat) (tmp0 : Bytes) (b : guppi_udp_packet)
    (acc_len npol nchan : Int)
    (hsize : b.packet_size ≠ 8200)
    (hpos : 0 < Int.tdiv nchan 2 * acc_len) (hfit : Int.tdiv nchan 2 * acc_len < 2 ^ 32)
    (hin : parkes_in_bounds max_packet_size npol nchan) :
    ∃ b1, parkes_to_guppi max_packet_size tmp0 b acc_len npol nchan = some b1 ∧
      guppi_udp_packet_seq_num b1 =
        guppi_udp_packet_seq_num b / (Int.tdiv nchan 2 * acc_len).toNat := by
  obtain ⟨hmax, h2, h4, hcopy⟩ := hin
  have hcpp : counts_per_packet acc_len nchan = (Int.tdiv nchan 2 * acc_len).toNat := by
    unfold counts_per_packet
    rw [Int.emod_eq_of_lt (Int.le_of_lt hpos) hfit]
  have hcpp0 : counts_per_packet acc_len nchan ≠ 0 := by
    rw [hcpp]
    omega
  have hq : change_endian64 (load64 b.data 0) < 2 ^ 64 := by
    rw [change_endian64_load64]
    exact be64_lt _ _
  have hidx : change_endian64 (load64 b.data 0) / counts_per_packet acc_len nchan < 2 ^ 64 :=
    Nat.lt_of_le_of_lt (Nat.div_le_self _ _) hq
  have hseq : guppi_udp_packet_seq_num b = change_endian64 (load64 b.data 0) := by
    unfold guppi_udp_packet_seq_num PACKET_SIZE_SIMPLE
    rw [if_neg hsize]
  have hcopy1 : ¬ (((npol * nchan) % 2 ^ 64).toNat ≠ 0 ∧
      max_packet_size < 8 + ((npol * nchan) % 2 ^ 64).toNat) := by
    rintro ⟨hne, hlt⟩
    have := hcopy hne
    omega
  have key : ∀ tmp : Bytes,
      guppi_udp_packet_seq_num
        { b with
          data := copy_bytes (store64 b.data 0 (change_endian64
            (change_endian64 (load64 b.data 0) / counts_per_packet acc_len nchan))) 8 tmp 0
            ((npol * nchan) % 2 ^ 64).toNat } =
        guppi_udp_packet_seq_num b / (Int.tdiv nchan 2 * acc_len).toNat := by
    intro tmp
    unfold guppi_udp_packet_seq_num PACKET_SIZE_SIMPLE
    rw [if_neg hsize, if_neg hsize]
    simp only
    rw [load64_congr _ (store64 b.data 0
        (change_endian64 (change_endian64 (load64 b.data 0) / counts_per_packet acc_len nchan))) 0,
      load64_store64 _ _ _ (change_endian64_lt _ hidx), change_endian64_involutive _ hidx, hcpp]
    intro i hi
    unfold copy_bytes
    rw [if_neg (by omega)]
  unfold parkes_to_guppi
  rw [if_neg (by omega), if_neg hcpp0]
  simp only
  by_cases hn2 : npol = 2
  · have hloop : ¬ (0 < Int.tdiv nchan 2 ∧
        ¬ (nchan + 2 * Int.tdiv nchan 2 ≤ (max_packet_size : Int) ∧
          8 + 4 * Int.tdiv nchan 2 ≤ (max_packet_size : Int))) := by
      rintro ⟨hp, hnot⟩
      exact hnot (h2 hn2 hp)
    rw [if_pos hn2, if_neg hloop]
    simp only
    rw [if_neg hcopy1]
    exact ⟨_, rfl, key _⟩
  · by_cases hn4 : npol = 4
    · have hloop : ¬ (0 < nchan ∧
          ¬ (4 * nchan ≤ (max_packet_size : Int) ∧ 8 + 4 * nchan ≤ (max_packet_size : Int))) := by
        rintro ⟨hp, hnot⟩
        exact hnot (h4 hn4 hp)
      rw [if_neg hn2, if_pos hn4, if_neg hloop]
      simp only
      rw [if_neg hcopy1]
      exact ⟨_, rfl, key _⟩
    · rw [if_neg hn2, if_neg hn4]
      simp only
      rw [if_neg hcopy1]
      exact ⟨_, rfl, key _⟩

/-- Witness of C10 (amended): `nchan = 8`, `acc_len = 16`, `npol = 2`, arrays
of 8224 bytes, so `counts_per_packet = 64` and 16 bytes are reordered; a packet
whose raw counter is 640 gets sequence number 10. -/
theorem C10_parkes_packet_index_witness :
    ((8208 : Nat) ≠ 8200 ∧ 0 < Int.tdiv 8 2 * 16 ∧ Int.tdiv 8 2 * 16 < 2 ^ 32 ∧
      parkes_in_bounds 8224 2 8) ∧
    guppi_udp_packet_seq_num
      { packet_size := 8208, nchan := 8, seq_num := 0
        data := fun i => if i = 6 then 2 else if i = 7 then 128 else 0 } = 640 ∧
    ∃ b1, parkes_to_guppi 8224 (fun _ => 0)
        { packet_size := 8208, nchan := 8, seq_num := 0
          data := fun i => if i = 6 then 2 else if i = 7 then 128 else 0 } 16 2 8 = some b1 ∧
      guppi_udp_packet_seq_num b1 = 10 := by
  have hin : parkes_in_bounds 8224 2 8 := ⟨by decide, by decide, by decide, by decide⟩
  refine ⟨⟨by decide, by decide, by decide, hin⟩, by decide, ?_⟩
  obtain ⟨b1, h, hs⟩ := C10_parkes_packet_index 8224 (fun _ => 0)
    { packet_size := 8208, nchan := 8, seq_num := 0
      data := fun i => if i = 6 then 2 else if i = 7 then 128 else 0 } 16 2 8
    (by decide) (by decide) (by decide) hin
  refine ⟨b1, h, ?_⟩
  rw [hs]
  decide


/-! ## The phases of one coordinator iteration -/

theorem fold_then_none (s : FoldState) (f : FoldState → FoldResult) :
    fold_then (s, none) f = f s := rfl

theorem fold_then_some (s : FoldState) (h : Halt) (f : FoldState → FoldResult) :
    fold_then (s, some h) f = (s, some h) := rfl

theorem fold_join_loop_succ (ev : FoldEvent) (n : Nat) (s : FoldState) :
    fold_join_loop ev (n + 1) s = fold_join_body ev (fold_join_loop ev n s) (n : Int) := by
  simp [fold_join_loop, List.range_succ, List.foldl_append]

/-- The join loop changes the call log and the block table only. -/
theorem fold_join_loop_fields (ev : FoldEvent) (n : Nat) (s : FoldState) :
    (fold_join_loop ev n s).curblock_in = s.curblock_in ∧
    (fold_join_loop ev n s).curblock_out = s.curblock_out ∧
    (fold_join_loop ev n s).refresh_polycos = s.refresh_polycos ∧
    (fold_join_loop ev n s).next_integration = s.next_integration ∧
    (fold_join_loop ev n s).first = s.first ∧
    (fold_join_loop ev n s).nblock_int = s.nblock_int ∧
    (fold_join_loop ev n s).npacket = s.npacket ∧
    (fold_join_loop ev n s).ndrop = s.ndrop ∧
    (fold_join_loop ev n s).cur_thread = s.cur_thread ∧
    (fold_join_loop ev n s).fmjd0 = s.fmjd0 ∧
    (fold_join_loop ev n s).fmjd_next = s.fmjd_next ∧
    (fold_join_loop ev n s).fb_data = s.fb_data ∧
    (fold_join_loop ev n s).hdr_out = s.hdr_out := by
  induction n with
  | zero => simp [fold_join_loop]
  | succ n ih =>
    rw [fold_join_loop_succ]
    obtain ⟨h1, h2, h3, h4, h5, h6, h7, h8, h9, h10, h11, h12, h13⟩ := ih
    unfold fold_join_body
    simp only
    split_ifs <;> exact ⟨h1, h2, h3, h4, h5, h6, h7, h8, h9, h10, h11, h12, h13⟩

/-- The block table after `n` passes of the join loop: the slots joined are
reset, the others are as before. -/
theorem fold_join_loop_table (ev : FoldEvent) (n : Nat) (s : FoldState) (j : Int) :
    (fold_join_loop ev n s).input_block_list j =
      if 0 ≤ j ∧ j < n ∧ ev.join_rv j = 0 then -1 else s.input_block_list j := by
  induction n with
  | zero =>
    have : ¬ (0 ≤ j ∧ j < ((0 : Nat) : Int) ∧ ev.join_rv j = 0) := by
      intro h
      have := h.2.1
      simp at this
      omega
    rw [if_neg this]
    simp [fold_join_loop]
  | succ n ih =>
    rw [fold_join_loop_succ]
    unfold fold_join_body
    simp only
    by_cases hr : ev.join_rv (n : Int) = 0
    · simp only [hr, ne_eq, not_true_eq_false, if_false]
      by_cases hj : j = (n : Int)
      · subst hj
        have : (0 : Int) ≤ (n : Int) ∧ (n : Int) < ((n + 1 : Nat) : Int) ∧
            ev.join_rv (n : Int) = 0 := ⟨by omega, by push_cast; omega, hr⟩
        rw [if_pos this]
        simp
      · have e : (0 ≤ j ∧ j < ((n + 1 : Nat) : Int) ∧ ev.join_rv j = 0) ↔
            (0 ≤ j ∧ j < (n : Int) ∧ ev.join_rv j = 0) := by
          push_cast
          constructor
          · rintro ⟨a, b, c⟩
            exact ⟨a, by omega, c⟩
          · rintro ⟨a, b, c⟩
            exact ⟨a, by omega, c⟩
        simp only [hj, if_false, e]
        split_ifs <;> simp_all
    · simp only [ne_eq, hr, not_false_eq_true, if_true]
      have e : (0 ≤ j ∧ j < ((n + 1 : Nat) : Int) ∧ ev.join_rv j = 0) ↔
          (0 ≤ j ∧ j < (n : Int) ∧ ev.join_rv j = 0) := by
        push_cast
        constructor
        · rintro ⟨a, b, c⟩
          refine ⟨a, ?_, c⟩
          by_contra hlt
          have : j = (n : Int) := by omega
          subst this
          exact hr c
        · rintro ⟨a, b, c⟩
          exact ⟨a, by omega, c⟩
      simp only [e]
      exact ih

/-- The calls of the join loop, as a list put in front of the log. -/
theorem fold_join_loop_log (ev : FoldEvent) (n : Nat) (s : FoldState) :
    (fold_join_loop ev n s).log = join_events ev s.input_block_list s.fb_data n ++ s.log := by
  induction n with
  | zero => simp [fold_join_loop, join_events]
  | succ n ih =>
    rw [fold_join_loop_succ]
    have ht := fold_join_loop_table ev n s (n : Int)
    have hn : ¬ ((0 : Int) ≤ (n : Int) ∧ (n : Int) < (n : Int) ∧ ev.join_rv (n : Int) = 0) := by
      intro h
      omega
    rw [if_neg hn] at ht
    have hf := (fold_join_loop_fields ev n s).2.2.2.2.2.2.2.2.2.2.2.1
    unfold fold_join_body
    simp only [join_events, join_slot_events, ih, ht, hf]
    split_ifs <;> simp

/-- The combine phase in closed form. -/
theorem fold_combine_eq (s : FoldState) (ev : FoldEvent) :
    fold_combine s ev =
      if s.cur_thread = nthread ∨ s.next_integration then
        { s with
          log := join_events ev s.input_block_list s.fb_data s.cur_thread.toNat ++ s.log
          input_block_list := fun j =>
            if 0 ≤ j ∧ j < (s.cur_thread.toNat : Int) ∧ ev.join_rv j = 0 then -1
            else s.input_block_list j
          cur_thread := 0 }
      else s := by
  unfold fold_combine
  split_ifs with h
  · obtain ⟨h1, h2, h3, h4, h5, h6, h7, h8, _, h10, h11, h12, h13⟩ :=
      fold_join_loop_fields ev s.cur_thread.toNat s
    have hl := fold_join_loop_log ev s.cur_thread.toNat s
    have ht : (fold_join_loop ev s.cur_thread.toNat s).input_block_list = fun j =>
        if 0 ≤ j ∧ j < (s.cur_thread.toNat : Int) ∧ ev.join_rv j = 0 then -1
        else s.input_block_list j := funext (fold_join_loop_table ev s.cur_thread.toNat s)
    rcases hs : fold_join_loop ev s.cur_thread.toNat s with ⟨a1, a2, a3, a4, a5, a6, a7, a8, a9,
      a10, a11, a12, a13, a14, a15⟩
    rw [hs] at h1 h2 h3 h4 h5 h6 h7 h8 h10 h11 h12 h13 hl ht
    simp only at h1 h2 h3 h4 h5 h6 h7 h8 h10 h11 h12 h13 hl ht
    subst h1 h2 h3 h4 h5 h6 h7 h8 h10 h11 h12 h13 hl ht
    rfl
  · rfl

/-- No pass of the join loop waits for an input block. -/
theorem wait_filled_blocks_join_events (ev : FoldEvent) (ibl : Int → Int) (f : Int) (n : Nat)
    (l : List FoldCall) :
    wait_filled_blocks (join_events ev ibl f n ++ l) = wait_filled_blocks l := by
  induction n with
  | zero => rfl
  | succ n ih =>
    simp only [join_events, join_slot_events]
    split_ifs <;> simpa [wait_filled_blocks] using ih

theorem wait_filled_blocks_begin (s : FoldState) (ev : FoldEvent) :
    wait_filled_blocks (fold_begin s ev).log = wait_filled_blocks s.log ++ [s.curblock_in] ∧
    (fold_begin s ev).curblock_in = s.curblock_in := by
  unfold fold_begin fold_read_params fold_first_time
  simp only
  split_ifs <;> simp [wait_filled_blocks]

theorem wait_filled_blocks_combine (s : FoldState) (ev : FoldEvent) :
    wait_filled_blocks (fold_combine s ev).log = wait_filled_blocks s.log ∧
    (fold_combine s ev).curblock_in = s.curblock_in := by
  rw [fold_combine_eq]
  split_ifs
  · exact ⟨wait_filled_blocks_join_events _ _ _ _ _, rfl⟩
  · exact ⟨rfl, rfl⟩

theorem wait_filled_blocks_finalize (c : FoldCfg) (s : FoldState) (ev : FoldEvent) :
    wait_filled_blocks (fold_finalize c s ev).1.log = wait_filled_blocks s.log ∧
    (fold_finalize c s ev).1.curblock_in = s.curblock_in := by
  unfold fold_finalize
  simp only
  split_ifs <;> simp [wait_filled_blocks]

theorem wait_filled_blocks_polyco (s : FoldState) (ev : FoldEvent) :
    wait_filled_blocks (fold_polyco s ev).1.log = wait_filled_blocks s.log ∧
    (fold_polyco s ev).1.curblock_in = s.curblock_in := by
  unfold fold_polyco fold_then
  simp only
  split_ifs <;> simp

theorem wait_filled_blocks_launch (s : FoldState) (ev : FoldEvent) :
    wait_filled_blocks (fold_launch s ev).1.log = wait_filled_blocks s.log ∧
    (fold_launch s ev).1.curblock_in = s.curblock_in := by
  unfold fold_launch
  simp only
  split_ifs <;> simp [wait_filled_blocks]

theorem wait_filled_blocks_account (c : FoldCfg) (s : FoldState) (ev : FoldEvent) :
    wait_filled_blocks (fold_account c s ev).1.log = wait_filled_blocks s.log ∧
    ((fold_account c s ev).2 = none →
      (fold_account c s ev).1.curblock_in = Int.tmod (s.curblock_in + 1) c.n_block_in) := by
  unfold fold_account
  simp only
  split_ifs <;> simp [wait_filled_blocks]

/-- A rule for sequencing: a property of results `Q` holds of `fold_then r f`
when it holds of `r` if the thread stopped there and of `f t` otherwise. -/
theorem fold_then_rule (r : FoldResult) (f : FoldState → FoldResult)
    (A : FoldState → Prop) (Q : FoldResult → Prop)
    (hr : (r.2 = none → A r.1) ∧ (r.2 ≠ none → Q r))
    (hf : ∀ t, A t → Q (f t)) : Q (fold_then r f) := by
  obtain ⟨t, o⟩ := r
  cases o with
  | none => exact hf t (hr.1 rfl)
  | some h => exact hr.2 (by simp)

/-- A rule for one iteration: `A` holds after the finalize and polyco phases,
`B` after the launch, and `Q` of the result wherever the iteration ends. -/
theorem fold_thread_rule (c : FoldCfg) (s : FoldState) (ev : FoldEvent)
    (A B : FoldState → Prop) (Q : FoldResult → Prop)
    (h1 : ((fold_finalize c (fold_combine (fold_begin s ev) ev) ev).2 = none →
        A (fold_finalize c (fold_combine (fold_begin s ev) ev) ev).1) ∧
      ((fold_finalize c (fold_combine (fold_begin s ev) ev) ev).2 ≠ none →
        Q (fold_finalize c (fold_combine (fold_begin s ev) ev) ev)))
    (h2 : ∀ t, A t → ((fold_polyco t ev).2 = none → A (fold_polyco t ev).1) ∧
      ((fold_polyco t ev).2 ≠ none → Q (fold_polyco t ev)))
    (h3 : ∀ t, A t → ((fold_launch t ev).2 = none → B (fold_launch t ev).1) ∧
      ((fold_launch t ev).2 ≠ none → Q (fold_launch t ev)))
    (h4 : ∀ t, B t → Q (fold_account c t ev)) :
    Q (guppi_fold_thread c s ev) := by
  unfold guppi_fold_thread
  refine fold_then_rule _ _ A Q h1 (fun t ht => ?_)
  refine fold_then_rule _ _ A Q (h2 t ht) (fun t ht => ?_)
  exact fold_then_rule _ _ B Q (h3 t ht) h4

/-- One iteration waits for the current input block once and, unless the thread
stops, advances to the next block of the ring. -/
theorem fold_thread_wait_filled (c : FoldCfg) (s : FoldState) (ev : FoldEvent) :
    wait_filled_blocks (guppi_fold_thread c s ev).1.log =
      wait_filled_blocks s.log ++ [s.curblock_in] ∧
    ((guppi_fold_thread c s ev).2 = none →
      (guppi_fold_thread c s ev).1.curblock_in = Int.tmod (s.curblock_in + 1) c.n_block_in) := by
  have hb := wait_filled_blocks_begin s ev
  have hc := wait_filled_blocks_combine (fold_begin s ev) ev
  have hf := wait_filled_blocks_finalize c (fold_combine (fold_begin s ev) ev) ev
  have e1 : wait_filled_blocks (fold_finalize c (fold_combine (fold_begin s ev) ev) ev).1.log =
      wait_filled_blocks s.log ++ [s.curblock_in] := by rw [hf.1, hc.1, hb.1]
  have e2 : (fold_finalize c (fold_combine (fold_begin s ev) ev) ev).1.curblock_in =
      s.curblock_in := by rw [hf.2, hc.2, hb.2]
  refine fold_thread_rule c s ev
    (fun t => wait_filled_blocks t.log = wait_filled_blocks s.log ++ [s.curblock_in] ∧
      t.curblock_in = s.curblock_in)
    (fun t => wait_filled_blocks t.log = wait_filled_blocks s.log ++ [s.curblock_in] ∧
      t.curblock_in = s.curblock_in)
    (fun r => wait_filled_blocks r.1.log = wait_filled_blocks s.log ++ [s.curblock_in] ∧
      (r.2 = none → r.1.curblock_in = Int.tmod (s.curblock_in + 1) c.n_block_in))
    ⟨fun _ => ⟨e1, e2⟩, fun hne => ⟨e1, fun h => absurd h hne⟩⟩ ?_ ?_ ?_
  · intro t ht
    have hp := wait_filled_blocks_polyco t ev
    exact ⟨fun _ => ⟨hp.1.trans ht.1, hp.2.trans ht.2⟩,
      fun hne => ⟨hp.1.trans ht.1, fun h => absurd h hne⟩⟩
  · intro t ht
    have hp := wait_filled_blocks_launch t ev
    exact ⟨fun _ => ⟨hp.1.trans ht.1, hp.2.trans ht.2⟩,
      fun hne => ⟨hp.1.trans ht.1, fun h => absurd h hne⟩⟩
  · intro t ht
    have hp := wait_filled_blocks_account c t ev
    refine ⟨hp.1.trans ht.1, fun h => ?_⟩
    rw [hp.2 h, ht.2]

theorem run_monitor_append {Q : Type} (step : Q → FoldCall → Option Q) (q : Q)
    (a l : List FoldCall) :
    run_monitor step q (a ++ l) =
      (run_monitor step q l).bind (fun q1 => run_monitor step q1 a) := by
  induction a with
  | nil => simp [run_monitor]
  | cons e a ih =>
    show (run_monitor step q (a ++ l)).bind (fun q1 => step q1 e) =
      (run_monitor step q l).bind (fun q1 => run_monitor step q1 (e :: a))
    rw [ih]
    cases run_monitor step q l with
    | none => rfl
    | some q1 => rfl

theorem run_monitor_append_of {Q : Type} (step : Q → FoldCall → Option Q) (q q1 : Q)
    (a l : List FoldCall) (h : run_monitor step q l = some q1) :
    run_monitor step q (a ++ l) = run_monitor step q1 a := by
  rw [run_monitor_append, h]
  rfl

/-- What `fold_begin` leaves alone, and its calls. -/
theorem fold_begin_frame (s : FoldState) (ev : FoldEvent) :
    (fold_begin s ev).log = begin_events s ++ s.log ∧
    (fold_begin s ev).cur_thread = s.cur_thread ∧
    (fold_begin s ev).input_block_list = s.input_block_list ∧
    (fold_begin s ev).curblock_in = s.curblock_in ∧
    (fold_begin s ev).curblock_out = s.curblock_out ∧
    (fold_begin s ev).fb_data = s.fb_data := by
  unfold fold_begin fold_read_params fold_first_time begin_events
  simp only
  split_ifs <;> simp_all

/-- What `fold_combine` leaves alone, and its calls. -/
theorem fold_combine_frame (s : FoldState) (ev : FoldEvent) :
    (fold_combine s ev).log = combine_events s ev ++ s.log ∧
    (fold_combine s ev).curblock_in = s.curblock_in ∧
    (fold_combine s ev).curblock_out = s.curblock_out ∧
    (fold_combine s ev).fb_data = s.fb_data ∧
    (fold_combine s ev).next_integration = s.next_integration ∧
    (fold_combine s ev).hdr_out = s.hdr_out := by
  rw [fold_combine_eq]
  unfold combine_events
  split_ifs <;> simp

/-- What `fold_finalize` leaves alone, and its calls. -/
theorem fold_finalize_frame (c : FoldCfg) (s : FoldState) (ev : FoldEvent) :
    (fold_finalize c s ev).1.log = finalize_events c s ev ++ s.log ∧
    (fold_finalize c s ev).1.cur_thread = s.cur_thread ∧
    (fold_finalize c s ev).1.input_block_list = s.input_block_list ∧
    (fold_finalize c s ev).1.curblock_in = s.curblock_in := by
  unfold fold_finalize finalize_events
  simp only
  split_ifs <;> simp

/-- Function `fold_polyco` makes no call and changes `refresh_polycos` only. -/
theorem fold_polyco_frame (s : FoldState) (ev : FoldEvent) :
    (fold_polyco s ev).1 = s ∨ (fold_polyco s ev).1 = { s with refresh_polycos := false } := by
  unfold fold_polyco fold_then
  simp only
  split_ifs <;> simp

/-- The launch in closed form. -/
theorem fold_launch_frame (s : FoldState) (ev : FoldEvent) :
    (fold_launch s ev).1.log = launch_events s ev ++ s.log ∧
    (fold_launch s ev).1.input_block_list =
      (fun j => if j = s.cur_thread then s.curblock_in else s.input_block_list j) ∧
    (fold_launch s ev).1.curblock_in = s.curblock_in ∧
    ((fold_launch s ev).2 = none →
      (fold_launch s ev).1.cur_thread =
        if ev.create_rv ≠ 0 then s.cur_thread else s.cur_thread + 1) ∧
    ((fold_launch s ev).2 = none → ¬ (ev.nchan = 0 ∨ ev.npol = 0)) := by
  unfold fold_launch launch_events
  simp only
  split_ifs <;> simp_all

/-- What `fold_account` leaves alone, and its calls. -/
theorem fold_account_frame (c : FoldCfg) (s : FoldState) (ev : FoldEvent) :
    (fold_account c s ev).1.log = account_events s ev ++ s.log ∧
    (fold_account c s ev).1.cur_thread = s.cur_thread ∧
    (fold_account c s ev).1.input_block_list = s.input_block_list ∧
    ((fold_account c s ev).2 = none →
      (fold_account c s ev).1.curblock_in = Int.tmod (s.curblock_in + 1) c.n_block_in) := by
  unfold fold_account account_events
  simp only
  split_ifs <;> simp

theorem fold_finalize_first (c : FoldCfg) (s : FoldState) (ev : FoldEvent) :
    (fold_finalize c s ev).1.first = s.first ∧
    (fold_finalize c s ev).1.fb_data =
      (if s.next_integration ∧ c.n_block_out ≠ 0 then Int.tmod (s.curblock_out + 1) c.n_block_out
        else s.fb_data) ∧
    (fold_finalize c s ev).1.curblock_out =
      (if s.next_integration ∧ c.n_block_out ≠ 0 then Int.tmod (s.curblock_out + 1) c.n_block_out
        else s.curblock_out) := by
  unfold fold_finalize
  simp only
  split_ifs <;> simp_all

theorem round_robin_succ (N : Int) (n : Nat) :
    round_robin N (n + 1) = round_robin N n ++ [(n : Int) % N] := by
  simp [round_robin, List.range_succ]

theorem round_robin_length (N : Int) (n : Nat) : (round_robin N n).length = n := by
  unfold round_robin
  rw [List.length_map, List.length_range]

/-- The C expression `(k mod N + 1) % N` is `(k + 1) mod N`. -/
theorem tmod_succ (N : Int) (hN : 0 < N) (n : Nat) :
    Int.tmod ((n : Int) % N + 1) N = ((n + 1 : Nat) : Int) % N := by
  have h0 : 0 ≤ (n : Int) % N := Int.emod_nonneg _ (by omega)
  rw [Int.tmod_eq_emod (by omega) (by omega)]
  push_cast
  rw [Int.add_emod, Int.emod_emod_of_dvd _ (dvd_refl N), ← Int.add_emod]

theorem wait_free_blocks_fill_loop (c : NetCfg) (n : Nat) (s : NetState) :
    wait_free_blocks (net_fill_loop c n s).calls = wait_free_blocks s.calls := by
  induction n generalizing s with
  | zero => rfl
  | succ n ih => simp only [net_fill_loop, ih, net_fill_body, wait_free_blocks]

theorem wait_free_blocks_place (c : NetCfg) (s : NetState) (seq : Nat) (data : Bytes) :
    wait_free_blocks (net_place c s seq data).calls = wait_free_blocks s.calls := by
  simp [net_place, wait_free_blocks, wait_free_blocks_fill_loop]

theorem wait_free_blocks_rollover (c : NetCfg) (s s1 : NetState) (seq : Nat)
    (h : net_rollover c s seq = Except.ok s1) :
    wait_free_blocks s1.calls = wait_free_blocks s.calls ++ [s1.curblock] ∧
    s1.curblock = Int.tmod (s.curblock + 1) c.n_block := by
  unfold net_rollover at h
  split_ifs at h with h1 h2 h3 <;> cases h <;> simp [wait_free_blocks]

theorem capture_order_rollover_place (c : NetCfg) (s s1 : NetState) (seq : Nat) (data : Bytes)
    (hN : 0 < c.n_block) (hs : capture_order c s)
    (h : (net_rollover c s seq).map (fun s2 => net_place c s2 seq data) = Except.ok s1) :
    capture_order c s1 := by
  rcases hr : net_rollover c s seq with e | s2
  · rw [hr] at h
    cases h
  · rw [hr] at h
    simp only [Except.map] at h
    cases h
    obtain ⟨h1, h2⟩ := wait_free_blocks_rollover c s s2 seq hr
    obtain ⟨i1, i2⟩ := hs
    unfold capture_order
    rw [wait_free_blocks_place, place_curblock, h1, h2, i2]
    simp only [List.length_append, List.length_singleton]
    refine ⟨?_, ?_⟩
    · rw [round_robin_succ, ← i1]
    · exact tmod_succ _ hN _

theorem capture_order_step (c : NetCfg) (s s1 : NetState) (ev : NetEvent)
    (hN : 0 < c.n_block) (hs : capture_order c s)
    (h : guppi_net_thread c s ev = Except.ok s1) : capture_order c s1 := by
  rcases net_thread_cases c s s1 ev h with e | ⟨up1, e⟩ | hrec
  · subst e
    exact hs
  · subst e
    exact hs
  · rw [net_thread_received c s ev hrec] at h
    split_ifs at h
    · exact capture_order_rollover_place c
        { after_recv s ev with force_new_block := 1 } s1 _ _ hN hs h
    · cases h
      exact hs
    · exact capture_order_rollover_place c
        { after_recv s ev with force_new_block := 0 } s1 _ _ hN hs h
    · cases h
      unfold capture_order
      rw [wait_free_blocks_place, place_curblock]
      exact hs

theorem capture_order_run (c : NetCfg) (evs : List NetEvent) (s s1 : NetState)
    (hN : 0 < c.n_block) (hs : capture_order c s)
    (h : net_run c s evs = Except.ok s1) : capture_order c s1 := by
  induction evs generalizing s with
  | nil =>
    cases h
    exact hs
  | cons ev evs ih =>
    unfold net_run at h
    rcases hstep : guppi_net_thread c s ev with e | s2
    · rw [hstep] at h
      cases h
    · rw [hstep] at h
      exact ih s2 (capture_order_step c s s2 ev hN hs hstep) h

theorem capture_order_init (c : NetCfg) (up : guppi_udp_params) (mem : Int → Nat → Nat) :
    capture_order c (net_init up mem) := by
  simp [capture_order, net_init, wait_free_blocks, round_robin]

/-- The null consumer, started in phase with the ring, visits it in order. -/
theorem null_run_order (N : Int) (hN : 0 < N) (n : Nat) (s : NullState) (m : Nat)
    (hc : s.curblock = (m : Int) % N)
    (hl : s.log.reverse = (List.range m).flatMap (fun k => null_visit ((k : Int) % N))) :
    (null_run N n s).2 = none ∧
    (null_run N n s).1.log.reverse =
      (List.range (m + n)).flatMap (fun k => null_visit ((k : Int) % N)) := by
  induction n generalizing s m with
  | zero => exact ⟨rfl, hl⟩
  | succ n ih =>
    have hne : N ≠ 0 := by omega
    have hstep : guppi_null_thread N s =
        ({ curblock := Int.tmod (s.curblock + 1) N
           log := FoldCall.guppi_databuf_set_free s.curblock ::
             FoldCall.guppi_databuf_wait_filled s.curblock :: s.log }, none) := by
      simp [guppi_null_thread, hne]
    unfold null_run
    rw [hstep]
    simp only
    have := ih
      { curblock := Int.tmod (s.curblock + 1) N
        log := FoldCall.guppi_databuf_set_free s.curblock ::
          FoldCall.guppi_databuf_wait_filled s.curblock :: s.log } (m + 1)
      (by simp only [hc]; exact tmod_succ N hN m)
      (by
        simp only [List.reverse_cons, List.append_assoc, List.singleton_append, hl,
          List.range_succ, List.flatMap_append, List.flatMap_singleton, null_visit, hc])
    rw [show m + (n + 1) = m + 1 + n by omega]
    exact this

/-- Function `fold_run` keeps the order of the input ring: the blocks waited for
are the first indices of the round-robin order. -/
theorem fold_run_order (c : FoldCfg) (hN : 0 < c.n_block_in) (evs : List FoldEvent)
    (s : FoldState)
    (h1 : wait_filled_blocks s.log = round_robin c.n_block_in (wait_filled_blocks s.log).length)
    (h2 : s.curblock_in = ((wait_filled_blocks s.log).length : Int) % c.n_block_in) :
    wait_filled_blocks (fold_run c s evs).1.log =
      round_robin c.n_block_in (wait_filled_blocks (fold_run c s evs).1.log).length := by
  induction evs generalizing s with
  | nil => exact h1
  | cons ev evs ih =>
    unfold fold_run
    obtain ⟨e1, e2⟩ := fold_thread_wait_filled c s ev
    have g1 : wait_filled_blocks (guppi_fold_thread c s ev).1.log =
        round_robin c.n_block_in (wait_filled_blocks (guppi_fold_thread c s ev).1.log).length := by
      rw [e1, List.length_append, List.length_singleton, round_robin_succ, ← h1, h2]
    rcases hr : guppi_fold_thread c s ev with ⟨t, _ | h⟩
    · rw [hr] at e1 e2 g1
      rw [fold_then_none]
      refine ih t g1 ?_
      rw [e2 rfl, e1, h2, List.length_append, List.length_singleton]
      exact tmod_succ _ hN _
    · rw [hr] at g1
      rw [fold_then_some]
      exact g1


/-! ## The bound on the worker pool -/

theorem launches_within_pool_join_events (ev : FoldEvent) (ibl : Int → Int) (f : Int) (n : Nat)
    (l : List FoldCall) :
    launches_within_pool (join_events ev ibl f n ++ l) ↔ launches_within_pool l := by
  induction n with
  | zero => rfl
  | succ n ih =>
    simp only [join_events, join_slot_events]
    split_ifs <;> simpa [launches_within_pool] using ih

theorem pool_has_room_finalize (c : FoldCfg) (s : FoldState) (ev : FoldEvent)
    (h : pool_bounded s) :
    pool_has_room (fold_finalize c (fold_combine (fold_begin s ev) ev) ev).1 := by
  obtain ⟨⟨h0, h4⟩, hl⟩ := h
  have hb : (fold_begin s ev).cur_thread = s.cur_thread ∧
      launches_within_pool (fold_begin s ev).log := by
    unfold fold_begin fold_read_params fold_first_time
    simp only
    split_ifs <;> simpa [launches_within_pool] using hl
  have hc : pool_has_room (fold_combine (fold_begin s ev) ev) := by
    rw [fold_combine_eq]
    unfold pool_has_room
    split_ifs with ht
    · exact ⟨⟨le_refl (0 : Int), show (0 : Int) < nthread by decide⟩,
        (launches_within_pool_join_events _ _ _ _ _).2 hb.2⟩
    · have hne : (fold_begin s ev).cur_thread ≠ nthread := fun e => ht (Or.inl e)
      rw [hb.1] at hne
      refine ⟨⟨by rw [hb.1]; exact h0, ?_⟩, hb.2⟩
      rw [hb.1]
      exact lt_of_le_of_ne h4 hne
  obtain ⟨hc1, hc2⟩ := hc
  unfold fold_finalize pool_has_room
  simp only
  split_ifs <;> simpa [launches_within_pool] using ⟨hc1, hc2⟩

theorem pool_has_room_polyco (s : FoldState) (ev : FoldEvent) (h : pool_has_room s) :
    pool_has_room (fold_polyco s ev).1 := by
  unfold fold_polyco fold_then
  simp only
  split_ifs <;> exact h

theorem pool_bounded_launch (s : FoldState) (ev : FoldEvent) (h : pool_has_room s) :
    pool_bounded (fold_launch s ev).1 := by
  obtain ⟨⟨h0, h4⟩, hl⟩ := h
  unfold fold_launch pool_bounded
  simp only
  split_ifs
  · exact ⟨⟨h0, le_of_lt h4⟩, hl⟩
  · exact ⟨⟨h0, le_of_lt h4⟩, ⟨h0, h4⟩, hl⟩
  · refine ⟨⟨?_, ?_⟩, ⟨h0, h4⟩, hl⟩
    · show 0 ≤ s.cur_thread + 1
      omega
    · show s.cur_thread + 1 ≤ nthread
      omega

theorem pool_bounded_account (c : FoldCfg) (s : FoldState) (ev : FoldEvent)
    (h : pool_bounded s) : pool_bounded (fold_account c s ev).1 := by
  unfold fold_account pool_bounded
  simp only
  split_ifs <;> simpa [launches_within_pool] using h

theorem pool_bounded_of_room (s : FoldState) (h : pool_has_room s) : pool_bounded s :=
  ⟨⟨h.1.1, le_of_lt h.1.2⟩, h.2⟩

theorem pool_bounded_step (c : FoldCfg) (s : FoldState) (ev : FoldEvent)
    (h : pool_bounded s) : pool_bounded (guppi_fold_thread c s ev).1 := by
  refine fold_thread_rule c s ev pool_has_room pool_bounded (fun r => pool_bounded r.1)
    ⟨fun _ => pool_has_room_finalize c s ev h,
      fun _ => pool_bounded_of_room _ (pool_has_room_finalize c s ev h)⟩ ?_ ?_ ?_
  · intro t ht
    exact ⟨fun _ => pool_has_room_polyco t ev ht,
      fun _ => pool_bounded_of_room _ (pool_has_room_polyco t ev ht)⟩
  · intro t ht
    exact ⟨fun _ => pool_bounded_launch t ev ht, fun _ => pool_bounded_launch t ev ht⟩
  · intro t ht
    exact pool_bounded_account c t ev ht

theorem pool_bounded_run (c : FoldCfg) (evs : List FoldEvent) (s : FoldState)
    (h : pool_bounded s) : pool_bounded (fold_run c s evs).1 := by
  induction evs generalizing s with
  | nil => exact h
  | cons ev evs ih =>
    unfold fold_run
    have hs := pool_bounded_step c s ev h
    rcases hr : guppi_fold_thread c s ev with ⟨t, _ | x⟩
    · rw [hr] at hs
      rw [fold_then_none]
      exact ih t hs
    · rw [hr] at hs
      rw [fold_then_some]
      exact hs

theorem pool_bounded_init : pool_bounded fold_init := by
  simp [pool_bounded, fold_init, launches_within_pool, nthread]


/-! ## Blocks in flight -/

theorem slot_blocks_self (ibl : Int → Int) (c : Nat) : slot_blocks ibl c c = [] := by
  simp [slot_blocks]

theorem slot_blocks_cons (ibl : Int → Int) (c n : Nat) (h : n < c) :
    slot_blocks ibl c n = ibl (n : Int) :: slot_blocks ibl c (n + 1) := by
  unfold slot_blocks
  rw [List.drop_eq_getElem_cons (by simpa using h)]
  simp

theorem slot_blocks_succ (ibl : Int → Int) (c : Nat) :
    slot_blocks ibl (c + 1) 0 = slot_blocks ibl c 0 ++ [ibl (c : Int)] := by
  simp [slot_blocks, List.range_succ]

theorem slot_blocks_congr (ibl ibl1 : Int → Int) (c : Nat)
    (h : ∀ i : Nat, i < c → ibl1 (i : Int) = ibl (i : Int)) :
    slot_blocks ibl1 c 0 = slot_blocks ibl c 0 := by
  unfold slot_blocks
  simp only [List.drop_zero]
  apply List.map_congr_left
  intro i hi
  exact h i (List.mem_range.1 hi)

/-- With the joins succeeding, the calls for slot `n` of the join loop. -/
theorem join_events_succ_ok (ev : FoldEvent) (hok : ∀ i, ev.join_rv i = 0) (ibl : Int → Int)
    (f : Int) (n : Nat) (hpos : 0 ≤ ibl (n : Int)) :
    join_events ev ibl f (n + 1) =
      FoldCall.clear_foldbuf (n : Int) :: FoldCall.accumulate_folds f (n : Int) ::
        FoldCall.guppi_databuf_set_free (ibl (n : Int)) :: FoldCall.pthread_join (n : Int) 0 ::
          join_events ev ibl f n := by
  simp [join_events, join_slot_events, hok, hpos]

theorem in_flight_join_events (ev : FoldEvent) (hok : ∀ i, ev.join_rv i = 0) (ibl : Int → Int)
    (f : Int) (c n : Nat) (hn : n ≤ c) (hpos : ∀ i : Nat, i < c → 0 ≤ ibl (i : Int)) :
    run_monitor in_flight_step (slot_blocks ibl c 0) (join_events ev ibl f n) =
      some (slot_blocks ibl c n) := by
  induction n with
  | zero => rfl
  | succ n ih =>
    rw [join_events_succ_ok ev hok ibl f n (hpos n (by omega))]
    simp only [run_monitor, ih (by omega), Option.bind, in_flight_step]
    rw [slot_blocks_cons ibl c n (by omega), List.erase_cons_head]

/-- On a ring of more than 4 blocks, the block taken next is none of the last
`c <= 4` blocks. -/
theorem next_block_not_in_flight (N k c i : Nat) (hN : 4 < N) (hc : c ≤ 4) (hk : c ≤ k)
    (hi : i < c) : (k - c + i) % N ≠ k % N := by
  intro h
  have h1 : (k - (k - c + i)) % N = 0 := Nat.sub_mod_eq_zero_of_mod_eq h.symm
  have h2 : k - (k - c + i) = c - i := by omega
  rw [h2, Nat.mod_eq_of_lt (by omega)] at h1
  omega

theorem mem_slot_blocks (ibl : Int → Int) (c : Nat) (b : Int) (h : b ∈ slot_blocks ibl c 0) :
    ∃ i : Nat, i < c ∧ ibl (i : Int) = b := by
  unfold slot_blocks at h
  simp only [List.drop_zero, List.mem_map, List.mem_range] at h
  exact h

theorem in_flight_mid_begin (N : Nat) (hN : 4 < N) (s : FoldState) (ev : FoldEvent)
    (k c : Nat) (h : in_flight_inv N s k c) (hcb : s.curblock_in = ((k % N : Nat) : Int)) :
    in_flight_inv N (fold_begin s ev) k c ∧
      (fold_begin s ev).curblock_in = ((k % N : Nat) : Int) := by
  obtain ⟨h1, h2, h3, h4, h5⟩ := h
  obtain ⟨f1, f2, f3, f4, _, _⟩ := fold_begin_frame s ev
  refine ⟨⟨f2.trans h1, h2, h3, ?_, ?_⟩, f4.trans hcb⟩
  · intro i hi
    rw [f3]
    exact h4 i hi
  · have hnot : s.curblock_in ∉ slot_blocks s.input_block_list c 0 := by
      intro hm
      obtain ⟨i, hi, e⟩ := mem_slot_blocks _ _ _ hm
      rw [h4 i hi, hcb] at e
      exact next_block_not_in_flight N k c i hN h2 h3 hi (by exact_mod_cast e)
    rw [f1, f3]
    unfold in_flight at h5 ⊢
    rw [run_monitor_append_of _ _ _ _ _ h5]
    unfold begin_events
    split_ifs <;> simp [run_monitor, in_flight_step, hnot]

theorem in_flight_mid_combine (N : Nat) (s : FoldState) (ev : FoldEvent)
    (hok : workers_succeed ev) (k c : Nat) (h : in_flight_inv N s k c) :
    ∃ c1 : Nat, in_flight_inv N (fold_combine s ev) k c1 ∧ c1 < 4 := by
  obtain ⟨h1, h2, h3, h4, h5⟩ := h
  rw [fold_combine_eq]
  split_ifs with ht
  · refine ⟨0, ⟨rfl, by omega, by omega, fun i hi => absurd hi (by omega), ?_⟩, by omega⟩
    show in_flight (join_events ev s.input_block_list s.fb_data s.cur_thread.toNat ++ s.log) = _
    unfold in_flight at h5 ⊢
    rw [run_monitor_append_of _ _ _ _ _ h5, h1, Int.toNat_ofNat,
      in_flight_join_events ev hok.2 _ _ c c (le_refl c)
        (fun i hi => by rw [h4 i hi]; exact Int.ofNat_nonneg _),
      slot_blocks_self]
    rfl
  · refine ⟨c, ⟨h1, h2, h3, h4, h5⟩, ?_⟩
    have hne : s.cur_thread ≠ nthread := fun e => ht (Or.inl e)
    rw [h1] at hne
    have : c ≠ 4 := fun e => hne (by rw [e]; rfl)
    omega

theorem in_flight_mid_finalize (N : Nat) (c : FoldCfg) (s : FoldState) (ev : FoldEvent)
    (k c1 : Nat) (h : in_flight_inv N s k c1) :
    in_flight_inv N (fold_finalize c s ev).1 k c1 := by
  obtain ⟨h1, h2, h3, h4, h5⟩ := h
  obtain ⟨f1, f2, f3, _⟩ := fold_finalize_frame c s ev
  refine ⟨f2.trans h1, h2, h3, ?_, ?_⟩
  · intro i hi
    rw [f3]
    exact h4 i hi
  · rw [f1, f3]
    unfold in_flight at h5 ⊢
    rw [run_monitor_append_of _ _ _ _ _ h5]
    unfold finalize_events
    split_ifs <;> simp [run_monitor, in_flight_step]

/-- From the top of an iteration to the point after the finalize phase. -/
theorem in_flight_mid_of_top (N : Nat) (hN : 4 < N) (c : FoldCfg) (s : FoldState)
    (ev : FoldEvent) (hok : workers_succeed ev) (k c0 : Nat) (h : in_flight_inv N s k c0)
    (hcb : s.curblock_in = ((k % N : Nat) : Int)) :
    in_flight_mid N k (fold_finalize c (fold_combine (fold_begin s ev) ev) ev).1 := by
  obtain ⟨hb, hbc⟩ := in_flight_mid_begin N hN s ev k c0 h hcb
  obtain ⟨c1, hc, hlt⟩ := in_flight_mid_combine N (fold_begin s ev) ev hok k c0 hb
  refine ⟨c1, in_flight_mid_finalize N c _ ev k c1 hc, hlt, ?_⟩
  rw [(fold_finalize_frame c _ ev).2.2.2, (fold_combine_frame _ ev).2.1, hbc]

theorem in_flight_mid_polyco (N k : Nat) (s : FoldState) (ev : FoldEvent)
    (h : in_flight_mid N k s) : in_flight_mid N k (fold_polyco s ev).1 := by
  rcases fold_polyco_frame s ev with e | e <;> rw [e] <;> exact h

theorem in_flight_launch (N k : Nat) (s : FoldState) (ev : FoldEvent)
    (hok : workers_succeed ev) (h : in_flight_mid N k s) :
    (in_flight (fold_launch s ev).1.log).isSome ∧
    ((fold_launch s ev).2 = none → in_flight_launched N k (fold_launch s ev).1) := by
  obtain ⟨c, ⟨h1, h2, h3, h4, h5⟩, hlt, hcb⟩ := h
  obtain ⟨f1, f2, f3, f4, f5⟩ := fold_launch_frame s ev
  have hrun : in_flight (fold_launch s ev).1.log =
      if ev.nchan = 0 ∨ ev.npol = 0 then some (slot_blocks s.input_block_list c 0)
      else some (slot_blocks s.input_block_list c 0 ++ [s.curblock_in]) := by
    rw [f1]
    unfold in_flight at h5 ⊢
    rw [run_monitor_append_of _ _ _ _ _ h5]
    unfold launch_events
    split_ifs <;> simp [run_monitor, in_flight_step, hok.1]
  refine ⟨by rw [hrun]; split_ifs <;> rfl, fun hn => ?_⟩
  have hz := f5 hn
  rw [if_neg hz] at hrun
  have hct := f4 hn
  rw [if_neg (by simp [hok.1])] at hct
  refine ⟨c + 1, ⟨by rw [hct, h1]; push_cast; rfl, by omega, by omega, ?_, ?_⟩, f3.trans hcb⟩
  · intro i hi
    rw [f2]
    simp only [h1]
    by_cases hic : i = c
    · subst hic
      simp only [if_true, hcb]
      congr 2
      omega
    · have : (i : Int) ≠ (c : Int) := by exact_mod_cast hic
      rw [if_neg this, h4 i (by omega)]
      congr 2
      omega
  · rw [hrun, slot_blocks_succ, f2]
    congr 1
    congr 1
    · symm
      apply slot_blocks_congr
      intro i hi
      have : (i : Int) ≠ s.cur_thread := by rw [h1]; exact_mod_cast (by omega : i ≠ c)
      simp [this]
    · simp [h1]

theorem in_flight_account (N : Nat) (hN : 4 < N) (c : FoldCfg) (hc : c.n_block_in = (N : Int))
    (k : Nat) (s : FoldState) (ev : FoldEvent) (h : in_flight_launched N k s) :
    (in_flight (fold_account c s ev).1.log).isSome ∧
    ((fold_account c s ev).2 = none → in_flight_top N (fold_account c s ev).1) := by
  obtain ⟨c1, ⟨h1, h2, h3, h4, h5⟩, hcb⟩ := h
  obtain ⟨f1, f2, f3, f4⟩ := fold_account_frame c s ev
  have hrun : in_flight (fold_account c s ev).1.log =
      some (slot_blocks s.input_block_list c1 0) := by
    rw [f1]
    unfold in_flight at h5 ⊢
    rw [run_monitor_append_of _ _ _ _ _ h5]
    simp [account_events, run_monitor, in_flight_step]
  refine ⟨by rw [hrun]; rfl, fun hn => ⟨k + 1, c1, ⟨f2.trans h1, h2, h3, ?_, ?_⟩, ?_⟩⟩
  · intro i hi
    rw [f3]
    exact h4 i hi
  · rw [hrun, f3]
  · rw [f4 hn, hcb, hc, Int.natCast_mod, Int.natCast_mod]
    exact tmod_succ (N : Int) (by exact_mod_cast (by omega : 0 < N)) k

theorem in_flight_mid_some (N k : Nat) (s : FoldState) (h : in_flight_mid N k s) :
    (in_flight s.log).isSome := by
  obtain ⟨c, ⟨_, _, _, _, h5⟩, _⟩ := h
  rw [h5]
  rfl

theorem in_flight_step_ok (N : Nat) (hN : 4 < N) (c : FoldCfg) (hc : c.n_block_in = (N : Int))
    (s : FoldState) (ev : FoldEvent) (hok : workers_succeed ev) (h : in_flight_top N s) :
    (in_flight (guppi_fold_thread c s ev).1.log).isSome ∧
    ((guppi_fold_thread c s ev).2 = none → in_flight_top N (guppi_fold_thread c s ev).1) := by
  obtain ⟨k, c0, hinv, hcb⟩ := h
  have hmid := in_flight_mid_of_top N hN c s ev hok k c0 hinv hcb
  refine fold_thread_rule c s ev (in_flight_mid N k) (in_flight_launched N k)
    (fun r => (in_flight r.1.log).isSome ∧ (r.2 = none → in_flight_top N r.1))
    ⟨fun _ => hmid, fun hne => ⟨in_flight_mid_some N k _ hmid, fun e => absurd e hne⟩⟩ ?_ ?_ ?_
  · intro t ht
    have := in_flight_mid_polyco N k t ev ht
    exact ⟨fun _ => this, fun hne => ⟨in_flight_mid_some N k _ this, fun e => absurd e hne⟩⟩
  · intro t ht
    have := in_flight_launch N k t ev hok ht
    exact ⟨this.2, fun hne => ⟨this.1, fun e => absurd e hne⟩⟩
  · intro t ht
    exact in_flight_account N hN c hc k t ev ht

theorem in_flight_top_some (N : Nat) (s : FoldState) (h : in_flight_top N s) :
    (in_flight s.log).isSome := by
  obtain ⟨k, c, ⟨_, _, _, _, h5⟩, _⟩ := h
  rw [h5]
  rfl

theorem in_flight_run_ok (N : Nat) (hN : 4 < N) (c : FoldCfg) (hc : c.n_block_in = (N : Int))
    (evs : List FoldEvent) (s : FoldState) (hok : ∀ ev ∈ evs, workers_succeed ev)
    (h : in_flight_top N s) : (in_flight (fold_run c s evs).1.log).isSome := by
  induction evs generalizing s with
  | nil => exact in_flight_top_some N s h
  | cons ev evs ih =>
    unfold fold_run
    have hs := in_flight_step_ok N hN c hc s ev (hok ev (List.mem_cons_self _ _)) h
    rcases hr : guppi_fold_thread c s ev with ⟨t, _ | x⟩
    · rw [hr] at hs
      rw [fold_then_none]
      exact ih t (fun e he => hok e (List.mem_cons_of_mem _ he)) (hs.2 rfl)
    · rw [hr] at hs
      rw [fold_then_some]
      exact hs.1

theorem in_flight_top_init (N : Nat) : in_flight_top N fold_init :=
  ⟨0, 0, ⟨rfl, by omega, le_refl 0, fun i hi => absurd hi (by omega), rfl⟩, by
    simp [fold_init]⟩

theorem ten_second_blocks_succeed (n : Nat) : ∀ ev ∈ ten_second_blocks n, workers_succeed ev := by
  intro ev h
  simp only [ten_second_blocks, List.mem_map] at h
  obtain ⟨k, _, rfl⟩ := h
  exact ⟨rfl, fun _ => rfl⟩


/-! ## The queue of Ring A -/

theorem slot_entries_self (ibl : Int → Int) (ds : Nat → Nat) (c : Nat) :
    slot_entries ibl ds c c = [] := by
  simp [slot_entries]

theorem slot_entries_cons (ibl : Int → Int) (ds : Nat → Nat) (c n : Nat) (h : n < c) :
    slot_entries ibl ds c n =
      (ibl (n : Int), RingStage.running (n : Int) (ds n)) :: slot_entries ibl ds c (n + 1) := by
  unfold slot_entries
  rw [show c - n = (c - (n + 1)) + 1 by omega, List.range'_succ]
  rfl

theorem slot_entries_succ (ibl : Int → Int) (ds : Nat → Nat) (c : Nat) :
    slot_entries ibl ds (c + 1) 0 =
      slot_entries ibl ds c 0 ++ [(ibl (c : Int), RingStage.running (c : Int) (ds c))] := by
  unfold slot_entries
  simp only [Nat.sub_zero, ← List.range_eq_range', List.range_succ, List.map_append,
    List.map_cons, List.map_nil]

theorem slot_entries_congr (ibl ibl1 : Int → Int) (ds ds1 : Nat → Nat) (c : Nat)
    (h : ∀ i : Nat, i < c → ibl1 (i : Int) = ibl (i : Int) ∧ ds1 i = ds i) :
    slot_entries ibl1 ds1 c 0 = slot_entries ibl ds c 0 := by
  unfold slot_entries
  apply List.map_congr_left
  intro i hi
  have hi1 : i < c := by
    have := (List.mem_range'_1.1 hi).2
    omega
  rw [(h i hi1).1, (h i hi1).2]

/-- A join of slot `n` leaves the entries of the later slots as they are. -/
theorem slot_entries_map_join (ibl : Int → Int) (ds : Nat → Nat) (c n : Nat) :
    (slot_entries ibl ds c (n + 1)).map (fun e =>
      match e.2 with
      | RingStage.running s d => if s = (n : Int) then (e.1, RingStage.joined d) else e
      | _ => e) = slot_entries ibl ds c (n + 1) := by
  unfold slot_entries
  rw [List.map_map]
  apply List.map_congr_left
  intro i hi
  have hi1 : n + 1 ≤ i := (List.mem_range'_1.1 hi).1
  have : (i : Int) ≠ (n : Int) := by exact_mod_cast (by omega : i ≠ n)
  simp [this]

/-- A launch leaves the entries of the running slots as they are. -/
theorem slot_entries_map_create (ibl : Int → Int) (ds : Nat → Nat) (c : Nat) (b slot : Int)
    (m : Nat) :
    (slot_entries ibl ds c 0).map (fun e =>
      if e = (b, RingStage.acquired) then (b, RingStage.running slot m) else e) =
      slot_entries ibl ds c 0 := by
  unfold slot_entries
  rw [List.map_map]
  apply List.map_congr_left
  intro i _
  simp

theorem fifo_join_events (ev : FoldEvent) (hok : ∀ i, ev.join_rv i = 0) (ibl : Int → Int)
    (ds : Nat → Nat) (f : Int) (c n m : Nat) (b : Int) (hn : n ≤ c)
    (hpos : ∀ i : Nat, i < c → ds i < m ∧ 0 ≤ ibl (i : Int)) :
    run_monitor ring_a_step (m, slot_entries ibl ds c 0 ++ [(b, RingStage.acquired)])
        (join_events ev ibl f n) =
      some (m, slot_entries ibl ds c n ++ [(b, RingStage.acquired)]) := by
  induction n with
  | zero => rfl
  | succ n ih =>
    rw [join_events_succ_ok ev hok ibl f n (hpos n (by omega)).2]
    simp only [run_monitor, ih (by omega), Option.bind, ring_a_step, if_true]
    rw [slot_entries_cons ibl ds c n (by omega)]
    simp only [List.cons_append, List.map_cons, List.map_append, List.map_nil,
      slot_entries_map_join, if_true, true_and]
    rw [if_pos (hpos n (by omega)).1]

theorem fifo_mid_begin (s : FoldState) (ev : FoldEvent) (n c : Nat) (h : fifo_inv s n c []) :
    fifo_inv (fold_begin s ev) n c [((fold_begin s ev).curblock_in, RingStage.acquired)] := by
  obtain ⟨h1, h2, ds, h3, h4⟩ := h
  obtain ⟨f1, f2, f3, f4, _, _⟩ := fold_begin_frame s ev
  refine ⟨f2.trans h1, by rw [f4]; exact h2, ds, ?_, ?_⟩
  · intro i hi
    rw [f3]
    exact h3 i hi
  · rw [f1, f3, f4]
    unfold ring_a_fifo at h4 ⊢
    rw [run_monitor_append_of _ _ _ _ _ h4]
    unfold begin_events
    split_ifs <;> simp [run_monitor, ring_a_step]

theorem fifo_mid_combine (s : FoldState) (ev : FoldEvent) (hok : workers_succeed ev)
    (n c : Nat) (h : fifo_inv s n c [(s.curblock_in, RingStage.acquired)]) :
    fifo_mid n (fold_combine s ev) := by
  obtain ⟨h1, h2, ds, h3, h4⟩ := h
  rw [fold_combine_eq]
  split_ifs with ht
  · refine ⟨0, rfl, h2, ds, fun i hi => absurd hi (by omega), ?_⟩
    show ring_a_fifo (join_events ev s.input_block_list s.fb_data s.cur_thread.toNat ++ s.log) = _
    unfold ring_a_fifo at h4 ⊢
    rw [run_monitor_append_of _ _ _ _ _ h4, h1, Int.toNat_ofNat,
      fifo_join_events ev hok.2 _ ds _ c c _ _ (le_refl c)
        (fun i hi => ⟨by have := (h3 i hi).1; simp only [List.length_singleton]; omega,
          (h3 i hi).2⟩),
      slot_entries_self]
    rfl
  · exact ⟨c, h1, h2, ds, h3, h4⟩

theorem fifo_mid_finalize (c : FoldCfg) (s : FoldState) (ev : FoldEvent) (n : Nat)
    (h : fifo_mid n s) : fifo_mid n (fold_finalize c s ev).1 := by
  obtain ⟨c1, h1, h2, ds, h3, h4⟩ := h
  obtain ⟨f1, f2, f3, f4⟩ := fold_finalize_frame c s ev
  refine ⟨c1, f2.trans h1, by rw [f4]; exact h2, ds, ?_, ?_⟩
  · intro i hi
    rw [f3]
    exact h3 i hi
  · rw [f1, f3, f4]
    unfold ring_a_fifo at h4 ⊢
    rw [run_monitor_append_of _ _ _ _ _ h4]
    unfold finalize_events
    split_ifs <;> simp [run_monitor, ring_a_step]

theorem fifo_mid_of_top (c : FoldCfg) (s : FoldState) (ev : FoldEvent)
    (hok : workers_succeed ev) (n c0 : Nat) (h : fifo_inv s n c0 []) :
    fifo_mid n (fold_finalize c (fold_combine (fold_begin s ev) ev) ev).1 :=
  fifo_mid_finalize c _ ev n (fifo_mid_combine _ ev hok n c0 (fifo_mid_begin s ev n c0 h))

theorem fifo_mid_polyco (n : Nat) (s : FoldState) (ev : FoldEvent) (h : fifo_mid n s) :
    fifo_mid n (fold_polyco s ev).1 := by
  rcases fold_polyco_frame s ev with e | e <;> rw [e] <;> exact h

theorem fifo_mid_some (n : Nat) (s : FoldState) (h : fifo_mid n s) :
    (ring_a_fifo s.log).isSome := by
  obtain ⟨c, _, _, ds, _, h4⟩ := h
  rw [h4]
  rfl

theorem fifo_top_some (s : FoldState) (h : fifo_top s) : (ring_a_fifo s.log).isSome := by
  obtain ⟨n, c, _, _, ds, _, h4⟩ := h
  rw [h4]
  rfl

theorem fifo_launch (n : Nat) (s : FoldState) (ev : FoldEvent)
    (hok : workers_succeed ev) (h : fifo_mid n s) :
    (ring_a_fifo (fold_launch s ev).1.log).isSome ∧
    ((fold_launch s ev).2 = none → fifo_top (fold_launch s ev).1) := by
  obtain ⟨c, h1, h2, ds, h3, h4⟩ := h
  obtain ⟨f1, f2, f3, f4, f5⟩ := fold_launch_frame s ev
  have hrun : ring_a_fifo (fold_launch s ev).1.log =
      if ev.nchan = 0 ∨ ev.npol = 0 then
        some (n + 1, slot_entries s.input_block_list ds c 0 ++
          [(s.curblock_in, RingStage.acquired)])
      else
        some (n + 1, slot_entries s.input_block_list ds c 0 ++
          [(s.curblock_in, RingStage.running (c : Int) (n + 1))]) := by
    rw [f1]
    unfold ring_a_fifo at h4 ⊢
    rw [run_monitor_append_of _ _ _ _ _ h4]
    unfold launch_events
    split_ifs
    · rfl
    · simp only [run_monitor, Option.bind, ring_a_step, hok.1, if_true, List.map_append,
        slot_entries_map_create, List.map_cons, List.map_nil, List.length_singleton, h1]
  refine ⟨by rw [hrun]; split_ifs <;> rfl, fun hn => ?_⟩
  have hz := f5 hn
  rw [if_neg hz] at hrun
  have hct := f4 hn
  rw [if_neg (by simp [hok.1])] at hct
  refine ⟨n + 1, c + 1, by rw [hct, h1]; push_cast; rfl, by rw [f3]; exact h2,
    fun i => if i = c then n + 1 else ds i, ?_, ?_⟩
  · intro i hi
    rw [f2]
    simp only [h1]
    by_cases hic : i = c
    · subst hic
      simp only [if_true]
      exact ⟨le_refl _, h2⟩
    · have : (i : Int) ≠ (c : Int) := by exact_mod_cast hic
      rw [if_neg this, if_neg hic]
      exact ⟨by have := (h3 i (by omega)).1; omega, (h3 i (by omega)).2⟩
  · rw [hrun, slot_entries_succ, f2]
    simp only [List.length_nil, Nat.add_zero, List.append_nil, h1, if_true]
    congr 3
    symm
    apply slot_entries_congr
    intro i hi
    have hic : i ≠ c := by omega
    have : (i : Int) ≠ (c : Int) := by exact_mod_cast hic
    exact ⟨if_neg this, if_neg hic⟩

theorem fifo_account (c : FoldCfg) (s : FoldState) (ev : FoldEvent) (h : fifo_top s) :
    (ring_a_fifo (fold_account c s ev).1.log).isSome ∧
    ((fold_account c s ev).2 = none → fifo_top (fold_account c s ev).1) := by
  obtain ⟨n, c1, h1, h2, ds, h3, h4⟩ := h
  obtain ⟨f1, f2, f3, f4⟩ := fold_account_frame c s ev
  have hrun : ring_a_fifo (fold_account c s ev).1.log =
      some (n + ([] : List (Int × RingStage)).length,
        slot_entries s.input_block_list ds c1 0 ++ []) := by
    rw [f1]
    unfold ring_a_fifo at h4 ⊢
    rw [run_monitor_append_of _ _ _ _ _ h4]
    simp [account_events, run_monitor, ring_a_step]
  refine ⟨by rw [hrun]; rfl, fun hn => ⟨n, c1, f2.trans h1, ?_, ds, ?_, ?_⟩⟩
  · rw [f4 hn]
    exact Int.tmod_nonneg _ (by omega)
  · intro i hi
    rw [f3]
    exact h3 i hi
  · rw [hrun, f3]

theorem fifo_step_ok (c : FoldCfg) (s : FoldState) (ev : FoldEvent)
    (hok : workers_succeed ev) (h : fifo_top s) :
    (ring_a_fifo (guppi_fold_thread c s ev).1.log).isSome ∧
    ((guppi_fold_thread c s ev).2 = none → fifo_top (guppi_fold_thread c s ev).1) := by
  obtain ⟨n, c0, hinv⟩ := h
  have hmid := fifo_mid_of_top c s ev hok n c0 hinv
  refine fold_thread_rule c s ev (fifo_mid n) fifo_top
    (fun r => (ring_a_fifo r.1.log).isSome ∧ (r.2 = none → fifo_top r.1))
    ⟨fun _ => hmid, fun hne => ⟨fifo_mid_some n _ hmid, fun e => absurd e hne⟩⟩ ?_ ?_ ?_
  · intro t ht
    have := fifo_mid_polyco n t ev ht
    exact ⟨fun _ => this, fun hne => ⟨fifo_mid_some n _ this, fun e => absurd e hne⟩⟩
  · intro t ht
    have := fifo_launch n t ev hok ht
    exact ⟨this.2, fun hne => ⟨this.1, fun e => absurd e hne⟩⟩
  · intro t ht
    exact fifo_account c t ev ht

theorem fifo_run_ok (c : FoldCfg) (evs : List FoldEvent) (s : FoldState)
    (hok : ∀ ev ∈ evs, workers_succeed ev) (h : fifo_top s) :
    (ring_a_fifo (fold_run c s evs).1.log).isSome := by
  induction evs generalizing s with
  | nil => exact fifo_top_some s h
  | cons ev evs ih =>
    unfold fold_run
    have hs := fifo_step_ok c s ev (hok ev (List.mem_cons_self _ _)) h
    rcases hr : guppi_fold_thread c s ev with ⟨t, _ | x⟩
    · rw [hr] at hs
      rw [fold_then_none]
      exact ih t (fun e he => hok e (List.mem_cons_of_mem _ he)) (hs.2 rfl)
    · rw [hr] at hs
      rw [fold_then_some]
      exact hs.1

theorem fifo_top_init : fifo_top fold_init :=
  ⟨0, 0, rfl, le_refl _, fun _ => 0, fun i hi => absurd hi (by omega), rfl⟩

/-- A monitor that accepts a log accepts every older part of it. -/
theorem run_monitor_suffix {Q : Type} (step : Q → FoldCall → Option Q) (q : Q)
    (l log : List FoldCall) (hs : l <:+ log) (h : (run_monitor step q log).isSome) :
    (run_monitor step q l).isSome := by
  obtain ⟨a, rfl⟩ := hs
  rw [run_monitor_append] at h
  cases hl : run_monitor step q l with
  | none =>
    rw [hl] at h
    exact absurd h (by simp)
  | some q1 => rfl

theorem run_monitor_cons_some {Q : Type} (step : Q → FoldCall → Option Q) (q q1 : Q)
    (e : FoldCall) (l : List FoldCall) (h : run_monitor step q (e :: l) = some q1) :
    ∃ q0, run_monitor step q l = some q0 ∧ step q0 e = some q1 := by
  unfold run_monitor at h
  cases hl : run_monitor step q l with
  | none =>
    rw [hl] at h
    cases h
  | some q0 =>
    rw [hl] at h
    exact ⟨q0, rfl, h⟩

/-- The queue of the monitor holds the blocks acquired and not yet freed: the
blocks freed, followed by the queue, are the blocks acquired. -/
theorem fifo_split (l : List FoldCall) (q : Nat × List (Int × RingStage))
    (h : ring_a_fifo l = some q) :
    wait_filled_blocks l = set_free_blocks l ++ q.2.map Prod.fst := by
  induction l generalizing q with
  | nil =>
    cases h
    rfl
  | cons e l ih =>
    obtain ⟨q0, h0, hstep⟩ := run_monitor_cons_some ring_a_step _ _ e l h
    have ih0 := ih q0 h0
    cases e with
    | guppi_databuf_wait_filled b =>
      simp only [ring_a_step, Option.some.injEq] at hstep
      subst hstep
      simp [wait_filled_blocks, set_free_blocks, ih0]
    | guppi_databuf_set_free b =>
      simp only [ring_a_step] at hstep
      rcases hq : q0.2 with _ | ⟨⟨b1, st⟩, rest⟩
      · rw [hq] at hstep
        cases hstep
      · rw [hq] at hstep
        cases st with
        | acquired => cases hstep
        | running s d => cases hstep
        | joined d =>
          simp only at hstep
          split_ifs at hstep with hc
          simp only [Option.some.injEq] at hstep
          subst hstep
          simp [wait_filled_blocks, set_free_blocks, ih0, hq, hc.1]
    | pthread_create slot b rv =>
      simp only [ring_a_step] at hstep
      split_ifs at hstep
      · simp only [Option.some.injEq] at hstep
        subst hstep
        simp only [wait_filled_blocks, set_free_blocks, ih0, List.map_map]
        congr 1
        apply List.map_congr_left
        intro e _
        simp only [Function.comp]
        split_ifs with he
        · rw [he]
        · rfl
      · simp only [Option.some.injEq] at hstep
        subst hstep
        simpa [wait_filled_blocks, set_free_blocks] using ih0
    | pthread_join slot rv =>
      simp only [ring_a_step] at hstep
      split_ifs at hstep
      · simp only [Option.some.injEq] at hstep
        subst hstep
        simp only [wait_filled_blocks, set_free_blocks, ih0, List.map_map]
        congr 1
        apply List.map_congr_left
        intro e _
        simp only [Function.comp]
        split
        · split_ifs <;> rfl
        · rfl
      · simp only [Option.some.injEq] at hstep
        subst hstep
        simpa [wait_filled_blocks, set_free_blocks] using ih0
    | guppi_databuf_set_filled b =>
      simp only [ring_a_step, Option.some.injEq] at hstep
      subst hstep
      simpa [wait_filled_blocks, set_free_blocks] using ih0
    | guppi_databuf_wait_free b =>
      simp only [ring_a_step, Option.some.injEq] at hstep
      subst hstep
      simpa [wait_filled_blocks, set_free_blocks] using ih0
    | accumulate_folds f i =>
      simp only [ring_a_step, Option.some.injEq] at hstep
      subst hstep
      simpa [wait_filled_blocks, set_free_blocks] using ih0
    | clear_foldbuf i =>
      simp only [ring_a_step, Option.some.injEq] at hstep
      subst hstep
      simpa [wait_filled_blocks, set_free_blocks] using ih0
    | clear_foldbuf_total f =>
      simp only [ring_a_step, Option.some.injEq] at hstep
      subst hstep
      simpa [wait_filled_blocks, set_free_blocks] using ih0
    | header_copy a b =>
      simp only [ring_a_step, Option.some.injEq] at hstep
      subst hstep
      simpa [wait_filled_blocks, set_free_blocks] using ih0
    | hputs_obs_mode a =>
      simp only [ring_a_step, Option.some.injEq] at hstep
      subst hstep
      simpa [wait_filled_blocks, set_free_blocks] using ih0
    | hputi4 a k v =>
      simp only [ring_a_step, Option.some.injEq] at hstep
      subst hstep
      simpa [wait_filled_blocks, set_free_blocks] using ih0


/-! ## The integration monitor -/

theorem log2_fuel_bounds (fuel : Nat) : ∀ n : Nat, n ≤ fuel → n ≠ 0 →
    2 ^ log2_fuel fuel n ≤ n ∧ n < 2 ^ (log2_fuel fuel n + 1) := by
  induction fuel with
  | zero =>
    intro n h h0
    omega
  | succ fuel ih =>
    intro n h h0
    unfold log2_fuel
    split_ifs with h2
    · have : n = 1 := by omega
      subst this
      exact ⟨by norm_num, by norm_num⟩
    · obtain ⟨i1, i2⟩ := ih (n / 2) (by omega) (by omega)
      rw [pow_succ, pow_succ, pow_succ]
      rw [pow_succ] at i2
      constructor
      · omega
      · omega

theorem floor_log2_bounds (n : Nat) (h0 : n ≠ 0) :
    2 ^ floor_log2 n ≤ n ∧ n < 2 ^ (floor_log2 n + 1) :=
  log2_fuel_bounds n n (le_refl _) h0

theorem scaled_den_pos (n d : Nat) (s : Int) (hd : d ≠ 0) : 0 < (scaled n d s).2 := by
  unfold scaled
  split_ifs
  · exact Nat.pos_of_ne_zero hd
  · exact Nat.mul_pos (Nat.pos_of_ne_zero hd) (pow_pos (by norm_num) _)

theorem scaled_value (n d : Nat) (s : Int) (hd : d ≠ 0) :
    (((scaled n d s).1 : Nat) : ℚ) / (((scaled n d s).2 : Nat) : ℚ) =
      (n : ℚ) / (d : ℚ) * (2 : ℚ) ^ s := by
  have hdq : (d : ℚ) ≠ 0 := by exact_mod_cast hd
  unfold scaled
  split_ifs with h
  · obtain ⟨k, rfl⟩ := Int.eq_ofNat_of_zero_le h
    simp only [Int.toNat_ofNat, zpow_natCast]
    push_cast
    field_simp
  · obtain ⟨k, hk⟩ := Int.eq_ofNat_of_zero_le (show 0 ≤ -s by omega)
    have hs : s = -(k : Int) := by omega
    subst hs
    simp only [neg_neg, Int.toNat_ofNat, zpow_neg, zpow_natCast]
    push_cast
    field_simp

/-- Rounding a quotient of natural numbers to an integer moves it by at most
1. -/
theorem round_quotient (N D : Nat) (hD : 0 < D) :
    (((if 2 * (N % D) < D then N / D else if D < 2 * (N % D) then N / D + 1
        else if (N / D) % 2 = 0 then N / D else N / D + 1 : Nat) : ℚ)) ≤ (N : ℚ) / (D : ℚ) + 1 ∧
    (N : ℚ) / (D : ℚ) - 1 ≤
      (((if 2 * (N % D) < D then N / D else if D < 2 * (N % D) then N / D + 1
        else if (N / D) % 2 = 0 then N / D else N / D + 1 : Nat) : ℚ)) := by
  have hDq : (0 : ℚ) < (D : ℚ) := by exact_mod_cast hD
  have h1 : ((N / D : Nat) : ℚ) ≤ (N : ℚ) / (D : ℚ) := by
    rw [le_div_iff₀ hDq]
    exact_mod_cast Nat.div_mul_le_self N D
  have h2 : (N : ℚ) / (D : ℚ) < ((N / D : Nat) : ℚ) + 1 := by
    rw [div_lt_iff₀ hDq]
    have hm : N % D < D := Nat.mod_lt N hD
    have hdm : D * (N / D) + N % D = N := Nat.div_add_mod N D
    have : N < (N / D + 1) * D := by
      rw [Nat.add_mul, Nat.one_mul, Nat.mul_comm]
      omega
    exact_mod_cast this
  split_ifs
  · constructor <;> linarith
  · push_cast
    constructor <;> linarith
  · constructor <;> linarith
  · push_cast
    constructor <;> linarith

theorem round_ratio_m_nonneg (n d : Nat) (e : Int) : 0 ≤ (round_ratio n d e).m := by
  unfold round_ratio
  split_ifs
  · exact le_refl _
  all_goals exact Int.natCast_nonneg _

/-- The scaled quotient that `round_ratio` rounds is at least `2^52`. -/
theorem scaled_large (n d : Nat) (hn : n ≠ 0) (hd : d ≠ 0) :
    (2 : ℚ) ^ (52 : Nat) ≤ (n : ℚ) / (d : ℚ) * (2 : ℚ) ^
      (if (scaled n d (52 - ((floor_log2 n : Int) - (floor_log2 d : Int)))).1 /
          (scaled n d (52 - ((floor_log2 n : Int) - (floor_log2 d : Int)))).2 < 2 ^ 52
        then 52 - ((floor_log2 n : Int) - (floor_log2 d : Int)) + 1
        else 52 - ((floor_log2 n : Int) - (floor_log2 d : Int))) := by
  have hdq : (0 : ℚ) < (d : ℚ) := by exact_mod_cast Nat.pos_of_ne_zero hd
  split_ifs with h
  · obtain ⟨hn1, -⟩ := floor_log2_bounds n hn
    obtain ⟨-, hd2⟩ := floor_log2_bounds d hd
    have hn1q : (2 : ℚ) ^ floor_log2 n ≤ (n : ℚ) := by exact_mod_cast hn1
    have hd2q : (d : ℚ) ≤ (2 : ℚ) ^ (floor_log2 d + 1) := by exact_mod_cast hd2.le
    have e1 : (2 : ℚ) ^ (52 - ((floor_log2 n : Int) - (floor_log2 d : Int)) + 1) =
        (2 : ℚ) ^ (52 : Nat) * (2 : ℚ) ^ (floor_log2 d + 1) / (2 : ℚ) ^ floor_log2 n := by
      rw [show (52 - ((floor_log2 n : Int) - (floor_log2 d : Int)) + 1) =
        ((52 : Nat) : Int) + ((floor_log2 d + 1 : Nat) : Int) - ((floor_log2 n : Nat) : Int) by
          push_cast; ring]
      rw [zpow_sub₀ (by norm_num), zpow_add₀ (by norm_num), zpow_natCast, zpow_natCast,
        zpow_natCast]
    rw [e1]
    have hp : (0 : ℚ) < (2 : ℚ) ^ floor_log2 n := by positivity
    have hp2 : (0 : ℚ) < (2 : ℚ) ^ (floor_log2 d + 1) := by positivity
    rw [div_mul_div_comm, le_div_iff₀ (by positivity)]
    have : (2 : ℚ) ^ (52 : Nat) * ((d : ℚ) * (2 : ℚ) ^ floor_log2 n) ≤
        (2 : ℚ) ^ (52 : Nat) * ((2 : ℚ) ^ (floor_log2 d + 1) * (n : ℚ)) := by
      apply mul_le_mul_of_nonneg_left _ (by positivity)
      exact mul_le_mul hd2q hn1q hp.le hp2.le
    calc (2 : ℚ) ^ (52 : Nat) * ((d : ℚ) * (2 : ℚ) ^ floor_log2 n)
        ≤ (2 : ℚ) ^ (52 : Nat) * ((2 : ℚ) ^ (floor_log2 d + 1) * (n : ℚ)) := this
      _ = (n : ℚ) * ((2 : ℚ) ^ (52 : Nat) * (2 : ℚ) ^ (floor_log2 d + 1)) := by ring
  · rw [← scaled_value n d _ hd]
    have hpos := scaled_den_pos n d (52 - ((floor_log2 n : Int) - (floor_log2 d : Int))) hd
    have hposq : (0 : ℚ) < (((scaled n d (52 - ((floor_log2 n : Int) -
        (floor_log2 d : Int)))).2 : Nat) : ℚ) := by exact_mod_cast hpos
    rw [le_div_iff₀ hposq]
    have h1 : 2 ^ 52 ≤ (scaled n d (52 - ((floor_log2 n : Int) - (floor_log2 d : Int)))).1 /
        (scaled n d (52 - ((floor_log2 n : Int) - (floor_log2 d : Int)))).2 := by omega
    have h2 := Nat.mul_le_mul_right
      (scaled n d (52 - ((floor_log2 n : Int) - (floor_log2 d : Int)))).2 h1
    have h3 := Nat.div_mul_le_self
      (scaled n d (52 - ((floor_log2 n : Int) - (floor_log2 d : Int)))).1
      (scaled n d (52 - ((floor_log2 n : Int) - (floor_log2 d : Int)))).2
    have h4 := le_trans h2 h3
    exact_mod_cast h4

/-- The relative error of `round_ratio` is at most `2^-52`. -/
theorem round_ratio_error (n d : Nat) (e : Int) (hd : d ≠ 0) :
    (n : ℚ) / (d : ℚ) * (2 : ℚ) ^ e - (n : ℚ) / (d : ℚ) * (2 : ℚ) ^ e / 2 ^ (52 : Nat) ≤
      dval (round_ratio n d e) ∧
    dval (round_ratio n d e) ≤
      (n : ℚ) / (d : ℚ) * (2 : ℚ) ^ e + (n : ℚ) / (d : ℚ) * (2 : ℚ) ^ e / 2 ^ (52 : Nat) := by
  by_cases hn : n = 0
  · subst hn
    simp [round_ratio, dval]
  · have hl := scaled_large n d hn hd
    unfold round_ratio
    rw [if_neg hn]
    simp only
    generalize (if (scaled n d (52 - ((floor_log2 n : Int) - (floor_log2 d : Int)))).1 /
          (scaled n d (52 - ((floor_log2 n : Int) - (floor_log2 d : Int)))).2 < 2 ^ 52
        then 52 - ((floor_log2 n : Int) - (floor_log2 d : Int)) + 1
        else 52 - ((floor_log2 n : Int) - (floor_log2 d : Int))) = s at hl ⊢
    have hD := scaled_den_pos n d s hd
    obtain ⟨r1, r2⟩ := round_quotient (scaled n d s).1 (scaled n d s).2 hD
    rw [scaled_value n d s hd] at r1 r2
    unfold dval
    simp only [Int.cast_natCast]
    generalize ((if 2 * ((scaled n d s).1 % (scaled n d s).2) < (scaled n d s).2 then
      (scaled n d s).1 / (scaled n d s).2
      else if (scaled n d s).2 < 2 * ((scaled n d s).1 % (scaled n d s).2) then
        (scaled n d s).1 / (scaled n d s).2 + 1
      else if (scaled n d s).1 / (scaled n d s).2 % 2 = 0 then (scaled n d s).1 / (scaled n d s).2
      else (scaled n d s).1 / (scaled n d s).2 + 1 : Nat) : ℚ) = M at r1 r2 ⊢
    have hes : (2 : ℚ) ^ e = (2 : ℚ) ^ s * (2 : ℚ) ^ (e - s) := by
      rw [← zpow_add₀ (by norm_num)]
      congr 1
      ring
    have hp : (0 : ℚ) < (2 : ℚ) ^ (e - s) := by positivity
    rw [hes, ← mul_assoc]
    generalize (2 : ℚ) ^ (e - s) = w at hp ⊢
    generalize (n : ℚ) / (d : ℚ) * (2 : ℚ) ^ s = y at hl r1 r2 ⊢
    have h52 : (0 : ℚ) < 2 ^ (52 : Nat) := by positivity
    have hy : 1 ≤ y / 2 ^ (52 : Nat) := by
      rw [le_div_iff₀ h52]
      linarith
    have h1 : M * w ≤ (y + y / 2 ^ (52 : Nat)) * w :=
      mul_le_mul_of_nonneg_right (by linarith) hp.le
    have h2 : (y - y / 2 ^ (52 : Nat)) * w ≤ M * w :=
      mul_le_mul_of_nonneg_right (by linarith) hp.le
    constructor
    · calc y * w - y * w / 2 ^ (52 : Nat) = (y - y / 2 ^ (52 : Nat)) * w := by ring
        _ ≤ M * w := h2
    · calc M * w ≤ (y + y / 2 ^ (52 : Nat)) * w := h1
        _ = y * w + y * w / 2 ^ (52 : Nat) := by ring

theorem dround_m_nonneg (x : Dyadic) (h : 0 ≤ x.m) : 0 ≤ (dround x).m := by
  unfold dround with_sign
  rw [decide_eq_false (not_lt.2 h)]
  exact round_ratio_m_nonneg _ _ _

theorem ddiv_m_nonneg (x : Dyadic) (d : Nat) (h : 0 ≤ x.m) : 0 ≤ (ddiv x d).m := by
  unfold ddiv with_sign
  rw [decide_eq_false (not_lt.2 h)]
  exact round_ratio_m_nonneg _ _ _

theorem dval_nonneg (x : Dyadic) (h : 0 ≤ x.m) : 0 ≤ dval x := by
  unfold dval
  have : (0 : ℚ) ≤ (x.m : ℚ) := by exact_mod_cast h
  positivity

theorem m_nonneg_of_dval (x : Dyadic) (h : 0 ≤ dval x) : 0 ≤ x.m := by
  unfold dval at h
  have hp : (0 : ℚ) < (2 : ℚ) ^ x.e := by positivity
  have : (0 : ℚ) ≤ (x.m : ℚ) := nonneg_of_mul_nonneg_left h hp
  exact_mod_cast this

/-- Conversion to double of a number that is not negative: the relative error
is at most `2^-52`. -/
theorem dround_error (x : Dyadic) (h : 0 ≤ x.m) :
    dval x - dval x / 2 ^ (52 : Nat) ≤ dval (dround x) ∧
    dval (dround x) ≤ dval x + dval x / 2 ^ (52 : Nat) := by
  have := round_ratio_error x.m.natAbs 1 x.e (by norm_num)
  unfold dround with_sign
  rw [decide_eq_false (not_lt.2 h)]
  have hc : ((x.m.natAbs : Nat) : ℚ) = (x.m : ℚ) := by
    rw [Nat.cast_natAbs, abs_of_nonneg h]
  rw [hc] at this
  simpa [dval] using this

/-- Double division of a number that is not negative by a positive integer
constant: the relative error is at most `2^-52`. -/
theorem ddiv_error (x : Dyadic) (d : Nat) (hd : d ≠ 0) (h : 0 ≤ x.m) :
    dval x / (d : ℚ) - dval x / (d : ℚ) / 2 ^ (52 : Nat) ≤ dval (ddiv x d) ∧
    dval (ddiv x d) ≤ dval x / (d : ℚ) + dval x / (d : ℚ) / 2 ^ (52 : Nat) := by
  have := round_ratio_error x.m.natAbs d x.e hd
  unfold ddiv with_sign
  rw [decide_eq_false (not_lt.2 h)]
  have hc : ((x.m.natAbs : Nat) : ℚ) = (x.m : ℚ) := by
    rw [Nat.cast_natAbs, abs_of_nonneg h]
  rw [hc] at this
  have e1 : (x.m : ℚ) / (d : ℚ) * (2 : ℚ) ^ x.e = dval x / (d : ℚ) := by
    unfold dval
    ring
  rw [e1] at this
  exact this

theorem zpow_split (a b : Int) :
    (2 : ℚ) ^ a = (2 : ℚ) ^ (a - min a b).toNat * (2 : ℚ) ^ min a b := by
  have h : 0 ≤ a - min a b := by
    have := min_le_left a b
    omega
  obtain ⟨k, hk⟩ := Int.eq_ofNat_of_zero_le h
  rw [hk, Int.toNat_ofNat, ← zpow_natCast, ← zpow_add₀ (by norm_num), ← hk]
  congr 1
  ring

theorem zpow_split_right (a b : Int) :
    (2 : ℚ) ^ b = (2 : ℚ) ^ (b - min a b).toNat * (2 : ℚ) ^ min a b := by
  rw [min_comm]
  exact zpow_split b a

theorem dval_dadd (x y : Dyadic) : dval (dadd x y) = dval x + dval y := by
  unfold dval dadd
  simp only
  push_cast
  rw [add_mul, mul_assoc, mul_assoc, ← zpow_split, ← zpow_split_right]

theorem dadd_m_nonneg (x y : Dyadic) (hx : 0 ≤ x.m) (hy : 0 ≤ y.m) : 0 ≤ (dadd x y).m := by
  unfold dadd
  simp only
  positivity

theorem dlt_iff (x y : Dyadic) : dlt x y = true ↔ dval x < dval y := by
  unfold dlt dval
  rw [decide_eq_true_iff, zpow_split x.e y.e, zpow_split_right x.e y.e, ← mul_assoc,
    ← mul_assoc]
  have hp : (0 : ℚ) < (2 : ℚ) ^ min x.e y.e := by positivity
  rw [mul_lt_mul_right hp]
  constructor
  · intro h
    exact_mod_cast h
  · intro h
    exact_mod_cast h

/-- The double `fmjd` of a block whose seconds are `x`, from 0 to `2^32`: it is
`x / 86400` up to `10^-9`. -/
theorem fold_fmjd_error (ev : FoldEvent) (x : ℚ) (hx : dval ev.secs = x) (h0 : 0 ≤ x)
    (hB : x ≤ 2 ^ (32 : Nat)) :
    0 ≤ (fold_fmjd ev).m ∧
    x / 86400 - 1 / 10 ^ (9 : Nat) ≤ dval (fold_fmjd ev) ∧
    dval (fold_fmjd ev) ≤ x / 86400 + 1 / 10 ^ (9 : Nat) := by
  have hm : 0 ≤ ev.secs.m := m_nonneg_of_dval _ (by rw [hx]; exact h0)
  obtain ⟨r1, r2⟩ := dround_error ev.secs hm
  have hm2 := dround_m_nonneg ev.secs hm
  obtain ⟨d1, d2⟩ := ddiv_error (dround ev.secs) 86400 (by norm_num) hm2
  rw [hx] at r1 r2
  unfold fold_fmjd
  refine ⟨ddiv_m_nonneg _ _ hm2, ?_, ?_⟩
  · norm_num at r1 r2 d1 d2 hB ⊢
    linarith
  · norm_num at r1 r2 d1 d2 hB ⊢
    linarith

/-- The double `fmjd_next` computed from a double `fmjd0` that is `y` up to
`10^-9`, `y` from 0 to `2^16`: it is `y + 60/86400` up to `10^-8`. -/
theorem fold_fmjd_next_error (f : Dyadic) (y : ℚ) (hf : 0 ≤ f.m)
    (hB : y ≤ 2 ^ (16 : Nat)) (h1 : y - 1 / 10 ^ (9 : Nat) ≤ dval f)
    (h2 : dval f ≤ y + 1 / 10 ^ (9 : Nat)) :
    y + 60 / 86400 - 1 / 10 ^ (8 : Nat) ≤ dval (fold_fmjd_next f) ∧
    dval (fold_fmjd_next f) ≤ y + 60 / 86400 + 1 / 10 ^ (8 : Nat) := by
  have ht : 0 ≤ tfold.m := by decide
  have hv : dval tfold = 60 := by simp [dval, tfold]
  obtain ⟨d1, d2⟩ := ddiv_error tfold 86400 (by norm_num) ht
  have hm := dadd_m_nonneg f (ddiv tfold 86400) hf (ddiv_m_nonneg _ _ ht)
  obtain ⟨r1, r2⟩ := dround_error _ hm
  rw [dval_dadd] at r1 r2
  rw [hv] at d1 d2
  have hfn := dval_nonneg f hf
  unfold fold_fmjd_next
  constructor
  · norm_num at r1 r2 d1 d2 hB h1 h2 ⊢
    linarith
  · norm_num at r1 r2 d1 d2 hB h1 h2 ⊢
    linarith

/-- The boundary test on the 10 s stream, `fmjd_next` being set at block `a`:
the blocks up to `a + 5` are not later than `fmjd_next`, and block `a + 7` is
later. -/
theorem boundary_test (blocks : Nat → FoldEvent) (t0 : ℚ) (hs : ten_second_stream blocks t0)
    (h0 : 0 ≤ t0) (a j : Nat) (hB : t0 + 10 * ((a + j : Nat) : ℚ) ≤ 2 ^ (32 : Nat)) :
    (j ≤ 5 → dlt (fold_fmjd_next (fold_fmjd (blocks a))) (fold_fmjd (blocks (a + j))) = false) ∧
    (7 ≤ j → dlt (fold_fmjd_next (fold_fmjd (blocks a))) (fold_fmjd (blocks (a + j))) = true) := by
  have ha0 : (0 : ℚ) ≤ (a : ℚ) := Nat.cast_nonneg a
  have hj0 : (0 : ℚ) ≤ (j : ℚ) := Nat.cast_nonneg j
  push_cast at hB
  obtain ⟨fa0, fa1, fa2⟩ := fold_fmjd_error (blocks a) (t0 + 10 * (a : ℚ)) (hs.1 a)
    (by linarith) (by linarith)
  obtain ⟨fb0, fb1, fb2⟩ := fold_fmjd_error (blocks (a + j)) (t0 + 10 * ((a + j : Nat) : ℚ))
    (hs.1 (a + j)) (by push_cast; linarith) (by push_cast; linarith)
  obtain ⟨n1, n2⟩ := fold_fmjd_next_error (fold_fmjd (blocks a)) ((t0 + 10 * (a : ℚ)) / 86400) fa0
    (by rw [div_le_iff₀ (by norm_num)]; norm_num at hB ⊢; linarith) fa1 fa2
  push_cast at fb1 fb2
  constructor
  · intro h5
    have h5q : (j : ℚ) ≤ 5 := by exact_mod_cast h5
    rw [Bool.eq_false_iff, Ne, dlt_iff, not_lt]
    norm_num at fb2 n1 ⊢
    linarith
  · intro h7
    have h7q : (7 : ℚ) ≤ (j : ℚ) := by exact_mod_cast h7
    rw [dlt_iff]
    norm_num at fb1 n2 ⊢
    linarith

/-! ## The 10 s stream: one output block per 6 or 7 input blocks -/

theorem quiet_nil : quiet [] := fun _ => ⟨rfl, fun _ _ => rfl⟩

theorem quiet_join_events (ev : FoldEvent) (ibl : Int → Int) (f : Int) (n : Nat) :
    quiet (join_events ev ibl f n) := by
  induction n with
  | zero => exact quiet_nil
  | succ n ih =>
    intro l
    obtain ⟨i1, i2⟩ := ih l
    simp only [join_events, join_slot_events]
    split_ifs
    · exact ⟨by simpa [sealed_headers] using i1, fun b key => by simpa [last_put] using i2 b key⟩
    · exact ⟨by simpa [sealed_headers] using i1, fun b key => by simpa [last_put] using i2 b key⟩
    · exact ⟨by simpa [sealed_headers] using i1, fun b key => by simpa [last_put] using i2 b key⟩

theorem fold_run_append (c : FoldCfg) (s : FoldState) (l1 l2 : List FoldEvent) :
    fold_run c s (l1 ++ l2) = fold_then (fold_run c s l1) (fun s1 => fold_run c s1 l2) := by
  induction l1 generalizing s with
  | nil => rfl
  | cons ev l1 ih =>
    simp only [List.cons_append, fold_run]
    rcases guppi_fold_thread c s ev with ⟨t, _ | h⟩
    · simp only [fold_then_none]
      exact ih t
    · rfl

theorem wrap_int32_add (a b : Int) : wrap_int32 (wrap_int32 a + b) = wrap_int32 (a + b) := by
  unfold wrap_int32
  omega

theorem wrap_int32_small (a : Int) (h1 : -2 ^ 31 ≤ a) (h2 : a < 2 ^ 31) : wrap_int32 a = a := by
  unfold wrap_int32
  omega

theorem range_sum_zero (f : Nat → Int) (a : Nat) : range_sum f a 0 = 0 := rfl

theorem range_sum_succ (f : Nat → Int) (a n : Nat) :
    range_sum f a (n + 1) = range_sum f a n + f (a + n) := by
  simp [range_sum, List.range_succ]

/-- The combine phase after `fold_begin`, for a block that is not the first and
has a packet index other than 0. -/
theorem begin_combine_form (s : FoldState) (ev : FoldEvent) (hfirst : s.first = false)
    (hni : s.next_integration = false) (hpi : ev.packetindex ≠ 0) :
    ∃ (J : List FoldCall) (ibl : Int → Int) (ct : Int), quiet J ∧
      fold_combine (fold_begin s ev) ev =
        { s with
          log := J ++ FoldCall.guppi_databuf_wait_filled s.curblock_in :: s.log
          next_integration := dlt s.fmjd_next (fold_fmjd ev)
          input_block_list := ibl
          cur_thread := ct } := by
  have hb : fold_begin s ev =
      { s with
        log := FoldCall.guppi_databuf_wait_filled s.curblock_in :: s.log
        next_integration := dlt s.fmjd_next (fold_fmjd ev) } := by
    unfold fold_begin fold_read_params
    simp only [hpi, hfirst, if_false, Bool.false_eq_true]
    split_ifs with hgt
    · simp [hgt]
    · simp [hgt, hni]
  rw [hb, fold_combine_eq]
  split_ifs
  · exact ⟨_, _, _, quiet_join_events ev _ _ _, rfl⟩
  · exact ⟨[], _, _, quiet_nil, rfl⟩

theorem finalize_idle (c : FoldCfg) (t : FoldState) (ev : FoldEvent)
    (h : t.next_integration = false) : fold_finalize c t ev = (t, none) := by
  unfold fold_finalize
  simp [h]

theorem polyco_idle (t : FoldState) (ev : FoldEvent) (h : t.refresh_polycos = false)
    (hipc : 0 ≤ ev.ipc) : fold_polyco t ev = (t, none) := by
  unfold fold_polyco fold_then
  simp [h, not_lt.2 hipc]

theorem launch_form (t : FoldState) (ev : FoldEvent) (hch : ev.nchan ≠ 0 ∧ ev.npol ≠ 0) :
    ∃ (ibl1 : Int → Int) (ct1 : Int), fold_launch t ev =
      ({ t with
          log := FoldCall.pthread_create t.cur_thread t.curblock_in ev.create_rv :: t.log
          input_block_list := ibl1
          cur_thread := ct1 }, none) := by
  unfold fold_launch
  simp only [hch.1, hch.2, or_self, if_false]
  split_ifs
  · exact ⟨_, _, rfl⟩
  · exact ⟨_, _, rfl⟩

theorem account_form (c : FoldCfg) (t : FoldState) (ev : FoldEvent) (hin : c.n_block_in ≠ 0) :
    fold_account c t ev =
      ({ t with
          nblock_int := wrap_int32 (t.nblock_int + 1)
          npacket := wrap_int32 (t.npacket + ev.n_packets)
          ndrop := wrap_int32 (t.ndrop + ev.n_dropped)
          log := account_events t ev ++ t.log
          curblock_in := Int.tmod (t.curblock_in + 1) c.n_block_in }, none) := by
  unfold fold_account account_events
  simp [hin]

theorem finalize_form (c : FoldCfg) (t : FoldState) (ev : FoldEvent)
    (h : t.next_integration = true) (hz : c.n_block_out ≠ 0) :
    fold_finalize c t ev =
      ({ t with
          log :=
            FoldCall.clear_foldbuf_total (Int.tmod (t.curblock_out + 1) c.n_block_out) ::
            FoldCall.hputi4 (Int.tmod (t.curblock_out + 1) c.n_block_out) FoldKey.PKTIDX
              ev.packetindex ::
            FoldCall.hputi4 (Int.tmod (t.curblock_out + 1) c.n_block_out) FoldKey.NBIN 256 ::
            FoldCall.hputs_obs_mode (Int.tmod (t.curblock_out + 1) c.n_block_out) ::
            FoldCall.header_copy (Int.tmod (t.curblock_out + 1) c.n_block_out) t.curblock_in ::
            FoldCall.guppi_databuf_wait_free (Int.tmod (t.curblock_out + 1) c.n_block_out) ::
            FoldCall.guppi_databuf_set_filled t.curblock_out :: t.log
          fmjd0 := fold_fmjd ev
          fmjd_next := fold_fmjd_next (fold_fmjd ev)
          curblock_out := Int.tmod (t.curblock_out + 1) c.n_block_out
          hdr_out := Int.tmod (t.curblock_out + 1) c.n_block_out
          fb_data := Int.tmod (t.curblock_out + 1) c.n_block_out
          nblock_int := 0
          npacket := 0
          ndrop := 0
          next_integration := false }, none) := by
  unfold fold_finalize
  simp [h, hz]


theorem integration_length_cases (blocks : Nat → FoldEvent) (a : Nat) :
    integration_length blocks a = 6 ∨ integration_length blocks a = 7 := by
  unfold integration_length
  split_ifs
  · exact Or.inl rfl
  · exact Or.inr rfl

/-- On the 10 s stream the block `a + r + 1` is later than `fmjd_next` of the
integration begun at block `a` exactly when it comes after the last block of
that integration. -/
theorem armed_iff (blocks : Nat → FoldEvent) (t0 : ℚ) (hs : ten_second_stream blocks t0)
    (h0 : 0 ≤ t0) (a r : Nat) (hB : t0 + 10 * ((a + (r + 1) : Nat) : ℚ) ≤ 2 ^ (32 : Nat))
    (hr : r < integration_length blocks a) :
    dlt (fold_fmjd_next (fold_fmjd (blocks a))) (fold_fmjd (blocks (a + (r + 1)))) = true ↔
      r + 1 = integration_length blocks a := by
  obtain ⟨b1, b2⟩ := boundary_test blocks t0 hs h0 a (r + 1) hB
  unfold integration_length at hr ⊢
  by_cases h5 : r + 1 ≤ 5
  · rw [b1 h5]
    constructor
    · intro h
      exact absurd h (by decide)
    · intro h
      split_ifs at h <;> omega
  · by_cases h6 : r + 1 = 6
    · rw [h6]
      split_ifs with hd
      · exact ⟨fun _ => rfl, fun _ => hd⟩
      · constructor
        · intro h
          exact absurd h hd
        · intro h
          omega
    · have h7 : 7 ≤ r + 1 := by omega
      rw [b2 h7]
      constructor
      · intro _
        split_ifs at hr ⊢ <;> omega
      · intro _
        rfl

theorem integration_chain_le (blocks : Nat → FoldEvent) (No : Nat) :
    ∀ (L : List (Int × Option Int × Option Int × Option Int)) (i0 a0 i a : Nat),
      integration_chain blocks No L i0 a0 i a → a0 + L.length ≤ a := by
  intro L
  induction L with
  | nil =>
    intro i0 a0 i a h
    obtain ⟨-, h2⟩ := h
    simp only [List.length_nil]
    omega
  | cons x t ih =>
    intro i0 a0 i a h
    obtain ⟨-, h2⟩ := h
    have := ih _ _ _ _ h2
    have hg := integration_length_cases blocks a0
    simp only [List.length_cons]
    omega

theorem integration_chain_snoc (blocks : Nat → FoldEvent) (No : Nat) :
    ∀ (L : List (Int × Option Int × Option Int × Option Int)) (i0 a0 i a : Nat),
      integration_chain blocks No L i0 a0 i a →
      integration_chain blocks No
        (L ++ [integration_header blocks No i a (integration_length blocks a)]) i0 a0 (i + 1)
        (a + integration_length blocks a) := by
  intro L
  induction L with
  | nil =>
    intro i0 a0 i a h
    obtain ⟨h1, h2⟩ := h
    subst h1
    subst h2
    exact ⟨rfl, rfl, rfl⟩
  | cons x t ih =>
    intro i0 a0 i a h
    obtain ⟨h1, h2⟩ := h
    exact ⟨h1, ih _ _ _ _ h2⟩

/-- A chain of integrations that ends with the integration in progress after
`n` input blocks is the list `sealed_integrations` computes. -/
theorem integration_chain_sealed (blocks : Nat → FoldEvent) (No n : Nat) :
    ∀ (L : List (Int × Option Int × Option Int × Option Int)) (fuel i0 a0 i a : Nat),
      integration_chain blocks No L i0 a0 i a → a < n → n ≤ a + integration_length blocks a →
      L.length ≤ fuel → sealed_integrations blocks No n fuel i0 a0 = L := by
  intro L
  induction L with
  | nil =>
    intro fuel i0 a0 i a h han hna _
    obtain ⟨h1, h2⟩ := h
    subst h1
    subst h2
    cases fuel with
    | zero => rfl
    | succ f =>
      unfold sealed_integrations
      rw [if_neg (by omega)]
  | cons x t ih =>
    intro fuel i0 a0 i a h han hna hf
    obtain ⟨h1, h2⟩ := h
    have hle := integration_chain_le blocks No t _ _ _ _ h2
    cases fuel with
    | zero => simp at hf
    | succ f =>
      unfold sealed_integrations
      rw [if_pos (by omega), ih f _ _ _ _ h2 han hna (by simpa using hf), h1]

theorem steady_step_same (c : FoldCfg) (No : Nat) (hin : c.n_block_in ≠ 0)
    (blocks : Nat → FoldEvent) (t0 : ℚ) (hs : ten_second_stream blocks t0) (h0 : 0 ≤ t0)
    (s : FoldState) (i a r : Nat) (hB : t0 + 10 * ((a + (r + 1) : Nat) : ℚ) ≤ 2 ^ (32 : Nat))
    (hr : r + 1 < integration_length blocks a) (h : steady_state blocks No s i a r) :
    (guppi_fold_thread c s (blocks (a + (r + 1)))).2 = none ∧
    steady_state blocks No (guppi_fold_thread c s (blocks (a + (r + 1)))).1 i a (r + 1) := by
  have harm := armed_iff blocks t0 hs h0 a r hB (by omega)
  obtain ⟨h1, h2, h3, h4, h5, h6, h7, h8, h9, h10, h11, h12, h13⟩ := h
  obtain ⟨s1, s2, s3, s4, s5⟩ := hs
  have hpi : (blocks (a + (r + 1))).packetindex ≠ 0 := fun e => by
    have := (s2 _).1 e
    omega
  obtain ⟨J, ibl, ct, hq, hform⟩ := begin_combine_form s (blocks (a + (r + 1))) h1 h2 hpi
  have hdec : dlt s.fmjd_next (fold_fmjd (blocks (a + (r + 1)))) = false := by
    rw [h4, Bool.eq_false_iff, Ne, harm]
    omega
  rw [hdec] at hform
  unfold guppi_fold_thread
  rw [hform, finalize_idle c _ _ rfl, fold_then_none, polyco_idle _ _ (by exact h3) (s4 _),
    fold_then_none]
  obtain ⟨ibl1, ct1, hl⟩ := launch_form
    { s with
      log := J ++ FoldCall.guppi_databuf_wait_filled s.curblock_in :: s.log
      next_integration := false
      input_block_list := ibl
      cur_thread := ct } (blocks (a + (r + 1))) (s5 _)
  rw [hl, fold_then_none, account_form c _ _ hin]
  refine ⟨rfl, h1, rfl, h3, h4, h5, h6, ?_, ?_, ?_, ?_, ?_, ?_, ?_⟩
  · show wrap_int32 (s.nblock_int + 1) = _
    rw [h7]
    have hg := integration_length_cases blocks a
    unfold wrap_int32
    push_cast
    omega
  · show wrap_int32 (s.npacket + (blocks (a + (r + 1))).n_packets) = _
    rw [h8, wrap_int32_add, range_sum_succ _ a (r + 1)]
  · show wrap_int32 (s.ndrop + (blocks (a + (r + 1))).n_dropped) = _
    rw [h9, wrap_int32_add, range_sum_succ _ a (r + 1)]
  · show integration_chain blocks No (sealed_headers (account_events _ _ ++
      (FoldCall.pthread_create _ _ _ ::
        (J ++ FoldCall.guppi_databuf_wait_filled s.curblock_in :: s.log)))) 0 0 i a
    simp only [account_events, List.cons_append, List.nil_append, sealed_headers, (hq _).1]
    exact h10
  · show last_put s.hdr_out FoldKey.NBLOCK (account_events _ _ ++ _) = _
    simp [account_events, last_put]
  · show last_put s.hdr_out FoldKey.NPKT (account_events _ _ ++ _) = _
    simp [account_events, last_put]
  · show last_put s.hdr_out FoldKey.NDROP (account_events _ _ ++ _) = _
    simp [account_events, last_put]

theorem steady_step_next (c : FoldCfg) (No : Nat) (hNo : 0 < No) (hc : c.n_block_out = (No : Int))
    (hin : c.n_block_in ≠ 0)
    (blocks : Nat → FoldEvent) (t0 : ℚ) (hs : ten_second_stream blocks t0) (h0 : 0 ≤ t0)
    (s : FoldState) (i a r : Nat) (hB : t0 + 10 * ((a + (r + 1) : Nat) : ℚ) ≤ 2 ^ (32 : Nat))
    (hr : r + 1 = integration_length blocks a) (h : steady_state blocks No s i a r) :
    (guppi_fold_thread c s (blocks (a + (r + 1)))).2 = none ∧
    steady_state blocks No (guppi_fold_thread c s (blocks (a + (r + 1)))).1 (i + 1)
      (a + (r + 1)) 0 := by
  have harm := armed_iff blocks t0 hs h0 a r hB (by omega)
  obtain ⟨h1, h2, h3, h4, h5, h6, h7, h8, h9, h10, h11, h12, h13⟩ := h
  obtain ⟨s1, s2, s3, s4, s5⟩ := hs
  have hpi : (blocks (a + (r + 1))).packetindex ≠ 0 := fun e => by
    have := (s2 _).1 e
    omega
  obtain ⟨J, ibl, ct, hq, hform⟩ := begin_combine_form s (blocks (a + (r + 1))) h1 h2 hpi
  have hdec : dlt s.fmjd_next (fold_fmjd (blocks (a + (r + 1)))) = true := by
    rw [h4, harm]
    exact hr
  rw [hdec] at hform
  have hz : c.n_block_out ≠ 0 := by
    rw [hc]
    exact_mod_cast (by omega : No ≠ 0)
  have hnb : Int.tmod (s.curblock_out + 1) c.n_block_out = (((i + 1) % No : Nat) : Int) := by
    rw [h5, hc, Int.natCast_mod, Int.natCast_mod]
    exact tmod_succ (No : Int) (by exact_mod_cast hNo) i
  unfold guppi_fold_thread
  rw [hform, finalize_form c _ _ rfl hz, fold_then_none, polyco_idle _ _ (by exact h3) (s4 _),
    fold_then_none]
  obtain ⟨ibl1, ct1, hl⟩ := launch_form
    { s with
      log :=
        FoldCall.clear_foldbuf_total (Int.tmod (s.curblock_out + 1) c.n_block_out) ::
        FoldCall.hputi4 (Int.tmod (s.curblock_out + 1) c.n_block_out) FoldKey.PKTIDX
          (blocks (a + (r + 1))).packetindex ::
        FoldCall.hputi4 (Int.tmod (s.curblock_out + 1) c.n_block_out) FoldKey.NBIN 256 ::
        FoldCall.hputs_obs_mode (Int.tmod (s.curblock_out + 1) c.n_block_out) ::
        FoldCall.header_copy (Int.tmod (s.curblock_out + 1) c.n_block_out) s.curblock_in ::
        FoldCall.guppi_databuf_wait_free (Int.tmod (s.curblock_out + 1) c.n_block_out) ::
        FoldCall.guppi_databuf_set_filled s.curblock_out ::
          (J ++ FoldCall.guppi_databuf_wait_filled s.curblock_in :: s.log)
      fmjd0 := fold_fmjd (blocks (a + (r + 1)))
      fmjd_next := fold_fmjd_next (fold_fmjd (blocks (a + (r + 1))))
      curblock_out := Int.tmod (s.curblock_out + 1) c.n_block_out
      hdr_out := Int.tmod (s.curblock_out + 1) c.n_block_out
      fb_data := Int.tmod (s.curblock_out + 1) c.n_block_out
      nblock_int := 0
      npacket := 0
      ndrop := 0
      next_integration := false
      input_block_list := ibl
      cur_thread := ct } (blocks (a + (r + 1))) (s5 _)
  rw [hl, fold_then_none, account_form c _ _ hin]
  refine ⟨rfl, h1, rfl, h3, rfl, hnb, hnb, ?_, ?_, ?_, ?_, ?_, ?_, ?_⟩
  · show wrap_int32 (0 + 1) = _
    rfl
  · show wrap_int32 (0 + (blocks (a + (r + 1))).n_packets) = _
    rw [range_sum_succ, range_sum_zero]
    rfl
  · show wrap_int32 (0 + (blocks (a + (r + 1))).n_dropped) = _
    rw [range_sum_succ, range_sum_zero]
    rfl
  · show integration_chain blocks No (sealed_headers (account_events _ _ ++
      (FoldCall.pthread_create _ _ _ ::
      FoldCall.clear_foldbuf_total _ :: FoldCall.hputi4 _ _ _ :: FoldCall.hputi4 _ _ _ ::
      FoldCall.hputs_obs_mode _ :: FoldCall.header_copy _ _ :: FoldCall.guppi_databuf_wait_free _ ::
      FoldCall.guppi_databuf_set_filled s.curblock_out ::
        (J ++ FoldCall.guppi_databuf_wait_filled s.curblock_in :: s.log)))) 0 0 (i + 1)
      (a + (r + 1))
    simp only [account_events, List.cons_append, List.nil_append, sealed_headers, (hq _).1,
      (hq _).2, last_put]
    rw [h5.trans h6.symm, h11, h12, h13, h7, h8, h9, h6, hr]
    exact integration_chain_snoc blocks No _ 0 0 i a h10
  · show last_put (Int.tmod (s.curblock_out + 1) c.n_block_out) FoldKey.NBLOCK
      (account_events _ _ ++ _) = _
    simp [account_events, last_put]
  · show last_put (Int.tmod (s.curblock_out + 1) c.n_block_out) FoldKey.NPKT
      (account_events _ _ ++ _) = _
    simp [account_events, last_put]
  · show last_put (Int.tmod (s.curblock_out + 1) c.n_block_out) FoldKey.NDROP
      (account_events _ _ ++ _) = _
    simp [account_events, last_put]

theorem steady_first (c : FoldCfg) (No : Nat) (hin : c.n_block_in ≠ 0)
    (blocks : Nat → FoldEvent) (t0 : ℚ) (hs : ten_second_stream blocks t0) (h0 : 0 ≤ t0)
    (hB : t0 ≤ 2 ^ (32 : Nat)) :
    (guppi_fold_thread c fold_init (blocks 0)).2 = none ∧
    steady_state blocks No (guppi_fold_thread c fold_init (blocks 0)).1 0 0 0 := by
  have hnot : dlt (fold_fmjd_next (fold_fmjd (blocks 0))) (fold_fmjd (blocks 0)) = false :=
    (boundary_test blocks t0 hs h0 0 0 (by simpa using hB)).1 (by omega)
  obtain ⟨s1, s2, s3, s4, s5⟩ := hs
  have hpi : (blocks 0).packetindex = 0 := (s2 0).2 rfl
  have hb : fold_begin fold_init (blocks 0) =
      { fold_init with
        fmjd0 := fold_fmjd (blocks 0)
        fmjd_next := fold_fmjd_next (fold_fmjd (blocks 0))
        hdr_out := 0
        log := begin_events fold_init ++ []
        first := false } := by
    unfold fold_begin fold_read_params fold_first_time
    simp [fold_init, hpi, hnot, begin_events]
  have hcmb : fold_combine (fold_begin fold_init (blocks 0)) (blocks 0) =
      fold_begin fold_init (blocks 0) := by
    rw [fold_combine_eq, hb]
    simp [fold_init, nthread]
  have hpol : ∀ t : FoldState, fold_polyco t (blocks 0) =
      ({ t with refresh_polycos := false }, none) := by
    intro t
    unfold fold_polyco fold_then
    by_cases ht : t.refresh_polycos = true
    · simp [ht, s3.1, s3.2, not_lt.2 (s4 0)]
    · have ht1 : t.refresh_polycos = false := by simpa using ht
      simp [ht1, not_lt.2 (s4 0)]
      rw [← ht1]
  unfold guppi_fold_thread
  rw [hcmb, hb, finalize_idle c _ _ rfl, fold_then_none, hpol, fold_then_none]
  obtain ⟨ibl1, ct1, hl⟩ := launch_form
    { fold_init with
      fmjd0 := fold_fmjd (blocks 0)
      fmjd_next := fold_fmjd_next (fold_fmjd (blocks 0))
      hdr_out := 0
      log := begin_events fold_init ++ []
      first := false
      refresh_polycos := false } (blocks 0) (s5 _)
  rw [hl, fold_then_none, account_form c _ _ hin]
  refine ⟨rfl, rfl, rfl, rfl, rfl, rfl, rfl, rfl, ?_, ?_, ?_, ?_, ?_, ?_⟩
  · show wrap_int32 (0 + (blocks 0).n_packets) = _
    rw [range_sum_succ, range_sum_zero]
  · show wrap_int32 (0 + (blocks 0).n_dropped) = _
    rw [range_sum_succ, range_sum_zero]
  · show integration_chain blocks No (sealed_headers _) 0 0 0 0
    simp [account_events, sealed_headers, begin_events, fold_init, integration_chain]
  · simp [account_events, last_put]
  · simp [account_events, last_put]
  · simp [account_events, last_put]

/-- The run over the first `n + 1` blocks of the 10 s stream: the coordinator
does not stop, and block `n` belongs to an integration that began at some
block `a`, the integrations before it being sealed. -/
theorem steady_run (c : FoldCfg) (No : Nat) (hNo : 0 < No) (hc : c.n_block_out = (No : Int))
    (hin : c.n_block_in ≠ 0) (blocks : Nat → FoldEvent) (t0 : ℚ)
    (hs : ten_second_stream blocks t0) (h0 : 0 ≤ t0) (n : Nat)
    (hB : t0 + 10 * (n : ℚ) ≤ 2 ^ (32 : Nat)) :
    (fold_run c fold_init ((List.range (n + 1)).map blocks)).2 = none ∧
    ∃ i a r : Nat, n = a + r ∧ r < integration_length blocks a ∧
      steady_state blocks No (fold_run c fold_init ((List.range (n + 1)).map blocks)).1 i a r := by
  induction n with
  | zero =>
    have := steady_first c No hin blocks t0 hs h0 (by simpa using hB)
    simp only [List.range_succ, List.range_zero, List.nil_append, List.map_cons, List.map_nil,
      fold_run]
    have hg := integration_length_cases blocks 0
    rcases hr : guppi_fold_thread c fold_init (blocks 0) with ⟨t, _ | x⟩
    · rw [hr] at this
      exact ⟨rfl, 0, 0, 0, rfl, by omega, this.2⟩
    · rw [hr] at this
      exact absurd this.1 (by simp)
  | succ n ih =>
    have hB1 : t0 + 10 * (n : ℚ) ≤ 2 ^ (32 : Nat) := by
      push_cast at hB
      linarith
    have ih := ih hB1
    rw [List.range_succ, List.map_append, fold_run_append]
    rcases hr : fold_run c fold_init ((List.range (n + 1)).map blocks) with ⟨t, _ | x⟩
    · rw [hr] at ih
      simp only [fold_then_none, List.map_cons, List.map_nil, fold_run]
      obtain ⟨-, i, a, r, hn, hlt, hst⟩ := ih
      have hk : n + 1 = a + (r + 1) := by omega
      have hB2 : t0 + 10 * ((a + (r + 1) : Nat) : ℚ) ≤ 2 ^ (32 : Nat) := by
        rw [← hk]
        exact hB
      have hg := integration_length_cases blocks (a + (r + 1))
      by_cases hlast : r + 1 = integration_length blocks a
      · have := steady_step_next c No hNo hc hin blocks t0 hs h0 t i a r hB2 hlast hst
        rw [← hk] at this
        rcases hr2 : guppi_fold_thread c t (blocks (n + 1)) with ⟨t2, _ | x⟩
        · rw [hr2] at this
          exact ⟨rfl, i + 1, n + 1, 0, rfl, by rw [hk]; omega, this.2⟩
        · rw [hr2] at this
          exact absurd this.1 (by simp)
      · have := steady_step_same c No hin blocks t0 hs h0 t i a r hB2 (by omega) hst
        rw [← hk] at this
        rcases hr2 : guppi_fold_thread c t (blocks (n + 1)) with ⟨t2, _ | x⟩
        · rw [hr2] at this
          exact ⟨rfl, i, a, r + 1, hk, by omega, this.2⟩
        · rw [hr2] at this
          exact absurd this.1 (by simp)
    · rw [hr] at ih
      exact absurd ih.1 (by simp)

theorem ten_second_block_from_stream (start : Nat) :
    ten_second_stream (ten_second_block_from start) (start : ℚ) := by
  refine ⟨fun k => ?_, fun k => ?_, ⟨rfl, show (1 : Int) ≠ 0 by decide⟩, fun k => le_refl _,
    fun k => ⟨show (1024 : Int) ≠ 0 by decide, show (4 : Int) ≠ 0 by decide⟩⟩
  · simp [ten_second_block_from, smooth_event, dval]
  · simp [ten_second_block_from, smooth_event]


/-! ## The window of the capture loop, for any block length -/

theorem place_block_packet_idx (c : NetCfg) (s : NetState) (seq : Nat) (data : Bytes) :
    (net_place c s seq data).block_packet_idx = wrap32 (sub64 seq s.curblock_seq_num) := by
  simp [net_place]

theorem rollover_place_core (c : NetCfg) (s s1 : NetState) (seq : Nat) (data : Bytes)
    (hseq : seq + c.packets_per_block < 2 ^ 63)
    (h : (net_rollover c s seq).map (fun s2 => net_place c s2 seq data) = Except.ok s1) :
    capture_window c s1 ∧ s1.last_seq_num = seq ∧
    s1.block_packet_idx = wrap32 (seq - s1.curblock_seq_num) := by
  rcases hro : net_rollover c s seq with e | s2
  · rw [hro] at h
    cases h
  rw [hro] at h
  cases h
  obtain ⟨-, hp, hcs, hns, -, -, -, -, -, -⟩ := rollover_of_ok c s s2 seq hro
  have hp0 : 0 < c.packets_per_block := Nat.pos_of_ne_zero hp
  have hr : seq % c.packets_per_block < c.packets_per_block := Nat.mod_lt _ hp0
  have hr2 : seq % c.packets_per_block ≤ seq := Nat.mod_le _ _
  rw [sub64_mod_self seq _ (by omega)] at hcs hns
  have hal := sub_mod_self_mod seq c.packets_per_block
  refine ⟨⟨?_, ?_, ?_, ?_⟩, ?_, ?_⟩
  · rw [place_curblock_seq_num, hcs]; exact hal
  · rw [place_nextblock_seq_num, place_curblock_seq_num, hns, hcs]
    unfold wrap64
    omega
  · rw [place_curblock_seq_num, place_last_seq_num, hcs]; omega
  · rw [place_nextblock_seq_num, place_last_seq_num, hns]
    unfold wrap64
    omega
  · exact place_last_seq_num _ _ _ _
  · rw [place_block_packet_idx, place_curblock_seq_num,
      sub64_eq_sub _ _ (by omega) (by rw [hcs]; omega)]

theorem place_core (c : NetCfg) (s : NetState) (seq : Nat) (data : Bytes)
    (hseq : seq < 2 ^ 63) (hw : capture_window c s)
    (hge : s.last_seq_num ≤ seq) (hlt : seq < s.nextblock_seq_num) :
    capture_window c (net_place c s seq data) ∧ (net_place c s seq data).last_seq_num = seq ∧
    (net_place c s seq data).block_packet_idx =
      wrap32 (seq - (net_place c s seq data).curblock_seq_num) := by
  obtain ⟨h1, h2, h3, h4⟩ := hw
  refine ⟨⟨?_, ?_, ?_, ?_⟩, ?_, ?_⟩
  · rw [place_curblock_seq_num]; exact h1
  · rw [place_nextblock_seq_num, place_curblock_seq_num]; exact h2
  · rw [place_curblock_seq_num, place_last_seq_num]; omega
  · rw [place_nextblock_seq_num, place_last_seq_num]; exact hlt
  · exact place_last_seq_num _ _ _ _
  · rw [place_block_packet_idx, place_curblock_seq_num, sub64_eq_sub _ _ (by omega) (by omega)]

/-- An iteration on a received datagram: the window afterwards. -/
theorem net_thread_core_received (c : NetCfg) (s s1 : NetState) (ev : NetEvent)
    (hseq : ev.seq_num + c.packets_per_block < 2 ^ 63)
    (hstep : guppi_net_thread c s ev = Except.ok s1)
    (h : unstarted s ∨ (capture_window c s ∧ s.last_seq_num < 2 ^ 63))
    (hrecv : received_ok s ev) :
    (unstarted s1 ∨ (capture_window c s1 ∧ s1.last_seq_num < 2 ^ 63)) ∧
    (accepted s ev → capture_window c s1 ∧ s1.last_seq_num = ev.seq_num ∧
      s1.block_packet_idx = wrap32 (ev.seq_num - s1.curblock_seq_num)) := by
  have hs63 : ev.seq_num < 2 ^ 63 := by omega
  rw [net_thread_received c s ev hrecv] at hstep
  have hlast : s.last_seq_num < 2 ^ 63 := by
    rcases h with h | h
    · rw [h.1]; norm_num
    · exact h.2
  have hD : seq_num_diff s ev = (ev.seq_num : Int) - (s.last_seq_num : Int) :=
    toInt64_sub64 _ _ hs63 hlast
  split_ifs at hstep with hc1 hc2 hc3
  · have := rollover_place_core c _ _ _ _ hseq hstep
    exact ⟨Or.inr ⟨this.1, by rw [this.2.1]; exact hs63⟩, fun _ => this⟩
  · cases hstep
    exact ⟨h, fun ha => absurd ⟨hc2, hc1⟩ ha.2⟩
  · have := rollover_place_core c _ _ _ _ hseq hstep
    exact ⟨Or.inr ⟨this.1, by rw [this.2.1]; exact hs63⟩, fun _ => this⟩
  · cases hstep
    have hw : capture_window c s := by
      rcases h with h | h
      · exfalso
        rw [h.2] at hc3
        omega
      · exact h.1
    have := place_core c { after_recv s ev with force_new_block := 0 } ev.seq_num
      (recv_data s ev) hs63 hw (by show s.last_seq_num ≤ ev.seq_num; omega)
      (by show ev.seq_num < s.nextblock_seq_num; omega)
    exact ⟨Or.inr ⟨this.1, by rw [this.2.1]; exact hs63⟩, fun _ => this⟩

/-- One iteration keeps "unstarted or window", and after an accepted packet the
window holds with the packet as the last one. -/
theorem net_thread_core (c : NetCfg) (s s1 : NetState) (ev : NetEvent)
    (hseq : ev.seq_num + c.packets_per_block < 2 ^ 63)
    (hstep : guppi_net_thread c s ev = Except.ok s1)
    (h : unstarted s ∨ (capture_window c s ∧ s.last_seq_num < 2 ^ 63)) :
    (unstarted s1 ∨ (capture_window c s1 ∧ s1.last_seq_num < 2 ^ 63)) ∧
    (accepted s ev → capture_window c s1 ∧ s1.last_seq_num = ev.seq_num ∧
      s1.block_packet_idx = wrap32 (ev.seq_num - s1.curblock_seq_num)) := by
  by_cases hrecv : received_ok s ev
  · exact net_thread_core_received c s s1 ev hseq hstep h hrecv
  · refine ⟨?_, fun ha => absurd ha.1 hrecv⟩
    rcases net_thread_cases c s s1 ev hstep with e | ⟨up1, e⟩ | hr
    · subst e
      exact h
    · subst e
      exact h
    · exact absurd hr hrecv

theorem net_run_core (c : NetCfg) (evs : List NetEvent) (s s1 : NetState)
    (hseq : seqs_leave_room c evs) (hrun : net_run c s evs = Except.ok s1)
    (h : unstarted s ∨ (capture_window c s ∧ s.last_seq_num < 2 ^ 63)) :
    unstarted s1 ∨ (capture_window c s1 ∧ s1.last_seq_num < 2 ^ 63) := by
  induction evs generalizing s with
  | nil =>
    cases hrun
    exact h
  | cons ev evs ih =>
    unfold net_run at hrun
    rcases hstep : guppi_net_thread c s ev with e | s2
    · rw [hstep] at hrun
      cases hrun
    · rw [hstep] at hrun
      exact ih s2 (fun e he => hseq e (List.mem_cons_of_mem _ he)) hrun
        (net_thread_core c s s2 ev (hseq ev (List.mem_cons_self _ _)) hstep h).1

theorem wrap32_le (x : Nat) : wrap32 x ≤ x := by
  unfold wrap32
  exact Nat.mod_le _ _


/-! ## The first packet of the capture loop -/

theorem zero_fill_calls_succ (c : NetCfg) (b : Int) (start n : Nat) :
    zero_fill_calls c b start (n + 1) =
      Call.memset b start c.packet_data_size ::
        zero_fill_calls c b (start + c.packet_data_size) n := by
  unfold zero_fill_calls
  rw [List.range_succ_eq_map, List.map_cons, List.map_map]
  congr 1
  · simp
  · apply List.map_congr_left
    intro i _
    simp only [Function.comp, Nat.succ_eq_add_one]
    congr 1
    ring

/-- The calls of the zero-fill loop, oldest first after the calls before it. -/
theorem fill_loop_calls (c : NetCfg) (n : Nat) (s : NetState) :
    (net_fill_loop c n s).calls.reverse =
      s.calls.reverse ++ zero_fill_calls c s.curblock s.dataptr n := by
  induction n generalizing s with
  | zero => simp [net_fill_loop, zero_fill_calls]
  | succ n ih =>
    simp only [net_fill_loop]
    rw [ih, zero_fill_calls_succ]
    simp [net_fill_body]

/-- The calls of a placement, oldest first after the calls before it. -/
theorem place_calls (c : NetCfg) (s : NetState) (seq : Nat) (data : Bytes) :
    (net_place c s seq data).calls.reverse =
      s.calls.reverse ++
        zero_fill_calls c s.curblock (wrap64 (s.last_block_packet_idx * c.packet_data_size))
          (wrap32 (sub64 seq s.curblock_seq_num) - s.last_block_packet_idx) ++
        [Call.memcpy s.curblock
          (wrap64 (s.last_block_packet_idx * c.packet_data_size)
            + (wrap32 (sub64 seq s.curblock_seq_num) - s.last_block_packet_idx)
              * c.packet_data_size)
          c.packet_data_size] := by
  simp [net_place, fill_loop_calls, fill_loop_dataptr]

/-- The sequence number check on the first packet. -/
theorem first_packet_diff (s : NetState) (ev : NetEvent) (h : s.last_seq_num = 2048)
    (hq : ev.seq_num < 2 ^ 64) :
    (1024 ≤ ev.seq_num ∧ ev.seq_num < 2048 →
      seq_num_diff s ev < 0 ∧ ¬ seq_num_diff s ev < -1024) ∧
    (ev.seq_num < 1024 → seq_num_diff s ev < -1024) ∧
    (2048 ≤ ev.seq_num → seq_num_diff s ev < -1024 ∨ 0 ≤ seq_num_diff s ev) := by
  unfold seq_num_diff toInt64 sub64
  rw [h]
  refine ⟨fun h1 => ?_, fun h1 => ?_, fun h1 => ?_⟩
  · split_ifs <;> omega
  · split_ifs <;> omega
  · split_ifs <;> omega

theorem first_packet_dropped (c : NetCfg) (s : NetState) (ev : NetEvent)
    (he : loop_entry s) (hrecv : received_ok s ev)
    (h1 : 1024 ≤ ev.seq_num) (h2 : ev.seq_num < 2048) :
    guppi_net_thread c s ev = Except.ok (after_recv s ev) ∧ loop_entry (after_recv s ev) := by
  obtain ⟨hd1, hd2⟩ := (first_packet_diff s ev he.1 (by omega)).1 ⟨h1, h2⟩
  rw [net_thread_received c s ev hrecv, if_neg hd2, if_pos hd1]
  exact ⟨rfl, he⟩

theorem first_packets_dropped (c : NetCfg) (len : Nat) (bytes : Nat → Bytes) (hlen : len < 2 ^ 64)
    (seqs : List Nat) (s : NetState) (he : loop_entry s) (hsz : s.up.packet_size = len)
    (hq : ∀ q ∈ seqs, 1024 ≤ q ∧ q < 2048) :
    ∃ s1, net_run c s (stream_events len bytes seqs) = Except.ok s1 ∧ loop_entry s1 ∧
      s1.up.packet_size = len ∧ s1.mem = s.mem := by
  induction seqs generalizing s with
  | nil => exact ⟨s, rfl, he, hsz, rfl⟩
  | cons q seqs ih =>
    obtain ⟨hrecv, hsz1⟩ := received_ok_of_size s len q (bytes q) hsz hlen
    obtain ⟨hstep, he1⟩ := first_packet_dropped c s (packet_event len q (bytes q)) he hrecv
      (hq q (List.mem_cons_self _ _)).1 (hq q (List.mem_cons_self _ _)).2
    obtain ⟨s1, hrun, h1, h2, h3⟩ := ih (after_recv s (packet_event len q (bytes q))) he1 hsz1
      (fun x hx => hq x (List.mem_cons_of_mem _ hx))
    refine ⟨s1, ?_, h1, h2, h3⟩
    simp only [stream_events, List.map_cons, net_run]
    rw [hstep]
    exact hrun

theorem first_packet_placed (c : NetCfg) (s : NetState) (ev : NetEvent)
    (he : loop_entry s) (hrecv : received_ok s ev)
    (hq : ev.seq_num < 1024 ∨ 2048 ≤ ev.seq_num) (h64 : ev.seq_num < 2 ^ 64)
    (hn : c.n_block ≠ 0) (hp : 0 < c.packets_per_block) (hp32 : c.packets_per_block < 2 ^ 32) :
    ∃ s1, guppi_net_thread c s ev = Except.ok s1 ∧
      s1.curblock = 0 ∧
      s1.calls.reverse =
        Call.guppi_databuf_wait_free 0 ::
          (zero_fill_calls c 0 0 (ev.seq_num % c.packets_per_block) ++
            [Call.memcpy 0 (ev.seq_num % c.packets_per_block * c.packet_data_size)
              c.packet_data_size]) ∧
      s1.curblock_seq_num = ev.seq_num - ev.seq_num % c.packets_per_block ∧
      s1.block_packet_idx = ev.seq_num % c.packets_per_block ∧
      s1.ndropped_block = ev.seq_num % c.packets_per_block ∧
      s1.ndropped_total = ev.seq_num % c.packets_per_block ∧
      s1.last_seq_num = ev.seq_num ∧
      placed_with_zero_fill c.packet_data_size 0 0 (ev.seq_num % c.packets_per_block)
        (recv_data s ev) s.mem s1.mem := by
  obtain ⟨e1, e2, e3, e4, e5, e6, e7, e8, e9, e10⟩ := he
  have hp0 : c.packets_per_block ≠ 0 := by omega
  have hr : ev.seq_num % c.packets_per_block < c.packets_per_block := Nat.mod_lt _ hp
  have hr2 : ev.seq_num % c.packets_per_block ≤ ev.seq_num := Nat.mod_le _ _
  have key : ∀ f : Nat, ∃ s1,
      (net_rollover c { after_recv s ev with force_new_block := f } ev.seq_num).map
        (fun s2 => net_place c s2 ev.seq_num (recv_data s ev)) = Except.ok s1 ∧
      s1.curblock = 0 ∧
      s1.calls.reverse =
        Call.guppi_databuf_wait_free 0 ::
          (zero_fill_calls c 0 0 (ev.seq_num % c.packets_per_block) ++
            [Call.memcpy 0 (ev.seq_num % c.packets_per_block * c.packet_data_size)
              c.packet_data_size]) ∧
      s1.curblock_seq_num = ev.seq_num - ev.seq_num % c.packets_per_block ∧
      s1.block_packet_idx = ev.seq_num % c.packets_per_block ∧
      s1.ndropped_block = ev.seq_num % c.packets_per_block ∧
      s1.ndropped_total = ev.seq_num % c.packets_per_block ∧
      s1.last_seq_num = ev.seq_num ∧
      placed_with_zero_fill c.packet_data_size 0 0 (ev.seq_num % c.packets_per_block)
        (recv_data s ev) s.mem s1.mem := by
    intro f
    have hro : ∃ s2, net_rollover c { after_recv s ev with force_new_block := f } ev.seq_num =
        Except.ok s2 ∧ s2.curblock = 0 ∧ s2.calls = [Call.guppi_databuf_wait_free 0] ∧
        s2.curblock_seq_num = ev.seq_num - ev.seq_num % c.packets_per_block ∧
        s2.last_block_packet_idx = 0 ∧ s2.ndropped_block = 0 ∧ s2.ndropped_total = 0 ∧
        s2.mem = s.mem := by
      refine ⟨{ after_recv s ev with
            force_new_block := f
            npacket_block := 0
            ndropped_block := 0
            nbogus_block := 0
            curblock := 0
            last_block_packet_idx := 0
            curblock_seq_num := ev.seq_num - ev.seq_num % c.packets_per_block
            nextblock_seq_num :=
              wrap64 (ev.seq_num - ev.seq_num % c.packets_per_block + c.packets_per_block)
            calls := [Call.guppi_databuf_wait_free 0] }, ?_, rfl, rfl, rfl, rfl, rfl, e8, rfl⟩
      unfold net_rollover
      simp [after_recv, hn, hp0, e2, e10, sub64_mod_self _ _ h64]
    obtain ⟨s2, hro, g1, g2, g3, g4, g5, g6, g7⟩ := hro
    have hidx : wrap32 (sub64 ev.seq_num s2.curblock_seq_num) =
        ev.seq_num % c.packets_per_block := by
      rw [g3, sub64_eq_sub _ _ h64 (Nat.sub_le _ _)]
      unfold wrap32
      omega
    have hw0 : wrap64 (0 * c.packet_data_size) = 0 := by simp [wrap64]
    obtain ⟨-, hplaced⟩ := place_spec c s2 ev.seq_num (recv_data s ev)
      (by rw [g4]; exact Nat.zero_le _) (by rw [g4]; simp)
    rw [hro]
    refine ⟨net_place c s2 ev.seq_num (recv_data s ev), rfl, ?_, ?_, ?_, ?_, ?_, ?_, ?_, ?_⟩
    · rw [place_curblock, g1]
    · rw [place_calls, g1, g2, g4, hidx, hw0]
      simp
    · rw [place_curblock_seq_num, g3]
    · rw [place_block_packet_idx, hidx]
    · rw [place_ndropped_block, g5, g4, hidx, Nat.sub_zero, bumped_of_lt _ _ (by omega)]
      omega
    · rw [place_ndropped_total, g6, g4, hidx, Nat.sub_zero, bumped_of_lt _ _ (by omega)]
      omega
    · exact place_last_seq_num _ _ _ _
    · rw [g1, g4, hidx, g7] at hplaced
      exact hplaced
  have hd := first_packet_diff s ev e1 h64
  rw [net_thread_received c s ev hrecv]
  rcases hq with hq | hq
  · rw [if_pos (hd.2.1 hq)]
    exact key 1
  · rcases hd.2.2 hq with h | h
    · rw [if_pos h]
      exact key 1
    · have hge : ev.seq_num ≥ s.nextblock_seq_num := by
        rw [e4]
        exact Nat.zero_le _
      rw [if_neg (by omega), if_neg (by omega), if_pos hge]
      exact key 0

/-- A datagram of the configured size leaves the receive parameters as they
are. -/
theorem after_recv_up (s : NetState) (len q : Nat) (bytes : Bytes)
    (hsz : s.up.packet_size = len) (hlen : len < 2 ^ 64) :
    after_recv s (packet_event len q bytes) = { s with waiting := 0 } := by
  have e : ((len : Int) % 2 ^ 64).toNat = len := by omega
  have hne : (len : Int) ≠ -1 := by omega
  have hup : (guppi_udp_recv s.up (net_packet_buffer (packet_event len q bytes))
      (packet_event len q bytes).recv_rv (packet_event len q bytes).bytes).2.1 = s.up := by
    unfold guppi_udp_recv packet_event
    simp only [hne, if_false, e, hsz]
    by_cases h0 : len = 0
    · simp only [h0, ne_eq, not_true_eq_false, if_false]
      rw [← h0, ← hsz]
    · simp [h0]
  unfold after_recv
  rw [hup]


/-! ## C11: producer and consumers visit a ring in the same modular order -/

/-- C11: on a ring of `N > 0` blocks the three loops visit the blocks in the
order `0 mod N, 1 mod N, 2 mod N, ...`.  In every run of the capture loop from
its initial state, the blocks acquired with `guppi_databuf_wait_free` are, in
the order of the calls, the first indices of that order; the null consumer
never stops and its calls are, for `k = 0, 1, ..., n-1` in turn,
`guppi_databuf_wait_filled (k mod N)` followed by
`guppi_databuf_set_free (k mod N)`; and in every run of the fold coordinator,
whatever the headers, the workers and the polyco file do, the blocks of the
input ring acquired with `guppi_databuf_wait_filled` are the first indices of
the same order. -/
theorem C11_ring_visited_in_modular_order (N : Int) (hN : 0 < N) :
    (∀ (c : NetCfg) (up : guppi_udp_params) (mem : Int → Nat → Nat) (evs : List NetEvent)
        (s : NetState), c.n_block = N → net_run c (net_init up mem) evs = Except.ok s →
      wait_free_blocks s.calls = round_robin N (wait_free_blocks s.calls).length) ∧
    (∀ n : Nat, (null_run N n null_init).2 = none ∧
      (null_run N n null_init).1.log.reverse =
        (List.range n).flatMap (fun k => null_visit ((k : Int) % N))) ∧
    (∀ (c : FoldCfg) (evs : List FoldEvent), c.n_block_in = N →
      wait_filled_blocks (fold_run c fold_init evs).1.log =
        round_robin N (wait_filled_blocks (fold_run c fold_init evs).1.log).length) := by
  refine ⟨?_, ?_, ?_⟩
  · intro c up mem evs s hc h
    subst hc
    exact (capture_order_run c evs _ s hN (capture_order_init c up mem) h).1
  · intro n
    have := null_run_order N hN n null_init 0 (by simp [null_init]) (by simp [null_init])
    simpa using this
  · intro c evs hc
    subst hc
    exact fold_run_order c hN evs fold_init (by simp [fold_init, wait_filled_blocks, round_robin])
      (by simp [fold_init, wait_filled_blocks])

/-- Witness of C11 at `N = 3`: the null consumer's first four visits are to
blocks 0, 1, 2, 0; the capture loop, fed the packets 0, 4, 8, 12 with 4 packets
per block, acquires blocks 0, 1, 2, 0; the fold coordinator, fed five blocks of
the 10 s stream, waits for blocks 0, 1, 2, 0, 1. -/
theorem C11_ring_visited_in_modular_order_witness :
    (0 : Int) < 3 ∧
    (null_run 3 4 null_init).1.log.reverse =
      null_visit 0 ++ null_visit 1 ++ null_visit 2 ++ null_visit 0 ∧
    wait_free_blocks
      (net_run_state { packet_data_size := 8192, packets_per_block := 4, n_block := 3 }
        scenario_init
        [scenario_packet 0 0xAA, scenario_packet 4 0xAA, scenario_packet 8 0xAA,
          scenario_packet 12 0xAA]).calls = [0, 1, 2, 0] ∧
    wait_filled_blocks
      (fold_run { n_block_in := 3, n_block_out := 2 } fold_init (ten_second_blocks 5)).1.log =
        [0, 1, 2, 0, 1] :=
  ⟨by decide,
    ((C11_ring_visited_in_modular_order 3 (by decide)).2.1 4).2.trans (by decide),
    ((C11_ring_visited_in_modular_order 3 (by decide)).1
      { packet_data_size := 8192, packets_per_block := 4, n_block := 3 }
      { packet_size := 8208, nchan := 4 } (fun _ _ => 0xFF)
      [scenario_packet 0 0xAA, scenario_packet 4 0xAA, scenario_packet 8 0xAA,
        scenario_packet 12 0xAA] _ rfl rfl).trans (by decide),
    ((C11_ring_visited_in_modular_order 3 (by decide)).2.2
      { n_block_in := 3, n_block_out := 2 } (ten_second_blocks 5) rfl).trans (by decide!)⟩

/-! ## C12: the integration boundary on a stream of 10 s blocks -/

/-- C12 (the claim as stated fails): on the stream whose seconds are 0, 10, 20, ...
(`tfold` = 60 s, only the first block with packet index 0, everything outside
the coordinator succeeding) no output block has been sealed after 7 input
blocks, and after 15 input blocks two have been sealed, each with `NBLOCK = 7`
and the packet counts of 7 input blocks (blocks 0 to 6: 721 packets, 21
dropped; blocks 7 to 13: 770 packets, 70 dropped).  The boundary test
`fmjd > fmjd_next` is strict, and the doubles `fmjd` of the block 60 s after
the start of the integration and `fmjd_next` are equal here, so that block
still belongs to the integration. -/
theorem C12_six_blocks_per_output_block_counterexample :
    ten_second_stream ten_second_block 0 ∧
    fold_fmjd (ten_second_block 6) = fold_fmjd_next (fold_fmjd (ten_second_block 0)) ∧
    (fold_run { n_block_in := 5, n_block_out := 2 } fold_init (ten_second_blocks 7)).2 = none ∧
    sealed_headers
      (fold_run { n_block_in := 5, n_block_out := 2 } fold_init (ten_second_blocks 7)).1.log =
        [] ∧
    (fold_run { n_block_in := 5, n_block_out := 2 } fold_init (ten_second_blocks 15)).2 = none ∧
    sealed_headers
      (fold_run { n_block_in := 5, n_block_out := 2 } fold_init (ten_second_blocks 15)).1.log =
        [(0, some 7, some 721, some 21), (1, some 7, some 770, some 70)] := by
  refine ⟨?_, by decide!, by decide!, by decide!, by decide!, by decide!⟩
  have h := ten_second_block_from_stream 0
  rw [Nat.cast_zero] at h
  exact h

/-- C12 (amended): on a stream whose seconds advance by exactly 10 s per block
from `t0 ≥ 0` and stay below `2^32`, with only the first block at packet index
0, a polyco file that loads, a polyco that always matches and no block with 0
channels or polarisations (rings of `n_block_in` different from 0 and `No > 0`
output blocks), the coordinator runs through any number `n` of input blocks
without stopping and seals one output block per 6 or 7 input blocks.  The
integration that begins at input block `a` has 6 blocks when the double `fmjd`
of block `a + 6` is greater than the double `fmjd_next` computed at block `a`,
and 7 blocks otherwise; it is sealed when the block after its last one is
processed.  After `n` input blocks the sealed blocks are, for the integrations
`i = 0, 1, ...` that are complete by then, output block `i mod No` with a header
carrying `NBLOCK` equal to the number of blocks of the integration and `NPKT`,
`NDROP` equal to the sums (as `int`) of the packet and drop counts of its input
blocks.  This holds whatever `pthread_create` and `pthread_join` return. -/
theorem C12_six_or_seven_blocks_per_output_block (c : FoldCfg) (No : Nat) (hNo : 0 < No)
    (hc : c.n_block_out = (No : Int)) (hin : c.n_block_in ≠ 0) (blocks : Nat → FoldEvent)
    (t0 : ℚ) (hs : ten_second_stream blocks t0) (h0 : 0 ≤ t0) (n : Nat)
    (hB : t0 + 10 * (n : ℚ) ≤ 2 ^ 32) :
    (fold_run c fold_init ((List.range n).map blocks)).2 = none ∧
    sealed_headers (fold_run c fold_init ((List.range n).map blocks)).1.log =
      sealed_integrations blocks No n n 0 0 := by
  cases n with
  | zero => exact ⟨rfl, rfl⟩
  | succ n =>
    have hB1 : t0 + 10 * (n : ℚ) ≤ 2 ^ (32 : Nat) := by
      push_cast at hB
      linarith
    obtain ⟨h1, i, a, r, hn, hr, hst⟩ := steady_run c No hNo hc hin blocks t0 hs h0 n hB1
    refine ⟨h1, ?_⟩
    have hch := hst.2.2.2.2.2.2.2.2.2.1
    have hle := integration_chain_le blocks No _ _ _ _ _ hch
    exact (integration_chain_sealed blocks No (n + 1) _ (n + 1) 0 0 i a hch (by omega) (by omega)
      (by omega)).symm

/-- Witness of C12 (amended): on 14 blocks of the 10 s stream that starts at
second 1234, with an output ring of 2 blocks: two output blocks are sealed, the
first with the counts of the 6 blocks 0 to 5 (the double `fmjd` of block 6 is
greater than `fmjd_next`), the second with the counts of the 7 blocks 6 to
12. -/
theorem C12_six_or_seven_blocks_per_output_block_witness :
    (0 < 2 ∧ (5 : Int) ≠ 0 ∧ ten_second_stream (ten_second_block_from 1234) 1234 ∧
      (0 : ℚ) ≤ 1234 ∧ (1234 : ℚ) + 10 * ((14 : Nat) : ℚ) ≤ 2 ^ 32) ∧
    ((fold_run { n_block_in := 5, n_block_out := 2 } fold_init
        ((List.range 14).map (ten_second_block_from 1234))).2 = none ∧
      sealed_headers (fold_run { n_block_in := 5, n_block_out := 2 } fold_init
        ((List.range 14).map (ten_second_block_from 1234))).1.log =
        sealed_integrations (ten_second_block_from 1234) 2 14 14 0 0) ∧
    dlt (fold_fmjd_next (fold_fmjd (ten_second_block_from 1234 0)))
      (fold_fmjd (ten_second_block_from 1234 6)) = true ∧
    sealed_integrations (ten_second_block_from 1234) 2 14 14 0 0 =
      [(0, some 6, some 615, some 15), (1, some 7, some 763, some 63)] := by
  have hs : ten_second_stream (ten_second_block_from 1234) 1234 := by
    have h := ten_second_block_from_stream 1234
    rw [Nat.cast_ofNat] at h
    exact h
  exact ⟨⟨by decide, by decide, hs, by norm_num, by norm_num⟩,
    C12_six_or_seven_blocks_per_output_block { n_block_in := 5, n_block_out := 2 } 2 (by decide)
      rfl (by decide) (ten_second_block_from 1234) 1234 hs (by norm_num) 14 (by norm_num),
    by decide!, by decide!⟩


/-! ## C13: the producer protocol on the output ring -/

/-- C13 (the code departs from the claim) on the first output block: with two input blocks 70 s apart (input
ring of 3 blocks, output ring of 2) the coordinator runs two full iterations,
and its calls are, in order, the ones listed.  The first-time set-up writes the
header of output block 0 and the second iteration passes block 0 to
`guppi_databuf_set_filled` although no `guppi_databuf_wait_free` on block 0 was
ever made; the merge before it was made into `fb.data = NULL` (`-1`).  Only the
blocks after the first are acquired with `guppi_databuf_wait_free`. -/
theorem C13_first_output_block_sealed_without_wait_free :
    (fold_run { n_block_in := 3, n_block_out := 2 } fold_init two_block_events).2 = none ∧
    (fold_run { n_block_in := 3, n_block_out := 2 } fold_init two_block_events).1.log.reverse =
      [FoldCall.guppi_databuf_wait_filled 0,
        FoldCall.clear_foldbuf 0, FoldCall.clear_foldbuf 1,
        FoldCall.clear_foldbuf 2, FoldCall.clear_foldbuf 3,
        FoldCall.header_copy 0 0,
        FoldCall.hputi4 0 FoldKey.NBIN 256,
        FoldCall.pthread_create 0 0 0,
        FoldCall.hputi4 0 FoldKey.NBLOCK 1,
        FoldCall.hputi4 0 FoldKey.NPKT 100,
        FoldCall.hputi4 0 FoldKey.NDROP 0,
        FoldCall.guppi_databuf_wait_filled 1,
        FoldCall.pthread_join 0 0,
        FoldCall.guppi_databuf_set_free 0,
        FoldCall.accumulate_folds (-1) 0,
        FoldCall.clear_foldbuf 0,
        FoldCall.guppi_databuf_set_filled 0,
        FoldCall.guppi_databuf_wait_free 1,
        FoldCall.header_copy 1 1,
        FoldCall.hputs_obs_mode 1,
        FoldCall.hputi4 1 FoldKey.NBIN 256,
        FoldCall.hputi4 1 FoldKey.PKTIDX 7000,
        FoldCall.clear_foldbuf_total 1,
        FoldCall.pthread_create 0 1 0,
        FoldCall.hputi4 1 FoldKey.NBLOCK 1,
        FoldCall.hputi4 1 FoldKey.NPKT 100,
        FoldCall.hputi4 1 FoldKey.NDROP 0] ∧
    producer_protocol
      (fold_run { n_block_in := 3, n_block_out := 2 } fold_init two_block_events).1.log =
        false := by
  refine ⟨by decide!, by decide!, by decide!⟩


/-! ## C14: input blocks are freed in order, after the join, in a later iteration -/

/-- C14: in every run of the fold coordinator in which each worker is created
and each join succeeds, at every point `l` of the call log (the calls made up
to some moment, wherever the run stops) the monitor `ring_a_fifo` has accepted
all calls: each `guppi_databuf_set_free` was for the oldest input block
acquired and not yet freed, after the `pthread_join` of the worker that was
launched on that block, and in an iteration later than the one that launched
it.  Hence the blocks freed so far are a prefix of the blocks acquired so far
with `guppi_databuf_wait_filled`. -/
theorem C14_input_blocks_freed_in_order_after_join (c : FoldCfg) (evs : List FoldEvent)
    (hok : ∀ ev ∈ evs, workers_succeed ev) :
    ∀ l, l <:+ (fold_run c fold_init evs).1.log →
      (ring_a_fifo l).isSome ∧ set_free_blocks l <+: wait_filled_blocks l := by
  intro l hl
  have h := run_monitor_suffix ring_a_step (0, []) l _ hl
    (fifo_run_ok c evs fold_init hok fifo_top_init)
  refine ⟨h, ?_⟩
  obtain ⟨q, hq⟩ := Option.isSome_iff_exists.1 h
  exact ⟨q.2.map Prod.fst, (fifo_split l q hq).symm⟩

/-- Witness of C14: on nine blocks of the 10 s stream, input ring of 5 blocks: at the end
blocks 0, 1, 2, 3 (first join phase) and 4, 0, 1 (at the boundary) were freed,
in the order they were acquired, and blocks 2 and 3 are with their workers. -/
theorem C14_input_blocks_freed_in_order_after_join_witness :
    (∀ ev ∈ ten_second_blocks 9, workers_succeed ev) ∧
    ((ring_a_fifo (fold_run { n_block_in := 5, n_block_out := 2 } fold_init
        (ten_second_blocks 9)).1.log).isSome ∧
      set_free_blocks (fold_run { n_block_in := 5, n_block_out := 2 } fold_init
        (ten_second_blocks 9)).1.log <+:
      wait_filled_blocks (fold_run { n_block_in := 5, n_block_out := 2 } fold_init
        (ten_second_blocks 9)).1.log) ∧
    set_free_blocks (fold_run { n_block_in := 5, n_block_out := 2 } fold_init
        (ten_second_blocks 9)).1.log = [0, 1, 2, 3, 4, 0, 1] ∧
    wait_filled_blocks (fold_run { n_block_in := 5, n_block_out := 2 } fold_init
        (ten_second_blocks 9)).1.log = [0, 1, 2, 3, 4, 0, 1, 2, 3] :=
  ⟨ten_second_blocks_succeed 9,
    C14_input_blocks_freed_in_order_after_join { n_block_in := 5, n_block_out := 2 }
      (ten_second_blocks 9) (ten_second_blocks_succeed 9) _ (List.suffix_refl _),
    by decide!, by decide!⟩


/-! ## C15: each input block contributes to one output integration -/

/-- C16 (the claim as stated fails) on small rings: on an input ring of 2 blocks the third iteration
waits for block 0 while blocks 0 and 1 are still with their workers, and on a
ring of 4 blocks the fifth iteration waits for block 0 while blocks 0 to 3 are
in flight (the join phase comes after `guppi_databuf_wait_filled`); in these
runs every worker is created and no join fails.  On a ring of 5 blocks the same
happens when the joins fail (the blocks of the failed joins are never freed) or
when workers cannot be created (block 0 stays with its worker while
`curblock_in` goes round the ring). -/
theorem C16_small_ring_waits_for_block_in_flight :
    (fold_run { n_block_in := 2, n_block_out := 2 } fold_init (ten_second_blocks 2)).2 = none ∧
    in_flight
      (fold_run { n_block_in := 2, n_block_out := 2 } fold_init (ten_second_blocks 2)).1.log =
        some [0, 1] ∧
    in_flight
      (fold_run { n_block_in := 2, n_block_out := 2 } fold_init (ten_second_blocks 3)).1.log =
        none ∧
    in_flight
      (fold_run { n_block_in := 4, n_block_out := 2 } fold_init (ten_second_blocks 4)).1.log =
        some [0, 1, 2, 3] ∧
    in_flight
      (fold_run { n_block_in := 4, n_block_out := 2 } fold_init (ten_second_blocks 5)).1.log =
        none ∧
    in_flight
      (fold_run { n_block_in := 5, n_block_out := 2 } fold_init
        ((ten_second_blocks 6).map (with_join_rv 1))).1.log = none ∧
    in_flight
      (fold_run { n_block_in := 5, n_block_out := 2 } fold_init
        (ten_second_block 0 ::
          (List.range 5).map (fun k => with_create_rv 1 (ten_second_block (k + 1))))).1.log =
        none := by
  refine ⟨by decide!, by decide!, by decide!, by decide!, by decide!, by decide!, by decide!⟩

/-- C16 (amended): on an input ring of `N > 4` blocks (more than the pool of 4
workers), in every run in which each worker is created and each join succeeds,
the coordinator never calls `guppi_databuf_wait_filled` on a block that it has
dispatched to a worker and not yet passed to `guppi_databuf_set_free`: the
monitor `in_flight` accepts the whole call log, wherever the run stops. -/
theorem C16_no_wait_for_block_in_flight (N : Nat) (hN : 4 < N) (c : FoldCfg)
    (hc : c.n_block_in = (N : Int)) (evs : List FoldEvent)
    (hok : ∀ ev ∈ evs, workers_succeed ev) :
    (in_flight (fold_run c fold_init evs).1.log).isSome :=
  in_flight_run_ok N hN c hc evs fold_init hok (in_flight_top_init N)

/-- Witness of C16 (amended): on a ring of 5 blocks and nine blocks of the 10 s stream: the
run goes through and ends with blocks 2 and 3 in flight. -/
theorem C16_no_wait_for_block_in_flight_witness :
    (4 < 5 ∧ (∀ ev ∈ ten_second_blocks 9, workers_succeed ev)) ∧
    (in_flight
      (fold_run { n_block_in := 5, n_block_out := 2 } fold_init
        (ten_second_blocks 9)).1.log).isSome ∧
    in_flight
      (fold_run { n_block_in := 5, n_block_out := 2 } fold_init (ten_second_blocks 9)).1.log =
        some [2, 3] :=
  ⟨⟨by decide, ten_second_blocks_succeed 9⟩,
    C16_no_wait_for_block_in_flight 5 (by decide) { n_block_in := 5, n_block_out := 2 } rfl
      (ten_second_blocks 9) (ten_second_blocks_succeed 9),
    by decide!⟩


/-! ## C17: the in-flight set is bounded by the pool size -/

/-- C17: in every run of the fold coordinator, whatever `pthread_create` and
`pthread_join` return and wherever the run stops, `0 <= cur_thread <= 4` holds
in the state reached; in the iteration that starts there, for any input, the
value of `cur_thread` at the launch of a worker is `0 <= cur_thread < 4`; and
every `pthread_create` of the run was made for a slot within the arrays. -/
theorem C17_worker_pool_bounded (c : FoldCfg) (evs : List FoldEvent) :
    (0 ≤ (fold_run c fold_init evs).1.cur_thread ∧
      (fold_run c fold_init evs).1.cur_thread ≤ 4) ∧
    (∀ ev : FoldEvent,
      0 ≤ launch_slot c (fold_run c fold_init evs).1 ev ∧
      launch_slot c (fold_run c fold_init evs).1 ev < 4) ∧
    launches_within_pool (fold_run c fold_init evs).1.log := by
  have h := pool_bounded_run c evs fold_init pool_bounded_init
  refine ⟨h.1, fun ev => ?_, h.2⟩
  exact (pool_has_room_polyco _ ev (pool_has_room_finalize c _ ev h)).1


/-! ## C18: the window of the capture loop -/

/-- C18: run the capture loop from its initial state over events whose sequence
numbers are all below `2 ^ 63 - packets_per_block`.  After every packet the
loop accepts (received with the configured size and not in the late window),
`curblock_seq_num` is a multiple of `packets_per_block`, `nextblock_seq_num` is
`curblock_seq_num + packets_per_block`, and
`curblock_seq_num <= seq = last_seq_num < nextblock_seq_num`; hence the slot
index `seq - curblock_seq_num` is below `packets_per_block`, and so is the
`unsigned int` the loop computes for it, `block_packet_idx`.
`packets_per_block > 0` follows from the iteration not trapping. -/
theorem C18_capture_window (c : NetCfg) (up : guppi_udp_params) (mem : Int → Nat → Nat)
    (evs : List NetEvent) (ev : NetEvent) (s s1 : NetState)
    (hseq : seqs_leave_room c (evs ++ [ev]))
    (hrun : net_run c (net_init up mem) evs = Except.ok s)
    (hstep : guppi_net_thread c s ev = Except.ok s1) (hacc : accepted s ev) :
    0 < c.packets_per_block ∧
    s1.curblock_seq_num % c.packets_per_block = 0 ∧
    s1.nextblock_seq_num = s1.curblock_seq_num + c.packets_per_block ∧
    s1.curblock_seq_num ≤ ev.seq_num ∧ s1.last_seq_num = ev.seq_num ∧
    ev.seq_num < s1.nextblock_seq_num ∧
    ev.seq_num - s1.curblock_seq_num < c.packets_per_block ∧
    s1.block_packet_idx < c.packets_per_block := by
  have h0 : unstarted (net_init up mem) ∨
      (capture_window c (net_init up mem) ∧ (net_init up mem).last_seq_num < 2 ^ 63) :=
    Or.inl ⟨rfl, rfl⟩
  have hs := net_run_core c evs _ s
    (fun e he => hseq e (List.mem_append_left _ he)) hrun h0
  obtain ⟨⟨h1, h2, h3, h4⟩, h5, h6⟩ :=
    (net_thread_core c s s1 ev (hseq ev (by simp)) hstep hs).2 hacc
  rw [h5] at h3 h4
  have hidx : ev.seq_num - s1.curblock_seq_num < c.packets_per_block := by omega
  refine ⟨by omega, h1, h2, h3, h5, h4, hidx, ?_⟩
  rw [h6]
  exact lt_of_le_of_lt (wrap32_le _) hidx

/-- Witness of C18: in the scenario with 4 packets per block: after the packets 100 and 101
the window is `100 <= 101 < 104` and packet 101 sits in slot 1. -/
theorem C18_capture_window_witness :
    (seqs_leave_room scenario_cfg ([scenario_packet 100 0xAA] ++ [scenario_packet 101 0xAA]) ∧
      net_run scenario_cfg (net_init { packet_size := 8208, nchan := 4 } (fun _ _ => 0xFF))
        [scenario_packet 100 0xAA] = Except.ok scenario_after_100 ∧
      guppi_net_thread scenario_cfg scenario_after_100 (scenario_packet 101 0xAA) =
        Except.ok (net_run_state scenario_cfg scenario_after_100 [scenario_packet 101 0xAA]) ∧
      accepted scenario_after_100 (scenario_packet 101 0xAA)) ∧
    (0 < scenario_cfg.packets_per_block ∧
      (net_run_state scenario_cfg scenario_after_100
        [scenario_packet 101 0xAA]).curblock_seq_num % scenario_cfg.packets_per_block = 0 ∧
      (net_run_state scenario_cfg scenario_after_100
        [scenario_packet 101 0xAA]).nextblock_seq_num =
        (net_run_state scenario_cfg scenario_after_100
          [scenario_packet 101 0xAA]).curblock_seq_num + scenario_cfg.packets_per_block ∧
      (net_run_state scenario_cfg scenario_after_100
        [scenario_packet 101 0xAA]).curblock_seq_num ≤ (scenario_packet 101 0xAA).seq_num ∧
      (net_run_state scenario_cfg scenario_after_100
        [scenario_packet 101 0xAA]).last_seq_num = (scenario_packet 101 0xAA).seq_num ∧
      (scenario_packet 101 0xAA).seq_num <
        (net_run_state scenario_cfg scenario_after_100
          [scenario_packet 101 0xAA]).nextblock_seq_num ∧
      (scenario_packet 101 0xAA).seq_num -
        (net_run_state scenario_cfg scenario_after_100
          [scenario_packet 101 0xAA]).curblock_seq_num < scenario_cfg.packets_per_block ∧
      (net_run_state scenario_cfg scenario_after_100
        [scenario_packet 101 0xAA]).block_packet_idx < scenario_cfg.packets_per_block) ∧
    (net_run_state scenario_cfg scenario_after_100
      [scenario_packet 101 0xAA]).curblock_seq_num = 100 ∧
    (net_run_state scenario_cfg scenario_after_100
      [scenario_packet 101 0xAA]).nextblock_seq_num = 104 ∧
    (net_run_state scenario_cfg scenario_after_100
      [scenario_packet 101 0xAA]).block_packet_idx = 1 := by
  have hseq : seqs_leave_room scenario_cfg
      ([scenario_packet 100 0xAA] ++ [scenario_packet 101 0xAA]) := by
    intro e he
    simp only [List.cons_append, List.nil_append, List.mem_cons, List.mem_singleton,
      List.not_mem_nil, or_false] at he
    rcases he with rfl | rfl <;> decide
  have hacc : accepted scenario_after_100 (scenario_packet 101 0xAA) :=
    ⟨⟨rfl, rfl⟩, by decide⟩
  exact ⟨⟨hseq, rfl, rfl, hacc⟩,
    C18_capture_window scenario_cfg { packet_size := 8208, nchan := 4 } (fun _ _ => 0xFF)
      [scenario_packet 100 0xAA] (scenario_packet 101 0xAA) scenario_after_100 _ hseq rfl rfl
      hacc,
    by decide, by decide, by decide⟩


/-! ## C19: the first packet of the capture loop -/

/-- C19: let the capture loop be in its state at loop entry (`last_seq_num` =
2048, `curblock = -1`, no call made), configured for datagrams of `len` bytes.
A datagram of that size with sequence number `1024 <= q < 2048` is dropped: the
iteration leaves the state as it is (only `waiting` is reset to 0).  Hence a
whole stream of such datagrams is dropped and leaves the loop at loop entry.
A datagram of that size with any other 64-bit sequence number `q` (with
`n_block` different from 0 and `0 < packets_per_block < 2 ^ 32`) is placed: the
calls of the iteration are `guppi_databuf_wait_free 0`, with no
`guppi_databuf_set_filled`, then a `memset` for each of the slots
`0, ..., q mod packets_per_block - 1` of block 0, then the `memcpy` of the
payload to slot `q mod packets_per_block`; `curblock_seq_num` is
`q - q mod packets_per_block`, both drop counters are `q mod packets_per_block`,
and the data region of block 0 holds zeros in those slots and the payload in
the packet's slot. -/
theorem C19_first_packet (c : NetCfg) (s : NetState) (len : Nat) (bytes : Nat → Bytes)
    (he : loop_entry s) (hsz : s.up.packet_size = len) (hlen : len < 2 ^ 64) :
    (∀ q, 1024 ≤ q → q < 2048 →
      guppi_net_thread c s (packet_event len q (bytes q)) = Except.ok { s with waiting := 0 }) ∧
    (∀ seqs : List Nat, (∀ q ∈ seqs, 1024 ≤ q ∧ q < 2048) →
      ∃ s1, net_run c s (stream_events len bytes seqs) = Except.ok s1 ∧ loop_entry s1 ∧
        s1.up.packet_size = len ∧ s1.mem = s.mem) ∧
    (∀ q, (q < 1024 ∨ 2048 ≤ q) → q < 2 ^ 64 → c.n_block ≠ 0 →
      0 < c.packets_per_block → c.packets_per_block < 2 ^ 32 →
      ∃ s1, guppi_net_thread c s (packet_event len q (bytes q)) = Except.ok s1 ∧
        s1.curblock = 0 ∧
        s1.calls.reverse =
          Call.guppi_databuf_wait_free 0 ::
            (zero_fill_calls c 0 0 (q % c.packets_per_block) ++
              [Call.memcpy 0 (q % c.packets_per_block * c.packet_data_size)
                c.packet_data_size]) ∧
        s1.curblock_seq_num = q - q % c.packets_per_block ∧
        s1.block_packet_idx = q % c.packets_per_block ∧
        s1.ndropped_block = q % c.packets_per_block ∧
        s1.ndropped_total = q % c.packets_per_block ∧
        s1.last_seq_num = q ∧
        placed_with_zero_fill c.packet_data_size 0 0 (q % c.packets_per_block)
          (recv_data s (packet_event len q (bytes q))) s.mem s1.mem) := by
  refine ⟨fun q h1 h2 => ?_, fun seqs hq => ?_, fun q hq h64 hn hp hp32 => ?_⟩
  · have hrecv := (received_ok_of_size s len q (bytes q) hsz hlen).1
    rw [(first_packet_dropped c s (packet_event len q (bytes q)) he hrecv h1 h2).1,
      after_recv_up s len q (bytes q) hsz hlen]
  · exact first_packets_dropped c len bytes hlen seqs s he hsz hq
  · have hrecv := (received_ok_of_size s len q (bytes q) hsz hlen).1
    exact first_packet_placed c s (packet_event len q (bytes q)) he hrecv hq h64 hn hp hp32

/-- Witness of C19: in the scenario with 4 packets per block: the first packet 1500 is
dropped and leaves the initial state; the first packet 2050 takes block 0,
zero-fills slots 0 and 1 and lands in slot 2 of the block that begins at
2048. -/
theorem C19_first_packet_witness :
    (loop_entry scenario_init ∧ scenario_init.up.packet_size = 8208 ∧ 8208 < 2 ^ 64) ∧
    guppi_net_thread scenario_cfg scenario_init (scenario_packet 1500 0xAA) =
      Except.ok scenario_init ∧
    ∃ s1, guppi_net_thread scenario_cfg scenario_init (scenario_packet 2050 0xAA) =
        Except.ok s1 ∧
      s1.curblock = 0 ∧
      s1.calls.reverse =
        [Call.guppi_databuf_wait_free 0, Call.memset 0 0 8192, Call.memset 0 8192 8192,
          Call.memcpy 0 16384 8192] ∧
      s1.curblock_seq_num = 2048 ∧ s1.block_packet_idx = 2 ∧
      s1.ndropped_block = 2 ∧ s1.ndropped_total = 2 := by
  have he : loop_entry scenario_init := ⟨rfl, rfl, rfl, rfl, rfl, rfl, rfl, rfl, rfl, rfl⟩
  have h := C19_first_packet scenario_cfg scenario_init 8208 (fun _ _ => 0xAA) he rfl
    (by norm_num)
  refine ⟨⟨he, rfl, by norm_num⟩, h.1 1500 (by norm_num) (by norm_num), ?_⟩
  obtain ⟨s1, h1, h2, h3, h4, h5, h6, h7, -, -⟩ :=
    h.2.2 2050 (Or.inr (by norm_num)) (by norm_num) (by decide) (by decide) (by decide)
  exact ⟨s1, h1, h2, h3, h4, h5, h6, h7⟩

end GuppiDaq
